import Mathlib

/-!
# Othello: board rules and single-bound minimax search

A shallow embedding of `othello.c`.  The two global 8x8 arrays `board` and
`boardAI` become values of type `Board` that are threaded through the
functions that mutate them; the global depth counter `z` is threaded the same
way.  C `int` cells are modelled as mathematical integers (scores stay inside
`[-64, 64]` on tri-state boards, far from any overflow).

A result of `none` means that the modelled code would have indexed a cell
outside the 8x8 grid or that a `while` loop did not finish within the fuel
given to it.
-/

namespace Othello

/-- The contents of an 8x8 array `int board[BOARD_MAX][BOARD_MAX]`; only the
cells with both indices in `[0, 7]` exist in the program. -/
abbrev Board := Int → Int → Int

/-- Dimension of the square board (`#define BOARD_MAX 8`). -/
def BOARD_MAX : Int := 8

/-- Depth limit of the search tree (`#define DEPTH_MAX 6`). -/
def DEPTH_MAX : Int := 6

/-- Both indices address a cell of the 8x8 array. -/
def inBounds (i j : Int) : Bool :=
  decide (0 ≤ i) && decide (i < BOARD_MAX) && decide (0 ≤ j) && decide (j < BOARD_MAX)

/-- An array read `board[i][j]`; `none` when the index is outside the array. -/
def rd (b : Board) (i j : Int) : Option Int :=
  if inBounds i j then some (b i j) else none

/-- The board after an assignment to one cell. -/
def setCell (b : Board) (i j v : Int) : Board :=
  fun a c => if a = i ∧ c = j then v else b a c

/-- An array write `board[i][j] = v`; `none` when the index is outside the array. -/
def wr (b : Board) (i j v : Int) : Option Board :=
  if inBounds i j then some (setCell b i j v) else none

/-- Loop indices of `for (k = 0; k < BOARD_MAX; k++)`. -/
def idx8 : List Int := [0, 1, 2, 3, 4, 5, 6, 7]

/-- Loop indices of `for (m = 0; m < 3; m++)`. -/
def idx3 : List Int := [0, 1, 2]

/-- The `switch` that turns a loop index 0, 1, 2 into an increment -1, 0, 1. -/
def incr (m : Int) : Int :=
  if m = 0 then -1 else if m = 1 then 0 else 1

/-- How the outward `while` loop of `isLegal` ends: at the last tile of an
opposing run that is closed by an own tile (`anchor i j`), or without one. -/
inductive Scan where
  | anchor (i j : Int)
  | stop
  deriving DecidableEq, Repr

/-- The loop `while (board[i + x][j + y] == alignment * (-1))` of `isLegal`,
entered with the current tile `(i, j)`. -/
def scanLoop (b : Board) (alignment x y : Int) : Nat → Int → Int → Option Scan
  | 0, _, _ => none
  | fuel + 1, i, j =>
    match rd b (i + x) (j + y) with
    | none => none
    | some v =>
      if v = alignment * (-1) then
        let i1 := i + x
        let j1 := j + y
        if (i1 + x) < 0 ∨ (i1 + x) ≥ BOARD_MAX ∨ (j1 + y) < 0 ∨ (j1 + y) ≥ BOARD_MAX then
          some Scan.stop
        else
          match rd b (i1 + x) (j1 + y) with
          | none => none
          | some w =>
            if w = 0 then some Scan.stop
            else if w = alignment then some (Scan.anchor i1 j1)
            else scanLoop b alignment x y fuel i1 j1
      else some Scan.stop

/-- The loop `while (i != i_origin || j != j_origin) { board[i][j] *= -1; i -= x; j -= y; }`. -/
def flipLoop (x y i_origin j_origin : Int) : Nat → Board → Int → Int → Option Board
  | 0, _, _, _ => none
  | fuel + 1, b, i, j =>
    if i ≠ i_origin ∨ j ≠ j_origin then
      match rd b i j with
      | none => none
      | some v =>
        match wr b i j (v * (-1)) with
        | none => none
        | some b1 => flipLoop x y i_origin j_origin fuel b1 (i - x) (j - y)
    else some b

/-- State of the direction loops of `isLegal`: still iterating with the
current board and `legality`, or left by `return true`. -/
inductive Dir where
  | go (b : Board) (legality : Bool)
  | ret (b : Board)

/-- The inner loop `for (n = 0; n < 3; n++)` of `isLegal` for a fixed
horizontal increment `x`. -/
def dirCols (i_origin j_origin alignment : Int) (flip : Bool) (x : Int) :
    List Int → Board → Bool → Option Dir
  | [], b, legality => some (Dir.go b legality)
  | n :: ns, b, legality =>
    let y := incr n
    if x = 0 ∧ y = 0 then dirCols i_origin j_origin alignment flip x ns b legality
    else if (j_origin + y) < 0 ∨ (j_origin + y) ≥ BOARD_MAX then
      dirCols i_origin j_origin alignment flip x ns b legality
    else
      match scanLoop b alignment x y 8 i_origin j_origin with
      | none => none
      | some Scan.stop => dirCols i_origin j_origin alignment flip x ns b legality
      | some (Scan.anchor i j) =>
        if flip = true then
          match flipLoop x y i_origin j_origin 8 b i j with
          | none => none
          | some b1 => dirCols i_origin j_origin alignment flip x ns b1 true
        else some (Dir.ret b)

/-- The outer loop `for (m = 0; m < 3; m++)` of `isLegal`. -/
def dirRows (i_origin j_origin alignment : Int) (flip : Bool) :
    List Int → Board → Bool → Option Dir
  | [], b, legality => some (Dir.go b legality)
  | m :: ms, b, legality =>
    let x := incr m
    if (i_origin + x) < 0 ∨ (i_origin + x) ≥ BOARD_MAX then
      dirRows i_origin j_origin alignment flip ms b legality
    else
      match dirCols i_origin j_origin alignment flip x idx3 b legality with
      | none => none
      | some (Dir.ret b1) => some (Dir.ret b1)
      | some (Dir.go b1 legality1) => dirRows i_origin j_origin alignment flip ms b1 legality1

/-- The function `isLegal(i, j, alignment, flip)` on the global `board`:
the returned legality and the board it leaves behind. -/
def isLegal (board : Board) (i j alignment : Int) (flip : Bool) : Option (Bool × Board) :=
  match rd board i j with
  | none => none
  | some v =>
    if v ≠ 0 then some (false, board)
    else
      match dirRows i j alignment flip idx3 board false with
      | none => none
      | some (Dir.ret b1) => some (true, b1)
      | some (Dir.go b1 legality) =>
        if legality = true ∧ flip = true then
          match wr b1 i j alignment with
          | none => none
          | some b2 => some (legality, b2)
        else some (legality, b1)

/-- The function `isAnyMoveAvailable(alignment)`, inner loop over `j`:
`true` as soon as some cell of row `i` is a legal move. -/
def anyMoveCols (alignment i : Int) : List Int → Board → Option (Bool × Board)
  | [], b => some (false, b)
  | j :: js, b =>
    match isLegal b i j alignment false with
    | none => none
    | some (true, b1) => some (true, b1)
    | some (false, b1) => anyMoveCols alignment i js b1

/-- The function `isAnyMoveAvailable(alignment)`, outer loop over `i`. -/
def anyMoveRows (alignment : Int) : List Int → Board → Option (Bool × Board)
  | [], b => some (false, b)
  | i :: is, b =>
    match anyMoveCols alignment i idx8 b with
    | none => none
    | some (true, b1) => some (true, b1)
    | some (false, b1) => anyMoveRows alignment is b1

/-- The function `isAnyMoveAvailable(alignment)` on the global `board`: the
returned value and the board it leaves behind. -/
def isAnyMoveAvailable (board : Board) (alignment : Int) : Option (Bool × Board) :=
  anyMoveRows alignment idx8 board

/-- The function `boardCount()`: the sum of the 64 cells, accumulated row by
row as the two nested `for` loops do. -/
def boardCount (board : Board) : Int :=
  idx8.foldl (fun count i => idx8.foldl (fun count1 j => count1 + board i j) count) 0

/-- The inner direction loop of `isLegalAI` (no `flip` argument: an anchored
run is always flipped). -/
def dirColsAI (i_origin j_origin alignment : Int) (x : Int) :
    List Int → Board → Bool → Option (Board × Bool)
  | [], b, legality => some (b, legality)
  | n :: ns, b, legality =>
    let y := incr n
    if x = 0 ∧ y = 0 then dirColsAI i_origin j_origin alignment x ns b legality
    else if (j_origin + y) < 0 ∨ (j_origin + y) ≥ BOARD_MAX then
      dirColsAI i_origin j_origin alignment x ns b legality
    else
      match scanLoop b alignment x y 8 i_origin j_origin with
      | none => none
      | some Scan.stop => dirColsAI i_origin j_origin alignment x ns b legality
      | some (Scan.anchor i j) =>
        match flipLoop x y i_origin j_origin 8 b i j with
        | none => none
        | some b1 => dirColsAI i_origin j_origin alignment x ns b1 true

/-- The outer direction loop of `isLegalAI`. -/
def dirRowsAI (i_origin j_origin alignment : Int) :
    List Int → Board → Bool → Option (Board × Bool)
  | [], b, legality => some (b, legality)
  | m :: ms, b, legality =>
    let x := incr m
    if (i_origin + x) < 0 ∨ (i_origin + x) ≥ BOARD_MAX then
      dirRowsAI i_origin j_origin alignment ms b legality
    else
      match dirColsAI i_origin j_origin alignment x idx3 b legality with
      | none => none
      | some (b1, legality1) => dirRowsAI i_origin j_origin alignment ms b1 legality1

/-- The function `isLegalAI(i, j, alignment)` on the global `boardAI`. -/
def isLegalAI (boardAI : Board) (i j alignment : Int) : Option (Bool × Board) :=
  match rd boardAI i j with
  | none => none
  | some v =>
    if v ≠ 0 then some (false, boardAI)
    else
      match dirRowsAI i j alignment idx3 boardAI false with
      | none => none
      | some (b1, legality) =>
        if legality = true then
          match wr b1 i j alignment with
          | none => none
          | some b2 => some (legality, b2)
        else some (legality, b1)

/-- The function `isAnyMoveAvailableAI(alignment)`, inner loop over `j`; the
board is threaded because `isLegalAI` writes to it. -/
def anyMoveColsAI (alignment i : Int) : List Int → Board → Option (Bool × Board)
  | [], b => some (false, b)
  | j :: js, b =>
    match isLegalAI b i j alignment with
    | none => none
    | some (true, b1) => some (true, b1)
    | some (false, b1) => anyMoveColsAI alignment i js b1

/-- The function `isAnyMoveAvailableAI(alignment)`, outer loop over `i`. -/
def anyMoveRowsAI (alignment : Int) : List Int → Board → Option (Bool × Board)
  | [], b => some (false, b)
  | i :: is, b =>
    match anyMoveColsAI alignment i idx8 b with
    | none => none
    | some (true, b1) => some (true, b1)
    | some (false, b1) => anyMoveRowsAI alignment is b1

/-- The function `isAnyMoveAvailableAI(alignment)` on the global `boardAI`. -/
def isAnyMoveAvailableAI (boardAI : Board) (alignment : Int) : Option (Bool × Board) :=
  anyMoveRowsAI alignment idx8 boardAI

/-- The function `boardCountAI()`. -/
def boardCountAI (boardAI : Board) : Int :=
  idx8.foldl (fun count i => idx8.foldl (fun count1 j => count1 + boardAI i j) count) 0

/-- What a call of `minimax` leaves behind: the returned score, the globals
`boardAI` and `z`, and the flag behind `parentsFirstChildAssigned`. -/
structure Ret where
  score : Int
  boardAI : Board
  z : Int
  firstChildAssigned : Bool

/-- The variables a node's loop over its 64 children carries along. -/
structure Loop where
  boardAI : Board
  z : Int
  score : Int
  firstChildAssigned : Bool

/-- The test that leaves the inner child loop by `break`:
`!isFirstChild` and the returned score beyond `parentScore`. -/
def cutoff (isFirstChild : Bool) (alignment returnScore parentScore : Int) : Bool :=
  if isFirstChild = false then
    if alignment ≠ 1 then decide (returnScore < parentScore)
    else decide (returnScore > parentScore)
  else false

/-- The update of `currentNode->score` by a returned score that was not cut off. -/
def aggregate (alignment score returnScore : Int) : Int :=
  if alignment ≠ 1 then
    if score = 65 ∨ (returnScore < score ∧ score ≠ 65) then returnScore else score
  else
    if score = 65 ∨ returnScore > score then returnScore else score

/-- The inner loop `for (n = 0; n < BOARD_MAX; n++)` over the children of a
node in row `m`; `child` is the recursive call of `minimax`.  A `break` ends
this loop only. -/
def childCols (child : Board → Int → Int → Int → Int → Bool → Option Ret)
    (boardLocal : Board) (isFirstChild : Bool) (alignment parentScore m : Int) :
    List Int → Loop → Option Loop
  | [], s => some s
  | n :: ns, s =>
    match child s.boardAI s.z m n s.score s.firstChildAssigned with
    | none => none
    | some r =>
      let returnScore := r.score
      if returnScore ≠ 65 then
        if cutoff isFirstChild alignment returnScore parentScore = true then
          some ⟨boardLocal, r.z, s.score, r.firstChildAssigned⟩
        else
          childCols child boardLocal isFirstChild alignment parentScore m ns
            ⟨boardLocal, r.z, aggregate alignment s.score returnScore, r.firstChildAssigned⟩
      else
        childCols child boardLocal isFirstChild alignment parentScore m ns
          ⟨boardLocal, r.z, s.score, r.firstChildAssigned⟩

/-- The outer loop `for (m = 0; m < BOARD_MAX; m++)` over the children of a node. -/
def childRows (child : Board → Int → Int → Int → Int → Bool → Option Ret)
    (boardLocal : Board) (isFirstChild : Bool) (alignment parentScore : Int) :
    List Int → Loop → Option Loop
  | [], s => some s
  | m :: ms, s =>
    match childCols child boardLocal isFirstChild alignment parentScore m idx8 s with
    | none => none
    | some s1 => childRows child boardLocal isFirstChild alignment parentScore ms s1

/-- How the part of `minimax` before the loop over the children ends: the
candidate is illegal (`return 65`), the node is a leaf (`return boardCountAI()`),
or the node is internal and the loop starts with the variables `start`. -/
inductive Entry where
  | illegal (r : Ret)
  | leaf (r : Ret)
  | inner (boardLocal : Board) (isFirstChild : Bool) (alignment : Int) (start : Loop)

/-- The body of `minimax` up to the loop over the children: the legality test
of the candidate `(i, j)` (which applies it to `boardAI`), the snapshot
`boardLocal`, the first-child flag and the leaf test. -/
def enterNode (boardAI : Board) (z i j : Int) (parentsFirstChildAssigned : Bool) :
    Option Entry :=
  let alignment : Int := if z % 2 = 0 then 1 else -1
  match isLegalAI boardAI i j alignment with
  | none => none
  | some (false, b1) => some (Entry.illegal ⟨65, b1, z, parentsFirstChildAssigned⟩)
  | some (true, b1) =>
    let z1 := z + 1
    let alignment1 := alignment * (-1)
    let boardLocal := b1
    let isFirstChild := (parentsFirstChildAssigned == false)
    if z1 ≥ DEPTH_MAX then some (Entry.leaf ⟨boardCountAI b1, b1, z1 - 1, true⟩)
    else
      match isAnyMoveAvailableAI b1 alignment1 with
      | none => none
      | some (false, b2) => some (Entry.leaf ⟨boardCountAI b2, b2, z1 - 1, true⟩)
      | some (true, b2) =>
        some (Entry.inner boardLocal isFirstChild alignment1 ⟨b2, z1, 65, false⟩)

/-- The function `minimax(currentNode, i, j, parentScore, parentsFirstChildAssigned)`.
The fuel bounds the nesting of recursive calls. -/
def minimax : Nat → Board → Int → Int → Int → Int → Bool → Option Ret
  | 0, _, _, _, _, _, _ => none
  | fuel + 1, boardAI, z, i, j, parentScore, parentsFirstChildAssigned =>
    match enterNode boardAI z i j parentsFirstChildAssigned with
    | none => none
    | some (Entry.illegal r) => some r
    | some (Entry.leaf r) => some r
    | some (Entry.inner boardLocal isFirstChild alignment1 start) =>
      match childRows (fun bd zd m n ps fc => minimax fuel bd zd m n ps fc)
          boardLocal isFirstChild alignment1 parentScore idx8 start with
      | none => none
      | some s => some ⟨s.score, s.boardAI, s.z - 1, true⟩

/-- The variables of the root loop in `main`: the loop state of the root node
and the coordinate assigned to `i` and `j` (`none` while no assignment to
them has been executed). -/
structure Root where
  boardAI : Board
  z : Int
  score : Int
  firstChildAssigned : Bool
  move : Option (Int × Int)

/-- The inner loop `for (n = 0; n < BOARD_MAX; n++)` of the root search in `main`. -/
def rootCols (boardLocal : Board) (m : Int) : List Int → Root → Option Root
  | [], s => some s
  | n :: ns, s =>
    match minimax DEPTH_MAX.toNat s.boardAI s.z m n s.score s.firstChildAssigned with
    | none => none
    | some r =>
      let returnScore := r.score
      if returnScore ≠ 65 then
        if s.score = 65 then
          rootCols boardLocal m ns ⟨boardLocal, r.z, returnScore, r.firstChildAssigned, some (m, n)⟩
        else if returnScore > s.score then
          rootCols boardLocal m ns ⟨boardLocal, r.z, returnScore, r.firstChildAssigned, some (m, n)⟩
        else
          rootCols boardLocal m ns ⟨boardLocal, r.z, s.score, r.firstChildAssigned, s.move⟩
      else
        rootCols boardLocal m ns ⟨boardLocal, r.z, s.score, r.firstChildAssigned, s.move⟩

/-- The outer loop `for (m = 0; m < BOARD_MAX; m++)` of the root search in `main`. -/
def rootRows (boardLocal : Board) : List Int → Root → Option Root
  | [], s => some s
  | m :: ms, s =>
    match rootCols boardLocal m idx8 s with
    | none => none
    | some s1 => rootRows boardLocal ms s1

/-- The computer's branch of the game loop in `main`, from `z = 0` to the end
of the loops over the 64 root candidates. -/
def rootSearch (board : Board) : Option Root :=
  rootRows board idx8 ⟨board, 0, 65, false, none⟩

/-- The board `main` builds before the first turn. -/
def openingBoard : Board :=
  setCell (setCell (setCell (setCell (fun _ _ => 0) 3 3 1) 3 4 (-1)) 4 3 (-1)) 4 4 1

/-! ## The exhaustive search the specification compares with -/

/-- Legality of a move as the rules engine reports it (`apply = false`). -/
def legalMove (b : Board) (i j side : Int) : Bool :=
  match isLegal b i j side false with
  | some (true, _) => true
  | _ => false

/-- The board after a move has been applied by the rules engine (`apply = true`). -/
def applyMove (b : Board) (i j side : Int) : Board :=
  match isLegal b i j side true with
  | some (_, b1) => b1
  | none => b

/-- Some cell of the board is a legal move for `side`. -/
def hasAnyLegalMove (b : Board) (side : Int) : Bool :=
  idx8.any fun r => idx8.any fun c => legalMove b r c side

/-- The 64 coordinates in row-major scan order. -/
def cells : List (Int × Int) :=
  idx8.foldr (fun r acc => idx8.map (fun c => (r, c)) ++ acc) []

/-- Fold one child score into a node's running best; `none` is the sentinel. -/
def better (maximize : Bool) (acc v : Option Int) : Option Int :=
  match acc, v with
  | a, none => a
  | none, some x => some x
  | some a, some x =>
    if maximize then (if x > a then some x else some a)
    else (if x < a then some x else some a)

/-- Full-width minimax without pruning: the score of playing `(i, j)` for
`side` with `r` plies left, `none` for an illegal move.  A legal move leads to
a leaf when no ply is left or the other side has no legal move; otherwise all
64 replies are scored and the maximum is kept when the computer (+1) replies,
the minimum when the opponent does. -/
def fullValue : Nat → Board → Int → Int → Int → Option Int
  | 0, _, _, _, _ => none
  | r + 1, b, side, i, j =>
    if legalMove b i j side then
      let b1 := applyMove b i j side
      if r = 0 ∨ hasAnyLegalMove b1 (-side) = false then some (boardCount b1)
      else
        cells.foldl
          (fun acc p => better (decide (-side = 1)) acc (fullValue r b1 (-side) p.1 p.2)) none
    else none

/-- The move of the exhaustive search: the first coordinate in scan order
whose score is the maximum of the scores of the legal root moves. -/
def fullChoice (b : Board) : Option (Int × Int) :=
  (cells.foldl (fun (acc : Option (Int × (Int × Int))) p =>
    match fullValue DEPTH_MAX.toNat b 1 p.1 p.2, acc with
    | none, a => a
    | some v, none => some (v, p)
    | some v, some (a, q) => if v > a then some (v, p) else some (a, q)) none).map (fun t => t.2)

/-- A board on which the cutoff changes the root's choice: white at (0,0) and
(0,3), black at (0,2) and (1,1). -/
def cutoffBoard : Board :=
  setCell (setCell (setCell (setCell (fun _ _ => 0) 0 0 1) 0 2 (-1)) 0 3 1) 1 1 (-1)

/-- A board on which the computer's only move, (7,7), is answered only by
(0,0): row 0 is empty, white, then six black; row 7 ends white, black, empty. -/
def cornerBoard : Board :=
  fun i j =>
    if i = 0 then (if j = 0 then 0 else if j = 1 then 1 else if j ≤ 7 ∧ 2 ≤ j then -1 else 0)
    else if i = 7 then (if j = 5 then 1 else if j = 6 then -1 else 0)
    else 0

/-- A board on which the computer's only move, (2,2), leads to an internal
node with three replies of black: white at (0,0) and (0,3), black at (0,1),
(0,2) and (1,1). -/
def firstChildBoard : Board :=
  setCell (setCell (setCell (setCell (setCell (fun _ _ => 0) 0 0 1) 0 1 (-1)) 0 2 (-1)) 0 3 1)
    1 1 (-1)

/-! ## The rule of the game, in the words of the specification -/

/-- One of the 8 directions: both increments in {-1, 0, 1}, not both 0. -/
def isDir (x y : Int) : Prop :=
  (x = -1 ∨ x = 0 ∨ x = 1) ∧ (y = -1 ∨ y = 0 ∨ y = 1) ∧ ¬(x = 0 ∧ y = 0)

/-- From `(i, j)` in direction `(x, y)`: the next `n ≥ 1` cells are on the
board and hold `-side`, and the cell right after them is on the board and
holds `side`. -/
def Run (b : Board) (side i j x y : Int) (n : Nat) : Prop :=
  1 ≤ n ∧
  (∀ t : Nat, 1 ≤ t → t ≤ n →
    inBounds (i + (t : Int) * x) (j + (t : Int) * y) = true ∧
    b (i + (t : Int) * x) (j + (t : Int) * y) = -side) ∧
  inBounds (i + ((n + 1 : Nat) : Int) * x) (j + ((n + 1 : Nat) : Int) * y) = true ∧
  b (i + ((n + 1 : Nat) : Int) * x) (j + ((n + 1 : Nat) : Int) * y) = side

/-- Some direction from `(i, j)` holds a qualifying run for `side`. -/
def Qualifies (b : Board) (side i j : Int) : Prop :=
  ∃ x y, isDir x y ∧ ∃ n, Run b side i j x y n

/-- Cell `(a, c)` is one of the opposing tiles of a qualifying run from `(i, j)`. -/
def OnRun (b : Board) (side i j a c : Int) : Prop :=
  ∃ x y, isDir x y ∧ ∃ n, Run b side i j x y n ∧
    ∃ t : Nat, 1 ≤ t ∧ t ≤ n ∧ a = i + (t : Int) * x ∧ c = j + (t : Int) * y

/-- The number of flipped tiles of a move at `(i, j)` that turned the board
`b` into `b1`: the cells other than `(i, j)` whose value changed. -/
def flippedCount (b b1 : Board) (i j : Int) : Nat :=
  (cells.filter fun p => decide (¬ (p.1 = i ∧ p.2 = j)) && decide (b1 p.1 p.2 ≠ b p.1 p.2)).length

/-- For an internal node: the value of cell `(a, c)` in the snapshot
`boardLocal` and in the `boardAI` on which the first child is called. -/
def Entry.view (a c : Int) : Entry → Option (Int × Int)
  | Entry.inner boardLocal _ _ start => some (boardLocal a c, start.boardAI a c)
  | _ => none

/-! ## The double direction loop as one pass over a list of directions -/

/-- One iteration of the body of `isLegal`'s direction loops, for the
increments `d = (x, y)`: skipped for `(0, 0)` and when the neighbouring cell
is off the board. -/
def dirStep (i_origin j_origin alignment : Int) (flip : Bool) (d : Int × Int) :
    Dir → Option Dir
  | Dir.ret b => some (Dir.ret b)
  | Dir.go b legality =>
    if (d.1 = 0 ∧ d.2 = 0) ∨ inBounds (i_origin + d.1) (j_origin + d.2) = false then
      some (Dir.go b legality)
    else
      match scanLoop b alignment d.1 d.2 8 i_origin j_origin with
      | none => none
      | some Scan.stop => some (Dir.go b legality)
      | some (Scan.anchor i j) =>
        if flip = true then
          match flipLoop d.1 d.2 i_origin j_origin 8 b i j with
          | none => none
          | some b1 => some (Dir.go b1 true)
        else some (Dir.ret b)

/-- The iterations of `dirStep` over a list of directions. -/
def dirFold (i_origin j_origin alignment : Int) (flip : Bool) :
    List (Int × Int) → Dir → Option Dir
  | [], s => some s
  | d :: ds, s =>
    match dirStep i_origin j_origin alignment flip d s with
    | none => none
    | some s1 => dirFold i_origin j_origin alignment flip ds s1

/-- The increments visited by the inner direction loop for the row index `m`. -/
def dirRow (m : Int) : List (Int × Int) :=
  idx3.map fun n => (incr m, incr n)

/-- The increments visited by the double direction loop, in order. -/
def dirList : List Int → List (Int × Int)
  | [] => []
  | m :: ms => dirRow m ++ dirList ms

/-- Cell `(a, c)` is an opposing tile of a qualifying run, on the board `b0`,
in one of the directions selected by `P`. -/
def OnRunIn (b0 : Board) (side io jo : Int) (P : Int × Int → Prop) (a c : Int) : Prop :=
  ∃ d, P d ∧ isDir d.1 d.2 ∧ ∃ n, Run b0 side io jo d.1 d.2 n ∧
    ∃ t : Nat, 1 ≤ t ∧ t ≤ n ∧ a = io + (t : Int) * d.1 ∧ c = jo + (t : Int) * d.2

/-- Invariant of the flipping pass once the directions selected by `P` are
done: `legality` tells whether one of them held a run of the board `b0` the
pass started from, and the current board is `b0` with those runs negated. -/
def FlipInv (b0 : Board) (side io jo : Int) (P : Int × Int → Prop) (b : Board)
    (leg : Bool) : Prop :=
  (leg = true ↔ ∃ d, P d ∧ isDir d.1 d.2 ∧ ∃ n, Run b0 side io jo d.1 d.2 n) ∧
  (∀ a c, OnRunIn b0 side io jo P a c → b a c = -(b0 a c)) ∧
  (∀ a c, ¬ OnRunIn b0 side io jo P a c → b a c = b0 a c)

/-! ## The game loop of `main` -/

/-- The globals and the variables of `main` that an iteration of the game
loop carries along. -/
structure Game where
  board : Board
  boardAI : Board
  z : Int
  alignment : Int
  i : Int
  j : Int

/-- How the turn check at the top of the game loop ends: the loop is left by
`break`, or the iteration goes on with the side that is to move. -/
inductive Turn where
  | over (board : Board) (alignment : Int)
  | play (board : Board) (alignment : Int)

/-- The turn check at the top of the game loop:
`if (!isAnyMoveAvailable(alignment)) { alignment *= -1; if (!isAnyMoveAvailable(alignment)) break; ... }`. -/
def turnStep (board : Board) (alignment : Int) : Option Turn :=
  match isAnyMoveAvailable board alignment with
  | none => none
  | some (true, b1) => some (Turn.play b1 alignment)
  | some (false, b1) =>
    let alignment1 := alignment * (-1)
    match isAnyMoveAvailable b1 alignment1 with
    | none => none
    | some (false, b2) => some (Turn.over b2 alignment1)
    | some (true, b2) => some (Turn.play b2 alignment1)

/-- The library function `toupper` on character codes (C locale): the letters
`a`..`z` (97..122) go to `A`..`Z`, every other code to itself. -/
def toupper (c : Int) : Int :=
  if 97 ≤ c ∧ c ≤ 122 then c - 32 else c

/-- The loop `for (k = 0; *(coord + k) != 0; k++);` over the character codes
stored at `coord`; the end of the list stands for the terminating NUL. -/
def strlen : List Int → Int
  | [] => 0
  | c :: cs => if c ≠ 0 then strlen cs + 1 else 0

/-- The human's branch of the game loop from `GetString` to the two range
checks: whether the input goes on to `isLegal`, and the values that `i` and
`j` hold afterwards (49 is the code of `1`, 65 the code of `A`). -/
def humanInput (coord : List Int) (i j : Int) : Bool × Int × Int :=
  let k := strlen coord
  if k ≠ 2 then (false, i, j)
  else
    let i1 := coord.getD 1 0 - 49
    let j1 := toupper (coord.getD 0 0) - 65
    if j1 < 0 ∨ j1 ≥ BOARD_MAX then (false, i1, j1)
    else if i1 < 0 ∨ i1 ≥ BOARD_MAX then (false, i1, j1)
    else (true, i1, j1)

/-- One iteration of the game loop on the human's turn, after the turn
check, for the string `coord` returned by `GetString`: a rejected input ends
the iteration by `continue`; an accepted one is passed to `isLegal` with
`flip = true`, and the turn changes when that returns true. -/
def humanTurn (g : Game) (coord : List Int) : Option Game :=
  match humanInput coord g.i g.j with
  | (false, i1, j1) => some ⟨g.board, g.boardAI, g.z, g.alignment, i1, j1⟩
  | (true, i1, j1) =>
    match isLegal g.board i1 j1 g.alignment true with
    | none => none
    | some (true, b1) => some ⟨b1, g.boardAI, g.z, g.alignment * (-1), i1, j1⟩
    | some (false, b1) => some ⟨b1, g.boardAI, g.z, g.alignment, i1, j1⟩

/-- The computer's branch of the game loop up to the `printf` of the chosen
coordinate: `z = 0`, the copy of `board` to `boardAI` and the root loops.
The array `board` is only read; `i` and `j` keep their values when no root
candidate assigns them. -/
def computerSearch (g : Game) : Option Game :=
  match rootSearch g.board with
  | none => none
  | some r =>
    match r.move with
    | some (m, n) => some ⟨g.board, r.boardAI, r.z, g.alignment, m, n⟩
    | none => some ⟨g.board, r.boardAI, r.z, g.alignment, g.i, g.j⟩

/-- The two strings `getAlignment` writes to `player`. -/
inductive Colour where
  | white
  | black
  deriving DecidableEq, Repr

/-- The function `getAlignment(alignment, player)`: white for 1, black otherwise. -/
def getAlignment (alignment : Int) : Colour :=
  if alignment = 1 then Colour.white else Colour.black

/-- What the end of `main` reports: a tie, or the winner's alignment and name. -/
inductive Verdict where
  | tie
  | winner (alignment : Int) (player : Colour)
  deriving DecidableEq, Repr

/-- The end of `main` for `count = boardCount()`: a tie for 0, otherwise
`alignment = count / abs(count)` (C division truncates) and the winner's name;
`none` stands for a division by zero. -/
def determineWinner (count : Int) : Option Verdict :=
  if count = 0 then some Verdict.tie
  else
    let a : Int := (count.natAbs : Int)
    if a = 0 then none
    else
      let alignment := count.tdiv a
      some (Verdict.winner alignment (getAlignment alignment))

/-- The inner root loop of `main` together with a record of the calls of
`minimax`: the body of `rootCols`, and each candidate with the score its call
returned appended to `log`. -/
def rootColsLog (boardLocal : Board) (m : Int) :
    List Int → Root → List ((Int × Int) × Int) → Option (Root × List ((Int × Int) × Int))
  | [], s, log => some (s, log)
  | n :: ns, s, log =>
    match minimax DEPTH_MAX.toNat s.boardAI s.z m n s.score s.firstChildAssigned with
    | none => none
    | some r =>
      let returnScore := r.score
      let log1 := log ++ [((m, n), returnScore)]
      if returnScore ≠ 65 then
        if s.score = 65 then
          rootColsLog boardLocal m ns
            ⟨boardLocal, r.z, returnScore, r.firstChildAssigned, some (m, n)⟩ log1
        else if returnScore > s.score then
          rootColsLog boardLocal m ns
            ⟨boardLocal, r.z, returnScore, r.firstChildAssigned, some (m, n)⟩ log1
        else
          rootColsLog boardLocal m ns
            ⟨boardLocal, r.z, s.score, r.firstChildAssigned, s.move⟩ log1
      else
        rootColsLog boardLocal m ns
          ⟨boardLocal, r.z, s.score, r.firstChildAssigned, s.move⟩ log1

/-- The outer root loop of `main` with the record of the calls of `minimax`. -/
def rootRowsLog (boardLocal : Board) :
    List Int → Root → List ((Int × Int) × Int) → Option (Root × List ((Int × Int) × Int))
  | [], s, log => some (s, log)
  | m :: ms, s, log =>
    match rootColsLog boardLocal m idx8 s log with
    | none => none
    | some (s1, log1) => rootRowsLog boardLocal ms s1 log1

/-- The root search with the record of the calls of `minimax`, in call order. -/
def rootSearchLog (board : Board) : Option (Root × List ((Int × Int) × Int)) :=
  rootRowsLog board idx8 ⟨board, 0, 65, false, none⟩ []

/-- Every cell of the board holds -1, 0 or +1. -/
def TriState (b : Board) : Prop :=
  ∀ a c, inBounds a c = true → b a c = -1 ∨ b a c = 0 ∨ b a c = 1

/-- The number of cells of the board that hold `v`. -/
def countCells (b : Board) (v : Int) : Nat :=
  (cells.filter fun p => decide (b p.1 p.2 = v)).length

/-- Some cell of the board is a legal move for `side`: `isLegal` without
flipping returns true there. -/
def HasMove (b : Board) (side : Int) : Prop :=
  ∃ i j, inBounds i j = true ∧ ∃ b1, isLegal b i j side false = some (true, b1)

/-- In the record `log` of the root's calls, `(m, n)` is the first candidate,
in call order, whose returned score is the maximum of the returned scores
other than 65. -/
def FirstMax (log : List ((Int × Int) × Int)) (m n : Int) : Prop :=
  ∃ pre post v, log = pre ++ ((m, n), v) :: post ∧ v ≠ 65 ∧
    (∀ e ∈ pre, e.2 ≠ 65 → e.2 < v) ∧ (∀ e ∈ post, e.2 ≠ 65 → e.2 ≤ v)

/-- Invariant of the root loops: nothing is selected while every returned
score was 65; otherwise `score` and `move` are the score and the candidate of
the first maximum of the record. -/
def RootInv (s : Root) (log : List ((Int × Int) × Int)) : Prop :=
  (s.score = 65 ∧ s.move = none ∧ ∀ e ∈ log, e.2 = 65) ∨
  (s.score ≠ 65 ∧ ∃ m n pre post, s.move = some (m, n) ∧
    log = pre ++ ((m, n), s.score) :: post ∧
    (∀ e ∈ pre, e.2 ≠ 65 → e.2 < s.score) ∧ (∀ e ∈ post, e.2 ≠ 65 → e.2 ≤ s.score))

/-! ## The child loops of a node with a record of their calls -/

/-- One call of `minimax` made by a node for a child: the candidate, the
value of `z` when the call is made, and the score the call returned. -/
abbrev Call := (Int × Int) × Int × Int

/-- The inner child loop of `minimax` together with a record of its calls:
the body of `childCols`, and each call appended to `log`. -/
def childColsLog (child : Board → Int → Int → Int → Int → Bool → Option Ret)
    (boardLocal : Board) (isFirstChild : Bool) (alignment parentScore m : Int) :
    List Int → Loop → List Call → Option (Loop × List Call)
  | [], s, log => some (s, log)
  | n :: ns, s, log =>
    match child s.boardAI s.z m n s.score s.firstChildAssigned with
    | none => none
    | some r =>
      let returnScore := r.score
      let log1 := log ++ [((m, n), s.z, returnScore)]
      if returnScore ≠ 65 then
        if cutoff isFirstChild alignment returnScore parentScore = true then
          some (⟨boardLocal, r.z, s.score, r.firstChildAssigned⟩, log1)
        else
          childColsLog child boardLocal isFirstChild alignment parentScore m ns
            ⟨boardLocal, r.z, aggregate alignment s.score returnScore, r.firstChildAssigned⟩ log1
      else
        childColsLog child boardLocal isFirstChild alignment parentScore m ns
          ⟨boardLocal, r.z, s.score, r.firstChildAssigned⟩ log1

/-- The outer child loop of `minimax` with the record of its calls. -/
def childRowsLog (child : Board → Int → Int → Int → Int → Bool → Option Ret)
    (boardLocal : Board) (isFirstChild : Bool) (alignment parentScore : Int) :
    List Int → Loop → List Call → Option (Loop × List Call)
  | [], s, log => some (s, log)
  | m :: ms, s, log =>
    match childColsLog child boardLocal isFirstChild alignment parentScore m idx8 s log with
    | none => none
    | some (s1, log1) =>
      childRowsLog child boardLocal isFirstChild alignment parentScore ms s1 log1

/-- A call of `minimax` together with the record of the calls it makes for
its own children, in call order (empty for an illegal candidate and for a leaf). -/
def minimaxLog : Nat → Board → Int → Int → Int → Int → Bool → Option (Ret × List Call)
  | 0, _, _, _, _, _, _ => none
  | fuel + 1, boardAI, z, i, j, parentScore, parentsFirstChildAssigned =>
    match enterNode boardAI z i j parentsFirstChildAssigned with
    | none => none
    | some (Entry.illegal r) => some (r, [])
    | some (Entry.leaf r) => some (r, [])
    | some (Entry.inner boardLocal isFirstChild alignment1 start) =>
      match childRowsLog (fun bd zd m n ps fc => minimax fuel bd zd m n ps fc)
          boardLocal isFirstChild alignment1 parentScore idx8 start [] with
      | none => none
      | some (s, log) => some (⟨s.score, s.boardAI, s.z - 1, true⟩, log)

/-- The node is internal: the part of `minimax` before the child loop ended
in neither `return`. -/
def Entry.internal : Entry → Bool
  | Entry.inner _ _ _ _ => true
  | _ => false

/-- Invariant of the child loops of a node whose cutoff test is disabled:
`score` is 65 while every call returned 65; otherwise it is one of the
returned scores other than 65 and bounds them all, from above when
`alignment` is 1 and from below otherwise. -/
def AggInv (alignment score : Int) (log : List Call) : Prop :=
  (score = 65 ∧ ∀ e ∈ log, e.2.2 = 65) ∨
  (score ≠ 65 ∧ (∃ e ∈ log, e.2.2 = score) ∧
    ∀ e ∈ log, e.2.2 ≠ 65 →
      (alignment = 1 → e.2.2 ≤ score) ∧ (alignment ≠ 1 → score ≤ e.2.2))

/-- Cell `(i, j)` is the first legal move of `side` on `b` in row-major
order: it is legal, and every cell of the board in an earlier row, or earlier
in the same row, is not. -/
def FirstLegal (b : Board) (side i j : Int) : Prop :=
  inBounds i j = true ∧ isLegal b i j side false = some (true, b) ∧
  ∀ r c, inBounds r c = true → (r < i ∨ (r = i ∧ c < j)) →
    isLegal b r c side false = some (false, b)

/-! ## Proofs -/

theorem inBounds_iff (i j : Int) :
    inBounds i j = true ↔ 0 ≤ i ∧ i < 8 ∧ 0 ≤ j ∧ j < 8 := by
  simp [inBounds, BOARD_MAX, and_assoc]

theorem rd_some {b : Board} {i j : Int} (h : inBounds i j = true) : rd b i j = some (b i j) := by
  simp [rd, h]

theorem wr_some {b : Board} {i j v : Int} (h : inBounds i j = true) :
    wr b i j v = some (setCell b i j v) := by
  simp [wr, h]

/-- A cell `k + 1` steps along a direction from a cell of the board is at most 7 steps away. -/
theorem ray_le {i j x y : Int} (hd : isDir x y) (h0 : inBounds i j = true) {k : Nat}
    (hk : inBounds (i + ((k + 1 : Nat) : Int) * x) (j + ((k + 1 : Nat) : Int) * y) = true) :
    k + 1 ≤ 7 := by
  rw [inBounds_iff] at h0 hk
  obtain ⟨hx, hy, hxy⟩ := hd
  push_cast at hk
  rcases hx with rfl | rfl | rfl <;> rcases hy with rfl | rfl | rfl <;>
    omega

/-- Cells between two cells of the board on a ray are on the board. -/
theorem ray_inBounds {i j x y : Int} (h0 : inBounds i j = true) {n : Nat}
    (hn : inBounds (i + (n : Int) * x) (j + (n : Int) * y) = true) {t : Nat} (ht : t ≤ n) :
    inBounds (i + (t : Int) * x) (j + (t : Int) * y) = true := by
  rw [inBounds_iff] at h0 hn ⊢
  have hcast : (t : Int) ≤ (n : Int) := by exact_mod_cast ht
  have ht0 : (0 : Int) ≤ (t : Int) := Int.ofNat_nonneg t
  have key : ∀ (p d : Int), 0 ≤ p → p < 8 → 0 ≤ p + n * d → p + n * d < 8 →
      0 ≤ p + t * d ∧ p + t * d < 8 := by
    intro p d hp0 hp8 hq0 hq8
    rcases le_total 0 d with hd | hd
    · have h1 : (t : Int) * d ≤ n * d := mul_le_mul_of_nonneg_right hcast hd
      have h2 : 0 ≤ (t : Int) * d := mul_nonneg ht0 hd
      constructor <;> omega
    · have h1 : (n : Int) * d ≤ t * d := mul_le_mul_of_nonpos_right hcast hd
      have h2 : (t : Int) * d ≤ 0 := mul_nonpos_of_nonneg_of_nonpos ht0 hd
      constructor <;> omega
  obtain ⟨a1, a2⟩ := key i x h0.1 h0.2.1 hn.1 hn.2.1
  obtain ⟨a3, a4⟩ := key j y h0.2.2.1 h0.2.2.2 hn.2.2.1 hn.2.2.2
  exact ⟨a1, a2, a3, a4⟩

/-- The outward scan from the origin, resumed after `k` opposing tiles: it
ends, with an anchor exactly when a run of at least `k + 1` opposing tiles is
closed by an own tile. -/
theorem scanLoop_spec (b : Board) (side x y i j : Int) (hd : isDir x y)
    (h0 : inBounds i j = true) :
    ∀ (fuel k : Nat), 8 ≤ fuel + k →
      inBounds (i + ((k + 1 : Nat) : Int) * x) (j + ((k + 1 : Nat) : Int) * y) = true →
      (∀ t : Nat, 1 ≤ t → t ≤ k → b (i + (t : Int) * x) (j + (t : Int) * y) = -side) →
      (∃ n, k + 1 ≤ n ∧ Run b side i j x y n ∧
        scanLoop b side x y fuel (i + (k : Int) * x) (j + (k : Int) * y)
          = some (Scan.anchor (i + (n : Int) * x) (j + (n : Int) * y))) ∨
      ((side ≠ 0 → ∀ n, k + 1 ≤ n → ¬ Run b side i j x y n) ∧
        scanLoop b side x y fuel (i + (k : Int) * x) (j + (k : Int) * y) = some Scan.stop) := by
  intro fuel
  induction fuel with
  | zero =>
    intro k hf hin _
    have := ray_le hd h0 hin
    omega
  | succ fuel ih =>
    intro k hf hin hrun
    have e1 : i + (k : Int) * x + x = i + ((k + 1 : Nat) : Int) * x := by push_cast; ring
    have e2 : j + (k : Int) * y + y = j + ((k + 1 : Nat) : Int) * y := by push_cast; ring
    have e3 : i + ((k + 1 : Nat) : Int) * x + x = i + ((k + 1 + 1 : Nat) : Int) * x := by
      push_cast; ring
    have e4 : j + ((k + 1 : Nat) : Int) * y + y = j + ((k + 1 + 1 : Nat) : Int) * y := by
      push_cast; ring
    rw [scanLoop, e1, e2, rd_some hin]
    simp only [e3, e4]
    by_cases hv : b (i + ((k + 1 : Nat) : Int) * x) (j + ((k + 1 : Nat) : Int) * y) = side * (-1)
    · rw [if_pos hv]
      have hv1 : b (i + ((k + 1 : Nat) : Int) * x) (j + ((k + 1 : Nat) : Int) * y) = -side := by
        rw [hv]; ring
      have hrun1 : ∀ t : Nat, 1 ≤ t → t ≤ k + 1 →
          b (i + (t : Int) * x) (j + (t : Int) * y) = -side := by
        intro t ht1 ht2
        rcases Nat.lt_or_ge t (k + 1) with h | h
        · exact hrun t ht1 (by omega)
        · have : t = k + 1 := by omega
          subst this; exact hv1
      by_cases hb : inBounds (i + ((k + 1 + 1 : Nat) : Int) * x)
          (j + ((k + 1 + 1 : Nat) : Int) * y) = true
      · have hnb : ¬ (i + ((k + 1 + 1 : Nat) : Int) * x < 0 ∨
            i + ((k + 1 + 1 : Nat) : Int) * x ≥ BOARD_MAX ∨
            j + ((k + 1 + 1 : Nat) : Int) * y < 0 ∨
            j + ((k + 1 + 1 : Nat) : Int) * y ≥ BOARD_MAX) := by
          rw [inBounds_iff] at hb
          simp only [BOARD_MAX]; omega
        rw [if_neg hnb, rd_some hb]
        simp only
        by_cases hw0 : b (i + ((k + 1 + 1 : Nat) : Int) * x)
            (j + ((k + 1 + 1 : Nat) : Int) * y) = 0
        · rw [if_pos hw0]
          right
          refine ⟨?_, rfl⟩
          intro hs n hn hR
          obtain ⟨_, hcells, _, hanch⟩ := hR
          rcases Nat.lt_or_ge (k + 1) n with h | h
          · have := (hcells (k + 1 + 1) (by omega) (by omega)).2
            rw [hw0] at this; omega
          · have : n = k + 1 := by omega
            subst this
            rw [hw0] at hanch; exact hs hanch.symm
        · rw [if_neg hw0]
          by_cases hws : b (i + ((k + 1 + 1 : Nat) : Int) * x)
              (j + ((k + 1 + 1 : Nat) : Int) * y) = side
          · rw [if_pos hws]
            left
            refine ⟨k + 1, le_refl _, ⟨by omega, ?_, hb, hws⟩, rfl⟩
            intro t ht1 ht2
            exact ⟨ray_inBounds h0 hin ht2, hrun1 t ht1 ht2⟩
          · rw [if_neg hws]
            rcases ih (k + 1) (by omega) hb hrun1 with ⟨n, hn, hR, hscan⟩ | ⟨hno, hscan⟩
            · left; exact ⟨n, by omega, hR, hscan⟩
            · right
              refine ⟨?_, hscan⟩
              intro hs n hn hR
              rcases Nat.lt_or_ge (k + 1) n with h | h
              · exact hno hs n (by omega) hR
              · have : n = k + 1 := by omega
                subst this
                exact hws hR.2.2.2
      · have hnb : (i + ((k + 1 + 1 : Nat) : Int) * x < 0 ∨
            i + ((k + 1 + 1 : Nat) : Int) * x ≥ BOARD_MAX ∨
            j + ((k + 1 + 1 : Nat) : Int) * y < 0 ∨
            j + ((k + 1 + 1 : Nat) : Int) * y ≥ BOARD_MAX) := by
          rw [inBounds_iff] at hb
          simp only [BOARD_MAX]; omega
        rw [if_pos hnb]
        right
        refine ⟨?_, rfl⟩
        intro _ n hn hR
        obtain ⟨_, hcells, hin2, _⟩ := hR
        apply hb
        exact ray_inBounds h0 hin2 (by omega)
    · rw [if_neg hv]
      right
      refine ⟨?_, rfl⟩
      intro _ n hn hR
      obtain ⟨_, hcells, _, _⟩ := hR
      have := (hcells (k + 1) (by omega) hn).2
      apply hv; rw [this]; ring

/-- Two cells of one ray that coincide are the same number of steps away. -/
theorem ray_inj {x y : Int} (hd : isDir x y) {i j : Int} {t u : Nat}
    (h1 : i + (t : Int) * x = i + (u : Int) * x) (h2 : j + (t : Int) * y = j + (u : Int) * y) :
    t = u := by
  obtain ⟨hx, hy, hxy⟩ := hd
  rcases hx with rfl | rfl | rfl <;> rcases hy with rfl | rfl | rfl <;> omega

/-- Rays of two different directions from one origin share no cell. -/
theorem ray_disjoint {x y x1 y1 : Int} (hd : isDir x y) (he : isDir x1 y1) {i j : Int}
    {t u : Nat} (ht : 1 ≤ t) (hu : 1 ≤ u)
    (h1 : i + (t : Int) * x = i + (u : Int) * x1) (h2 : j + (t : Int) * y = j + (u : Int) * y1) :
    x = x1 ∧ y = y1 := by
  obtain ⟨hx, hy, hxy⟩ := hd
  obtain ⟨hx1, hy1, hxy1⟩ := he
  rcases hx with rfl | rfl | rfl <;> rcases hy with rfl | rfl | rfl <;>
    rcases hx1 with rfl | rfl | rfl <;> rcases hy1 with rfl | rfl | rfl <;> omega

/-- A direction holds at most one qualifying run. -/
theorem Run_unique {b : Board} {side i j x y : Int} (hs : side ≠ 0) {n m : Nat}
    (hn : Run b side i j x y n) (hm : Run b side i j x y m) : n = m := by
  obtain ⟨_, hc, _, ha⟩ := hn
  obtain ⟨_, hc1, _, ha1⟩ := hm
  rcases Nat.lt_trichotomy n m with h | h | h
  · have := (hc1 (n + 1) (by omega) (by omega)).2
    rw [ha] at this; omega
  · exact h
  · have := (hc (m + 1) (by omega) (by omega)).2
    rw [ha1] at this; omega

/-- A qualifying run depends only on the cells of its ray. -/
theorem Run_congr {b b1 : Board} {side i j x y : Int}
    (h : ∀ t : Nat, 1 ≤ t → b1 (i + (t : Int) * x) (j + (t : Int) * y)
      = b (i + (t : Int) * x) (j + (t : Int) * y)) {n : Nat}
    (hn : Run b side i j x y n) : Run b1 side i j x y n := by
  obtain ⟨h1, hc, hi, ha⟩ := hn
  refine ⟨h1, ?_, hi, ?_⟩
  · intro t ht1 ht2
    exact ⟨(hc t ht1 ht2).1, by rw [h t ht1]; exact (hc t ht1 ht2).2⟩
  · rw [h (n + 1) (by omega)]; exact ha

/-- The backward loop negates the cells `1..n` of the ray and nothing else. -/
theorem flipLoop_spec {x y : Int} (hd : isDir x y) (i j : Int) :
    ∀ (n fuel : Nat) (b : Board), n < fuel →
      (∀ t : Nat, 1 ≤ t → t ≤ n → inBounds (i + (t : Int) * x) (j + (t : Int) * y) = true) →
      ∃ b1, flipLoop x y i j fuel b (i + (n : Int) * x) (j + (n : Int) * y) = some b1 ∧
        (∀ t : Nat, 1 ≤ t → t ≤ n →
          b1 (i + (t : Int) * x) (j + (t : Int) * y) = -(b (i + (t : Int) * x) (j + (t : Int) * y))) ∧
        (∀ a c, (¬ ∃ t : Nat, 1 ≤ t ∧ t ≤ n ∧ a = i + (t : Int) * x ∧ c = j + (t : Int) * y) →
          b1 a c = b a c) := by
  intro n
  induction n with
  | zero =>
    intro fuel b hf _
    obtain ⟨f, rfl⟩ : ∃ f, fuel = f + 1 := ⟨fuel - 1, by omega⟩
    refine ⟨b, ?_, ?_, ?_⟩
    · simp [flipLoop]
    · intro t h1 h2; omega
    · intro a c _; rfl
  | succ n ih =>
    intro fuel b hf hin
    obtain ⟨f, rfl⟩ : ∃ f, fuel = f + 1 := ⟨fuel - 1, by omega⟩
    have hne : i + ((n + 1 : Nat) : Int) * x ≠ i ∨ j + ((n + 1 : Nat) : Int) * y ≠ j := by
      by_contra hcon
      push_neg at hcon
      have := ray_inj hd (i := i) (j := j) (t := n + 1) (u := 0)
        (by simpa using hcon.1) (by simpa using hcon.2)
      omega
    have hb := hin (n + 1) (by omega) (le_refl _)
    have e1 : i + ((n + 1 : Nat) : Int) * x - x = i + (n : Int) * x := by push_cast; ring
    have e2 : j + ((n + 1 : Nat) : Int) * y - y = j + (n : Int) * y := by push_cast; ring
    rw [flipLoop, if_pos hne, rd_some hb]
    simp only [wr_some hb, e1, e2]
    obtain ⟨b1, hb1, hflip, hkeep⟩ := ih f
      (setCell b (i + ((n + 1 : Nat) : Int) * x) (j + ((n + 1 : Nat) : Int) * y)
        (b (i + ((n + 1 : Nat) : Int) * x) (j + ((n + 1 : Nat) : Int) * y) * (-1)))
      (by omega) (fun t h1 h2 => hin t h1 (by omega))
    refine ⟨b1, hb1, ?_, ?_⟩
    · intro t h1 h2
      rcases Nat.lt_or_ge t (n + 1) with h | h
      · rw [hflip t h1 (by omega)]
        have hne2 : ¬ (i + (t : Int) * x = i + ((n + 1 : Nat) : Int) * x ∧
            j + (t : Int) * y = j + ((n + 1 : Nat) : Int) * y) := by
          rintro ⟨q1, q2⟩
          have := ray_inj hd q1 q2
          omega
        simp only [setCell, if_neg hne2]
      · have : t = n + 1 := by omega
        subst this
        rw [hkeep]
        · simp [setCell]
        · rintro ⟨u, hu1, hu2, q1, q2⟩
          have := ray_inj hd q1 q2
          omega
    · intro a c hnot
      rw [hkeep a c]
      · have hne2 : ¬ (a = i + ((n + 1 : Nat) : Int) * x ∧ c = j + ((n + 1 : Nat) : Int) * y) := by
          rintro ⟨q1, q2⟩
          exact hnot ⟨n + 1, by omega, le_refl _, q1, q2⟩
        simp only [setCell, if_neg hne2]
      · rintro ⟨u, hu1, hu2, q1, q2⟩
        exact hnot ⟨u, hu1, by omega, q1, q2⟩

theorem dirFold_ret (io jo side : Int) (flip : Bool) (b : Board) :
    ∀ ds, dirFold io jo side flip ds (Dir.ret b) = some (Dir.ret b) := by
  intro ds
  induction ds with
  | nil => rfl
  | cons d ds ih => simp [dirFold, dirStep, ih]

theorem dirFold_append (io jo side : Int) (flip : Bool) :
    ∀ (ds es : List (Int × Int)) (s : Dir),
      dirFold io jo side flip (ds ++ es) s
        = (dirFold io jo side flip ds s).bind (dirFold io jo side flip es) := by
  intro ds
  induction ds with
  | nil => intro es s; rfl
  | cons d ds ih =>
    intro es s
    simp only [List.cons_append, dirFold]
    cases h : dirStep io jo side flip d s with
    | none => rfl
    | some s1 => exact ih es s1

/-- The inner direction loop is the pass over the increments of its row. -/
theorem dirCols_eq (io jo side : Int) (flip : Bool) (x : Int)
    (hrow : ¬ (io + x < 0 ∨ io + x ≥ BOARD_MAX)) :
    ∀ (ns : List Int) (b : Board) (leg : Bool),
      dirCols io jo side flip x ns b leg
        = dirFold io jo side flip (ns.map fun n => (x, incr n)) (Dir.go b leg) := by
  intro ns
  induction ns with
  | nil => intro b leg; rfl
  | cons n ns ih =>
    intro b leg
    simp only [List.map_cons, dirFold, dirStep, dirCols]
    by_cases hz : x = 0 ∧ incr n = 0
    · rw [if_pos hz, if_pos (Or.inl hz)]
      exact ih b leg
    · rw [if_neg hz]
      by_cases hc : jo + incr n < 0 ∨ jo + incr n ≥ BOARD_MAX
      · have hin : inBounds (io + x) (jo + incr n) = false := by
          rw [Bool.eq_false_iff, Ne, inBounds_iff]
          simp only [BOARD_MAX] at hc; omega
        simp only [if_pos hc, hin, or_true, if_true, ih]
      · have hin : inBounds (io + x) (jo + incr n) = true := by
          rw [inBounds_iff]
          simp only [BOARD_MAX] at hc hrow; omega
        have hskip : ¬ ((x = 0 ∧ incr n = 0) ∨ inBounds (io + x) (jo + incr n) = false) := by
          simp [hin, hz]
        rw [if_neg hc, if_neg hskip]
        cases hsc : scanLoop b side x (incr n) 8 io jo with
        | none => rfl
        | some r =>
          cases r with
          | stop => simp only [ih]
          | anchor i j =>
            cases flip with
            | false => simp [dirFold_ret]
            | true =>
              simp only [if_true]
              cases hfl : flipLoop x (incr n) io jo 8 b i j with
              | none => rfl
              | some b1 => simp only [ih]

/-- A row of increments whose neighbouring cells are all off the board changes nothing. -/
theorem dirFold_skip_row (io jo side : Int) (flip : Bool) (x : Int)
    (hrow : io + x < 0 ∨ io + x ≥ BOARD_MAX) (b : Board) (leg : Bool) :
    ∀ ns : List Int, dirFold io jo side flip (ns.map fun n => (x, incr n)) (Dir.go b leg)
      = some (Dir.go b leg) := by
  intro ns
  induction ns with
  | nil => rfl
  | cons n ns ih =>
    have hin : inBounds (io + x) (jo + incr n) = false := by
      rw [Bool.eq_false_iff, Ne, inBounds_iff]
      simp only [BOARD_MAX] at hrow; omega
    simp only [List.map_cons, dirFold, dirStep, hin, or_true, if_true, ih]

/-- The double direction loop is the pass over `dirList`. -/
theorem dirRows_eq (io jo side : Int) (flip : Bool) :
    ∀ (ms : List Int) (b : Board) (leg : Bool),
      dirRows io jo side flip ms b leg
        = dirFold io jo side flip (dirList ms) (Dir.go b leg) := by
  intro ms
  induction ms with
  | nil => intro b leg; rfl
  | cons m ms ih =>
    intro b leg
    simp only [dirRows, dirList, dirFold_append, dirRow]
    by_cases hrow : io + incr m < 0 ∨ io + incr m ≥ BOARD_MAX
    · rw [if_pos hrow, dirFold_skip_row io jo side flip (incr m) hrow b leg idx3, ih]
      rfl
    · rw [if_neg hrow, dirCols_eq io jo side flip (incr m) hrow idx3 b leg]
      cases hf : dirFold io jo side flip (idx3.map fun n => (incr m, incr n)) (Dir.go b leg) with
      | none => rfl
      | some s =>
        cases s with
        | ret b1 => simp [dirFold_ret]
        | go b1 leg1 => simp [ih]

/-- The nine increments of the double loop. -/
theorem dirList_idx3 :
    dirList idx3 = [(-1, -1), (-1, 0), (-1, 1), (0, -1), (0, 0), (0, 1), (1, -1), (1, 0), (1, 1)] := by
  decide

theorem mem_dirList_of_isDir {x y : Int} (hd : isDir x y) : (x, y) ∈ dirList idx3 := by
  obtain ⟨hx, hy, hxy⟩ := hd
  rw [dirList_idx3]
  rcases hx with rfl | rfl | rfl <;> rcases hy with rfl | rfl | rfl <;> simp at hxy ⊢

theorem dirList_valid : ∀ d ∈ dirList idx3, d = (0, 0) ∨ isDir d.1 d.2 := by
  rw [dirList_idx3]
  intro d hd
  simp only [List.mem_cons, List.mem_singleton, List.not_mem_nil, or_false] at hd
  rcases hd with rfl | rfl | rfl | rfl | rfl | rfl | rfl | rfl | rfl <;> simp [isDir]

theorem dirList_nodup : (dirList idx3).Nodup := by
  rw [dirList_idx3]; decide

/-- A qualifying run starts on the board. -/
theorem Run_first {b : Board} {side i j x y : Int} {n : Nat} (h : Run b side i j x y n) :
    inBounds (i + x) (j + y) = true := by
  have := (h.2.1 1 (le_refl _) h.1).1
  simpa using this

/-- One direction of the loop, from a state that is still iterating: either
the direction holds a run, which is flipped (or ends the loop by `return true`),
or the state is kept. -/
theorem dirStep_go (b : Board) (side io jo : Int) (flip : Bool) (leg : Bool) (d : Int × Int)
    (hv : d = (0, 0) ∨ isDir d.1 d.2) (h0 : inBounds io jo = true) :
    (∃ n, isDir d.1 d.2 ∧ Run b side io jo d.1 d.2 n ∧
      ((flip = false ∧ dirStep io jo side flip d (Dir.go b leg) = some (Dir.ret b)) ∨
       (flip = true ∧ ∃ b1, dirStep io jo side flip d (Dir.go b leg) = some (Dir.go b1 true) ∧
          (∀ t : Nat, 1 ≤ t → t ≤ n →
            b1 (io + (t : Int) * d.1) (jo + (t : Int) * d.2)
              = -(b (io + (t : Int) * d.1) (jo + (t : Int) * d.2))) ∧
          (∀ a c, (¬ ∃ t : Nat, 1 ≤ t ∧ t ≤ n ∧ a = io + (t : Int) * d.1 ∧
            c = jo + (t : Int) * d.2) → b1 a c = b a c)))) ∨
    ((side ≠ 0 → ¬ (isDir d.1 d.2 ∧ ∃ n, Run b side io jo d.1 d.2 n)) ∧
      dirStep io jo side flip d (Dir.go b leg) = some (Dir.go b leg)) := by
  by_cases hskip : (d.1 = 0 ∧ d.2 = 0) ∨ inBounds (io + d.1) (jo + d.2) = false
  · right
    refine ⟨?_, by simp only [dirStep, if_pos hskip]⟩
    rintro _ ⟨hdir, n, hR⟩
    rcases hskip with hz | hout
    · exact hdir.2.2 hz
    · rw [Run_first hR] at hout; exact Bool.noConfusion hout
  · have hdir : isDir d.1 d.2 := by
      rcases hv with rfl | h
      · exact absurd (Or.inl ⟨rfl, rfl⟩) hskip
      · exact h
    have hin : inBounds (io + ((0 + 1 : Nat) : Int) * d.1) (jo + ((0 + 1 : Nat) : Int) * d.2)
        = true := by
      have : inBounds (io + d.1) (jo + d.2) = true := by
        cases h : inBounds (io + d.1) (jo + d.2) with
        | true => rfl
        | false => exact absurd (Or.inr h) hskip
      simpa using this
    have hsc := scanLoop_spec b side d.1 d.2 io jo hdir h0 8 0 (by omega) hin
      (fun t h1 h2 => by omega)
    simp only [Nat.cast_zero, zero_mul, add_zero] at hsc
    rcases hsc with ⟨n, hn, hR, hscan⟩ | ⟨hno, hscan⟩
    · left
      refine ⟨n, hdir, hR, ?_⟩
      cases flip with
      | false =>
        left
        refine ⟨rfl, ?_⟩
        simp [dirStep, if_neg hskip, hscan]
      | true =>
        right
        have hle : n + 1 ≤ 7 := ray_le hdir h0 hR.2.2.1
        obtain ⟨b1, hb1, hflip, hkeep⟩ := flipLoop_spec hdir io jo n 8 b (by omega)
          (fun t h1 h2 => (hR.2.1 t h1 h2).1)
        refine ⟨rfl, b1, ?_, hflip, hkeep⟩
        simp [dirStep, if_neg hskip, hscan, hb1]
    · right
      refine ⟨?_, by simp [dirStep, if_neg hskip, hscan]⟩
      rintro hs ⟨_, n, hR⟩
      exact hno hs n hR.1 hR

/-- Without flipping, the pass over the directions ends by `return true` with
the board untouched when some direction holds a run, and otherwise runs to
its end with the board untouched. -/
theorem dirFold_false (b : Board) (side io jo : Int) (h0 : inBounds io jo = true) :
    ∀ ds : List (Int × Int), (∀ d ∈ ds, d = (0, 0) ∨ isDir d.1 d.2) →
      ((∃ d ∈ ds, isDir d.1 d.2 ∧ ∃ n, Run b side io jo d.1 d.2 n) ∧
        dirFold io jo side false ds (Dir.go b false) = some (Dir.ret b)) ∨
      ((side ≠ 0 → ¬ ∃ d ∈ ds, isDir d.1 d.2 ∧ ∃ n, Run b side io jo d.1 d.2 n) ∧
        dirFold io jo side false ds (Dir.go b false) = some (Dir.go b false)) := by
  intro ds
  induction ds with
  | nil =>
    intro _
    right
    exact ⟨fun _ h => by simp at h, rfl⟩
  | cons d ds ih =>
    intro hv
    rcases dirStep_go b side io jo false false d (hv d (List.mem_cons_self _ _)) h0 with
      ⟨n, hdir, hR, h | h⟩ | ⟨hno, hstep⟩
    · left
      refine ⟨⟨d, List.mem_cons_self _ _, hdir, n, hR⟩, ?_⟩
      simp only [dirFold, h.2, dirFold_ret]
    · exact Bool.noConfusion h.1
    · rcases ih (fun e he => hv e (List.mem_cons_of_mem _ he)) with ⟨⟨e, he, hE⟩, hf⟩ | ⟨hnone, hf⟩
      · left
        refine ⟨⟨e, List.mem_cons_of_mem _ he, hE⟩, ?_⟩
        simp only [dirFold, hstep, hf]
      · right
        refine ⟨?_, by simp only [dirFold, hstep, hf]⟩
        rintro hs ⟨e, he, hE⟩
        rcases List.mem_cons.1 he with rfl | he1
        · exact hno hs hE
        · exact hnone hs ⟨e, he1, hE⟩

/-- With flipping, the pass over the directions runs to its end, and it
leaves the board alone unless it sets `legality`. -/
theorem dirFold_true_total (side io jo : Int) (h0 : inBounds io jo = true) :
    ∀ ds : List (Int × Int), (∀ d ∈ ds, d = (0, 0) ∨ isDir d.1 d.2) →
      ∀ (b : Board) (leg : Bool), ∃ b1 leg1,
        dirFold io jo side true ds (Dir.go b leg) = some (Dir.go b1 leg1) ∧
        (leg1 = false → b1 = b ∧ leg = false) := by
  intro ds
  induction ds with
  | nil =>
    intro _ b leg
    exact ⟨b, leg, rfl, fun h => ⟨rfl, h⟩⟩
  | cons d ds ih =>
    intro hv b leg
    rcases dirStep_go b side io jo true leg d (hv d (List.mem_cons_self _ _)) h0 with
      ⟨n, hdir, hR, h | ⟨_, b1, hstep, _⟩⟩ | ⟨_, hstep⟩
    · exact Bool.noConfusion h.1
    · obtain ⟨b2, leg2, hf, hk⟩ := ih (fun e he => hv e (List.mem_cons_of_mem _ he)) b1 true
      refine ⟨b2, leg2, by simp only [dirFold, hstep, hf], ?_⟩
      intro h
      exact Bool.noConfusion (hk h).2
    · obtain ⟨b2, leg2, hf, hk⟩ := ih (fun e he => hv e (List.mem_cons_of_mem _ he)) b leg
      exact ⟨b2, leg2, by simp only [dirFold, hstep, hf], hk⟩

/-- One more direction keeps the invariant of the flipping pass. -/
theorem FlipInv_step (b0 : Board) (side io jo : Int) (hs : side ≠ 0)
    (h0 : inBounds io jo = true) (P : Int × Int → Prop) (b : Board) (leg : Bool)
    (d : Int × Int) (hv : d = (0, 0) ∨ isDir d.1 d.2) (hP : ¬ P d)
    (hI : FlipInv b0 side io jo P b leg) :
    ∃ b1 leg1, dirStep io jo side true d (Dir.go b leg) = some (Dir.go b1 leg1) ∧
      FlipInv b0 side io jo (fun e => P e ∨ e = d) b1 leg1 := by
  obtain ⟨hleg, hneg, hsame⟩ := hI
  -- the current board still shows the cells of the ray of `d` as the pass found them
  have hagree : isDir d.1 d.2 → ∀ t : Nat, 1 ≤ t →
      b (io + (t : Int) * d.1) (jo + (t : Int) * d.2)
        = b0 (io + (t : Int) * d.1) (jo + (t : Int) * d.2) := by
    intro hdir t ht
    apply hsame
    rintro ⟨e, hPe, hedir, n, _, u, hu1, _, q1, q2⟩
    have := ray_disjoint hdir hedir ht hu1 q1 q2
    have hde : d = e := Prod.ext this.1 this.2
    exact hP (hde ▸ hPe)
  rcases dirStep_go b side io jo true leg d hv h0 with
    ⟨n, hdir, hR, h | ⟨_, b1, hstep, hflip, hkeep⟩⟩ | ⟨hno, hstep⟩
  · exact Bool.noConfusion h.1
  · have hR0 : Run b0 side io jo d.1 d.2 n :=
      Run_congr (fun t ht => (hagree hdir t ht).symm) hR
    refine ⟨b1, true, hstep, ?_, ?_, ?_⟩
    · exact ⟨fun _ => ⟨d, Or.inr rfl, hdir, n, hR0⟩, fun _ => rfl⟩
    · rintro a c ⟨e, hPe | rfl, hedir, m, hRm, t, ht1, ht2, rfl, rfl⟩
      · rw [hkeep]
        · exact hneg _ _ ⟨e, hPe, hedir, m, hRm, t, ht1, ht2, rfl, rfl⟩
        · rintro ⟨u, hu1, _, q1, q2⟩
          have := ray_disjoint hedir hdir ht1 hu1 q1 q2
          have hde : e = d := Prod.ext this.1 this.2
          exact hP (hde ▸ hPe)
      · have hmn : m = n := Run_unique hs hRm hR0
        subst hmn
        rw [hflip t ht1 ht2, hagree hdir t ht1]
    · intro a c hnot
      rw [hkeep]
      · apply hsame
        rintro ⟨e, hPe, hE⟩
        exact hnot ⟨e, Or.inl hPe, hE⟩
      · rintro ⟨t, ht1, ht2, q1, q2⟩
        exact hnot ⟨d, Or.inr rfl, hdir, n, hR0, t, ht1, ht2, q1, q2⟩
  · have hno0 : ¬ (isDir d.1 d.2 ∧ ∃ n, Run b0 side io jo d.1 d.2 n) := by
      rintro ⟨hdir, n, hRn⟩
      exact hno hs ⟨hdir, n, Run_congr (fun t ht => hagree hdir t ht) hRn⟩
    refine ⟨b, leg, hstep, ?_, ?_, ?_⟩
    · rw [hleg]
      constructor
      · rintro ⟨e, hPe, hE⟩; exact ⟨e, Or.inl hPe, hE⟩
      · rintro ⟨e, hPe | rfl, hE⟩
        · exact ⟨e, hPe, hE⟩
        · exact absurd hE hno0
    · rintro a c ⟨e, hPe | rfl, hedir, m, hRm, hT⟩
      · exact hneg _ _ ⟨e, hPe, hedir, m, hRm, hT⟩
      · exact absurd ⟨hedir, m, hRm⟩ hno0
    · intro a c hnot
      apply hsame
      rintro ⟨e, hPe, hE⟩
      exact hnot ⟨e, Or.inl hPe, hE⟩

/-- The flipping pass over distinct directions keeps its invariant. -/
theorem dirFold_true_inv (b0 : Board) (side io jo : Int) (hs : side ≠ 0)
    (h0 : inBounds io jo = true) :
    ∀ ds : List (Int × Int), ds.Nodup → (∀ d ∈ ds, d = (0, 0) ∨ isDir d.1 d.2) →
      ∀ (P : Int × Int → Prop) (b : Board) (leg : Bool), (∀ d ∈ ds, ¬ P d) →
        FlipInv b0 side io jo P b leg →
        ∃ b1 leg1, dirFold io jo side true ds (Dir.go b leg) = some (Dir.go b1 leg1) ∧
          FlipInv b0 side io jo (fun e => P e ∨ e ∈ ds) b1 leg1 := by
  intro ds
  induction ds with
  | nil =>
    intro _ _ P b leg _ hI
    refine ⟨b, leg, rfl, ?_⟩
    have hP : (fun e : Int × Int => P e ∨ e ∈ ([] : List (Int × Int))) = P := by
      funext e; simp
    rw [hP]; exact hI
  | cons d ds ih =>
    intro hnd hv P b leg hP hI
    obtain ⟨b1, leg1, hstep, hI1⟩ := FlipInv_step b0 side io jo hs h0 P b leg d
      (hv d (List.mem_cons_self _ _)) (hP d (List.mem_cons_self _ _)) hI
    have hnd1 := List.nodup_cons.1 hnd
    obtain ⟨b2, leg2, hf, hI2⟩ := ih hnd1.2 (fun e he => hv e (List.mem_cons_of_mem _ he))
      (fun e => P e ∨ e = d) b1 leg1
      (by
        rintro e he (hPe | rfl)
        · exact hP e (List.mem_cons_of_mem _ he) hPe
        · exact hnd1.1 he)
      hI1
    refine ⟨b2, leg2, by simp only [dirFold, hstep, hf], ?_⟩
    have hPeq : (fun e : Int × Int => P e ∨ e ∈ d :: ds)
        = (fun e : Int × Int => (P e ∨ e = d) ∨ e ∈ ds) := by
      funext e; simp [or_assoc]
    rw [hPeq]; exact hI2

theorem Qualifies_iff_dirList (b : Board) (side i j : Int) :
    Qualifies b side i j ↔
      ∃ d ∈ dirList idx3, isDir d.1 d.2 ∧ ∃ n, Run b side i j d.1 d.2 n := by
  constructor
  · rintro ⟨x, y, hd, n, hR⟩
    exact ⟨(x, y), mem_dirList_of_isDir hd, hd, n, hR⟩
  · rintro ⟨d, _, hd, n, hR⟩
    exact ⟨d.1, d.2, hd, n, hR⟩

/-- The value and the effect of `isLegal` without flipping, for any side value. -/
theorem isLegal_false_core (b : Board) (i j side : Int) (h0 : inBounds i j = true) :
    ((b i j = 0 ∧ Qualifies b side i j) ∧ isLegal b i j side false = some (true, b)) ∨
    ((side ≠ 0 → ¬ (b i j = 0 ∧ Qualifies b side i j)) ∧
      isLegal b i j side false = some (false, b)) := by
  by_cases hz : b i j = 0
  · rcases dirFold_false b side i j h0 (dirList idx3) dirList_valid with ⟨hq, hf⟩ | ⟨hq, hf⟩
    · left
      refine ⟨⟨hz, (Qualifies_iff_dirList b side i j).2 hq⟩, ?_⟩
      simp [isLegal, rd_some h0, hz, dirRows_eq, hf]
    · right
      refine ⟨fun hs h => hq hs ((Qualifies_iff_dirList b side i j).1 h.2), ?_⟩
      simp [isLegal, rd_some h0, hz, dirRows_eq, hf]
  · right
    refine ⟨fun _ h => hz h.1, ?_⟩
    simp [isLegal, rd_some h0, hz]

/-- The value and the effect of `isLegal` with flipping, for any side value:
it returns, and a `false` result leaves the board as it was. -/
theorem isLegal_true_total (b : Board) (i j side : Int) (h0 : inBounds i j = true) :
    ∃ r b1, isLegal b i j side true = some (r, b1) ∧ (r = false → b1 = b) := by
  by_cases hz : b i j = 0
  · obtain ⟨b1, leg1, hf, hk⟩ := dirFold_true_total side i j h0 (dirList idx3) dirList_valid b false
    cases leg1 with
    | false =>
      refine ⟨false, b1, ?_, fun _ => (hk rfl).1⟩
      simp [isLegal, rd_some h0, hz, dirRows_eq, hf]
    | true =>
      refine ⟨true, setCell b1 i j side, ?_, fun h => Bool.noConfusion h⟩
      simp [isLegal, rd_some h0, hz, dirRows_eq, hf, wr_some h0]
  · refine ⟨false, b, ?_, fun _ => rfl⟩
    simp [isLegal, rd_some h0, hz]

/-- A cell of a run is not the cell the run starts from. -/
theorem OnRun_ne_origin {b : Board} {side i j a c : Int} (h : OnRun b side i j a c) :
    ¬ (a = i ∧ c = j) := by
  obtain ⟨x, y, hd, n, _, t, ht1, _, rfl, rfl⟩ := h
  rintro ⟨q1, q2⟩
  have := ray_inj hd (i := i) (j := j) (t := t) (u := 0) (by simpa using q1) (by simpa using q2)
  omega

/-- A cell of a run holds the opposing colour. -/
theorem OnRun_cell {b : Board} {side i j a c : Int} (h : OnRun b side i j a c) :
    b a c = -side := by
  obtain ⟨x, y, _, n, hR, t, ht1, ht2, rfl, rfl⟩ := h
  exact (hR.2.1 t ht1 ht2).2

theorem OnRun_iff_OnRunIn (b : Board) (side i j a c : Int) :
    OnRun b side i j a c ↔
      OnRunIn b side i j (fun e => False ∨ e ∈ dirList idx3) a c := by
  constructor
  · rintro ⟨x, y, hd, n, hR, hT⟩
    exact ⟨(x, y), Or.inr (mem_dirList_of_isDir hd), hd, n, hR, hT⟩
  · rintro ⟨d, _, hd, n, hR, hT⟩
    exact ⟨d.1, d.2, hd, n, hR, hT⟩

/-- The value and the effect of `isLegal` with flipping, for a nonzero side. -/
theorem isLegal_true_core (b : Board) (i j side : Int) (h0 : inBounds i j = true)
    (hs : side ≠ 0) :
    ((b i j = 0 ∧ Qualifies b side i j) ∧
      ∃ b1, isLegal b i j side true = some (true, b1) ∧ b1 i j = side ∧
        (∀ a c, OnRun b side i j a c → b1 a c = side) ∧
        (∀ a c, ¬ (a = i ∧ c = j) → ¬ OnRun b side i j a c → b1 a c = b a c)) ∨
    (¬ (b i j = 0 ∧ Qualifies b side i j) ∧ isLegal b i j side true = some (false, b)) := by
  by_cases hz : b i j = 0
  · have hI0 : FlipInv b side i j (fun _ => False) b false := by
      refine ⟨⟨fun h => Bool.noConfusion h, ?_⟩, ?_, fun _ _ _ => rfl⟩
      · rintro ⟨d, hF, _⟩; exact hF.elim
      · rintro a c ⟨d, hF, _⟩; exact hF.elim
    obtain ⟨b1, leg1, hf, hleg, hneg, hsame⟩ := dirFold_true_inv b side i j hs h0 (dirList idx3)
      dirList_nodup dirList_valid (fun _ => False) b false (fun _ _ h => h) hI0
    have hq : leg1 = true ↔ Qualifies b side i j := by
      rw [hleg, Qualifies_iff_dirList]
      constructor
      · rintro ⟨d, hd | hd, hE⟩
        · exact hd.elim
        · exact ⟨d, hd, hE⟩
      · rintro ⟨d, hd, hE⟩; exact ⟨d, Or.inr hd, hE⟩
    cases leg1 with
    | false =>
      right
      have hnq : ¬ Qualifies b side i j := fun h => Bool.noConfusion (hq.2 h)
      have hb1 : b1 = b := by
        funext a c
        apply hsame
        rintro ⟨d, _, hd, n, hR, _⟩
        exact hnq ⟨d.1, d.2, hd, n, hR⟩
      refine ⟨fun h => hnq h.2, ?_⟩
      simp [isLegal, rd_some h0, hz, dirRows_eq, hf, hb1]
    | true =>
      left
      refine ⟨⟨hz, hq.1 rfl⟩, setCell b1 i j side, ?_, ?_, ?_, ?_⟩
      · simp [isLegal, rd_some h0, hz, dirRows_eq, hf, wr_some h0]
      · simp [setCell]
      · intro a c hon
        have hne := OnRun_ne_origin hon
        simp only [setCell, if_neg hne]
        rw [hneg a c ((OnRun_iff_OnRunIn b side i j a c).1 hon), OnRun_cell hon]
        ring
      · intro a c hne hon
        simp only [setCell, if_neg hne]
        exact hsame a c (fun h => hon ((OnRun_iff_OnRunIn b side i j a c).2 h))
  · right
    refine ⟨fun h => hz h.1, ?_⟩
    simp [isLegal, rd_some h0, hz]

/-- C1: for every board, every cell `(i, j)` of the board and every side in
{-1, +1}, `isLegal(i, j, side, false)` returns, and it returns true exactly
when the cell is empty and some direction holds a contiguous run of one or
more opposing tiles that is closed, still on the board, by a tile of `side`. -/
theorem isLegal_false_iff (b : Board) (i j side : Int) (hij : inBounds i j = true)
    (hs : side = 1 ∨ side = -1) :
    ∃ r b1, isLegal b i j side false = some (r, b1) ∧
      (r = true ↔ b i j = 0 ∧ Qualifies b side i j) := by
  have hs0 : side ≠ 0 := by rcases hs with rfl | rfl <;> decide
  rcases isLegal_false_core b i j side hij with ⟨hq, h⟩ | ⟨hq, h⟩
  · exact ⟨true, b, h, fun _ => hq, fun _ => rfl⟩
  · exact ⟨false, b, h, fun hr => Bool.noConfusion hr, fun hh => absurd hh (hq hs0)⟩

/-- The effect of a legal move applied by `isLegal`, for a nonzero side. -/
theorem isLegal_true_legal (b : Board) (i j side : Int) (hij : inBounds i j = true)
    (hs0 : side ≠ 0) (hlegal : ∃ b0, isLegal b i j side false = some (true, b0)) :
    b i j = 0 ∧
    ∃ b1, isLegal b i j side true = some (true, b1) ∧ b1 i j = side ∧
      (∀ a c, OnRun b side i j a c → b1 a c = side) ∧
      (∀ a c, ¬ (a = i ∧ c = j) → ¬ OnRun b side i j a c → b1 a c = b a c) := by
  have hq : b i j = 0 ∧ Qualifies b side i j := by
    obtain ⟨b0, hb0⟩ := hlegal
    rcases isLegal_false_core b i j side hij with ⟨hq, _⟩ | ⟨_, h⟩
    · exact hq
    · rw [h] at hb0; simp at hb0
  rcases isLegal_true_core b i j side hij hs0 with ⟨_, h⟩ | ⟨hn, _⟩
  · exact ⟨hq.1, h⟩
  · exact absurd hq hn

/-- C2: for every board, cell `(i, j)` of the board and side in {-1, +1} for
which the move is legal, `isLegal(i, j, side, true)` returns true and leaves
the board with `side` at `(i, j)`, `side` at every cell of a qualifying run in
any of the 8 directions, and the previous value at every other cell. -/
theorem isLegal_true_board (b : Board) (i j side : Int) (hij : inBounds i j = true)
    (hs : side = 1 ∨ side = -1)
    (hlegal : ∃ b0, isLegal b i j side false = some (true, b0)) :
    ∃ b1, isLegal b i j side true = some (true, b1) ∧ b1 i j = side ∧
      (∀ a c, OnRun b side i j a c → b1 a c = side) ∧
      (∀ a c, ¬ (a = i ∧ c = j) → ¬ OnRun b side i j a c → b1 a c = b a c) := by
  have hs0 : side ≠ 0 := by rcases hs with rfl | rfl <;> decide
  exact (isLegal_true_legal b i j side hij hs0 hlegal).2

/-- C6: `isLegal` writes to the board only when `flip` is true and the move
is legal: called with `flip = false` it returns with every cell unchanged, and
called with `flip = true` it returns and a `false` result comes with every
cell unchanged; for every board, cell `(i, j)` of the board and side value. -/
theorem isLegal_frame (b : Board) (i j side : Int) (hij : inBounds i j = true) :
    (∃ r, isLegal b i j side false = some (r, b)) ∧
    (∃ r b1, isLegal b i j side true = some (r, b1) ∧ (r = false → b1 = b)) := by
  refine ⟨?_, isLegal_true_total b i j side hij⟩
  rcases isLegal_false_core b i j side hij with ⟨_, h⟩ | ⟨_, h⟩
  · exact ⟨true, h⟩
  · exact ⟨false, h⟩

theorem mem_idx8 (i : Int) : i ∈ idx8 ↔ 0 ≤ i ∧ i < 8 := by
  simp only [idx8, List.mem_cons, List.mem_singleton, List.not_mem_nil, or_false]
  omega

theorem isLegal_some_inBounds {b : Board} {i j side : Int} {flip : Bool} {r : Bool × Board}
    (h : isLegal b i j side flip = some r) : inBounds i j = true := by
  cases hin : inBounds i j with
  | true => rfl
  | false => simp [isLegal, rd, hin] at h

/-- The inner loop of `isAnyMoveAvailable` on a row of the board. -/
theorem anyMoveCols_spec (b : Board) (side i : Int) (hi : 0 ≤ i ∧ i < 8) :
    ∀ js : List Int, (∀ j ∈ js, 0 ≤ j ∧ j < 8) →
      ∃ r, anyMoveCols side i js b = some (r, b) ∧
        (r = true ↔ ∃ j ∈ js, ∃ b1, isLegal b i j side false = some (true, b1)) := by
  intro js
  induction js with
  | nil =>
    intro _
    exact ⟨false, rfl, by simp⟩
  | cons j js ih =>
    intro hjs
    have hj := hjs j (List.mem_cons_self _ _)
    have hin : inBounds i j = true := (inBounds_iff i j).2 ⟨hi.1, hi.2, hj.1, hj.2⟩
    rcases isLegal_false_core b i j side hin with ⟨_, h⟩ | ⟨_, h⟩
    · refine ⟨true, by simp [anyMoveCols, h], fun _ => ⟨j, List.mem_cons_self _ _, b, h⟩, fun _ => rfl⟩
    · obtain ⟨r, hr, hiff⟩ := ih (fun k hk => hjs k (List.mem_cons_of_mem _ hk))
      refine ⟨r, by simp [anyMoveCols, h, hr], ?_⟩
      rw [hiff]
      constructor
      · rintro ⟨k, hk, hE⟩; exact ⟨k, List.mem_cons_of_mem _ hk, hE⟩
      · rintro ⟨k, hk, b1, hE⟩
        rcases List.mem_cons.1 hk with rfl | hk1
        · rw [h] at hE; simp at hE
        · exact ⟨k, hk1, b1, hE⟩

/-- The outer loop of `isAnyMoveAvailable` on rows of the board. -/
theorem anyMoveRows_spec (b : Board) (side : Int) :
    ∀ is : List Int, (∀ i ∈ is, 0 ≤ i ∧ i < 8) →
      ∃ r, anyMoveRows side is b = some (r, b) ∧
        (r = true ↔ ∃ i ∈ is, ∃ j ∈ idx8, ∃ b1, isLegal b i j side false = some (true, b1)) := by
  intro is
  induction is with
  | nil =>
    intro _
    exact ⟨false, rfl, by simp⟩
  | cons i is ih =>
    intro his
    have hi := his i (List.mem_cons_self _ _)
    obtain ⟨r, hr, hiff⟩ := anyMoveCols_spec b side i hi idx8 (fun j hj => (mem_idx8 j).1 hj)
    cases r with
    | true =>
      refine ⟨true, by simp [anyMoveRows, hr], fun _ => ?_, fun _ => rfl⟩
      obtain ⟨j, hj, hE⟩ := hiff.1 rfl
      exact ⟨i, List.mem_cons_self _ _, j, hj, hE⟩
    | false =>
      obtain ⟨r1, hr1, hiff1⟩ := ih (fun k hk => his k (List.mem_cons_of_mem _ hk))
      refine ⟨r1, by simp [anyMoveRows, hr, hr1], ?_⟩
      rw [hiff1]
      constructor
      · rintro ⟨k, hk, hE⟩; exact ⟨k, List.mem_cons_of_mem _ hk, hE⟩
      · rintro ⟨k, hk, j, hj, hE⟩
        rcases List.mem_cons.1 hk with rfl | hk1
        · have := hiff.2 ⟨j, hj, hE⟩
          exact Bool.noConfusion this
        · exact ⟨k, hk1, j, hj, hE⟩

/-- C8: for every board and side value, `isAnyMoveAvailable(side)` returns,
with the board unchanged, and it returns true exactly when some cell `(r, c)`
of the board has `isLegal(r, c, side, false)` true. -/
theorem isAnyMoveAvailable_iff (b : Board) (side : Int) :
    ∃ r, isAnyMoveAvailable b side = some (r, b) ∧
      (r = true ↔ ∃ i j, inBounds i j = true ∧
        ∃ b1, isLegal b i j side false = some (true, b1)) := by
  obtain ⟨r, hr, hiff⟩ := anyMoveRows_spec b side idx8 (fun i hi => (mem_idx8 i).1 hi)
  refine ⟨r, hr, ?_⟩
  rw [hiff]
  constructor
  · rintro ⟨i, hi, j, hj, hE⟩
    have hi1 := (mem_idx8 i).1 hi
    have hj1 := (mem_idx8 j).1 hj
    exact ⟨i, j, (inBounds_iff i j).2 ⟨hi1.1, hi1.2, hj1.1, hj1.2⟩, hE⟩
  · rintro ⟨i, j, hin, hE⟩
    rw [inBounds_iff] at hin
    exact ⟨i, (mem_idx8 i).2 ⟨hin.1, hin.2.1⟩, j, (mem_idx8 j).2 ⟨hin.2.2.1, hin.2.2.2⟩, hE⟩

theorem isLegal_true_iff_map (b : Board) (i j side : Int) (flip : Bool) :
    (∃ b1, isLegal b i j side flip = some (true, b1)) ↔
      (isLegal b i j side flip).map Prod.fst = some true := by
  cases h : isLegal b i j side flip with
  | none => simp
  | some r =>
    obtain ⟨r1, r2⟩ := r
    cases r1 <;> simp

theorem opening_moves_table :
    ∀ r ∈ idx8, ∀ c ∈ idx8,
      ((isLegal openingBoard r c (-1) false).map Prod.fst = some true ↔
        (r, c) ∈ [((2 : Int), (3 : Int)), (3, 2), (4, 5), (5, 4)]) := by
  decide

/-- C9: on the opening board built by `main`, the coordinates `(r, c)` for
which `isLegal(r, c, -1, false)` is true are exactly (2,3), (3,2), (4,5), (5,4). -/
theorem opening_legal_moves (r c : Int) :
    (∃ b1, isLegal openingBoard r c (-1) false = some (true, b1)) ↔
      ((r = 2 ∧ c = 3) ∨ (r = 3 ∧ c = 2) ∨ (r = 4 ∧ c = 5) ∨ (r = 5 ∧ c = 4)) := by
  have hmem : (r, c) ∈ [((2 : Int), (3 : Int)), (3, 2), (4, 5), (5, 4)] ↔
      ((r = 2 ∧ c = 3) ∨ (r = 3 ∧ c = 2) ∨ (r = 4 ∧ c = 5) ∨ (r = 5 ∧ c = 4)) := by
    simp
  constructor
  · rintro ⟨b1, h⟩
    have hin := isLegal_some_inBounds h
    rw [inBounds_iff] at hin
    have key := opening_moves_table r ((mem_idx8 r).2 ⟨hin.1, hin.2.1⟩) c
      ((mem_idx8 c).2 ⟨hin.2.2.1, hin.2.2.2⟩)
    exact hmem.1 (key.1 ((isLegal_true_iff_map _ _ _ _ _).1 ⟨b1, h⟩))
  · intro h
    have hr : r ∈ idx8 := by rw [mem_idx8]; omega
    have hc : c ∈ idx8 := by rw [mem_idx8]; omega
    exact (isLegal_true_iff_map _ _ _ _ _).2 ((opening_moves_table r hr c hc).2 (hmem.2 h))

theorem foldl_add_sum (f : Int → Int) :
    ∀ (L : List Int) (c : Int), L.foldl (fun acc x => acc + f x) c = c + (L.map f).sum := by
  intro L
  induction L with
  | nil => intro c; simp
  | cons x L ih => intro c; simp only [List.foldl, ih, List.map_cons, List.sum_cons]; ring

/-- The value of `boardCount` is the sum of the 64 cells. -/
theorem boardCount_eq_sum (b : Board) :
    boardCount b = (cells.map fun p => b p.1 p.2).sum := by
  simp only [boardCount, foldl_add_sum]
  simp [idx8, cells]
  ring

/-- The change of the sum of the listed cells, cell by cell. -/
theorem sum_diff (b b1 : Board) (i j side : Int) (h1 : b1 i j - b i j = side)
    (h2 : ∀ a c, ¬ (a = i ∧ c = j) → b1 a c ≠ b a c → b1 a c - b a c = 2 * side) :
    ∀ L : List (Int × Int),
      (L.map fun p => b1 p.1 p.2).sum - (L.map fun p => b p.1 p.2).sum
        = side * (2 * (((L.filter fun p => decide (¬ (p.1 = i ∧ p.2 = j)) &&
              decide (b1 p.1 p.2 ≠ b p.1 p.2)).length : Nat) : Int)
            + (((L.filter fun p => decide (p.1 = i ∧ p.2 = j)).length : Nat) : Int)) := by
  intro L
  induction L with
  | nil => simp
  | cons p L ih =>
    obtain ⟨a, c⟩ := p
    by_cases hp : a = i ∧ c = j
    · have e1 : (decide (¬ (a = i ∧ c = j)) && decide (b1 a c ≠ b a c)) = false := by
        simp [hp]
      have e2 : decide (a = i ∧ c = j) = true := by simp [hp]
      simp only [List.map_cons, List.sum_cons, List.filter_cons, e1, e2, if_true,
        Bool.false_eq_true, if_false, List.length_cons]
      obtain ⟨rfl, rfl⟩ := hp
      push_cast
      linear_combination ih + h1
    · have e2 : decide (a = i ∧ c = j) = false := by simp [hp]
      by_cases hc : b1 a c ≠ b a c
      · have := h2 a c hp hc
        have e1 : (decide (¬ (a = i ∧ c = j)) && decide (b1 a c ≠ b a c)) = true := by
          simp [hp, hc]
        simp only [List.map_cons, List.sum_cons, List.filter_cons, e1, e2, if_true,
          Bool.false_eq_true, if_false, List.length_cons]
        push_cast
        linear_combination ih + this
      · have heq : b1 a c = b a c := not_not.1 hc
        have e1 : (decide (¬ (a = i ∧ c = j)) && decide (b1 a c ≠ b a c)) = false := by
          simp [hp, heq]
        simp only [List.map_cons, List.sum_cons, List.filter_cons, e1, e2,
          Bool.false_eq_true, if_false]
        linear_combination ih + heq

theorem cells_count_table :
    ∀ i ∈ idx8, ∀ j ∈ idx8,
      (cells.filter fun p => decide (p.1 = i ∧ p.2 = j)).length = 1 := by
  decide

/-- C7 (amended): for every board and legal move by a side in {-1, +1}, the
sum of all cells after `isLegal(i, j, side, true)` minus the sum before is
`side * (2 * (number of flipped tiles) + 1)`. -/
theorem boardCount_after_move (b : Board) (i j side : Int) (hij : inBounds i j = true)
    (hs : side = 1 ∨ side = -1)
    (hlegal : ∃ b0, isLegal b i j side false = some (true, b0)) :
    ∃ b1, isLegal b i j side true = some (true, b1) ∧
      boardCount b1 - boardCount b = side * (2 * (flippedCount b b1 i j : Int) + 1) := by
  have hs0 : side ≠ 0 := by rcases hs with rfl | rfl <;> decide
  obtain ⟨hz, b1, hb1, horigin, hrun, hrest⟩ := isLegal_true_legal b i j side hij hs0 hlegal
  refine ⟨b1, hb1, ?_⟩
  have h1 : b1 i j - b i j = side := by rw [horigin, hz]; ring
  have h2 : ∀ a c, ¬ (a = i ∧ c = j) → b1 a c ≠ b a c → b1 a c - b a c = 2 * side := by
    intro a c hne hch
    by_cases hon : OnRun b side i j a c
    · rw [hrun a c hon, OnRun_cell hon]; ring
    · exact absurd (hrest a c hne hon) hch
  have hin := (inBounds_iff i j).1 hij
  have hcount := cells_count_table i ((mem_idx8 i).2 ⟨hin.1, hin.2.1⟩) j
    ((mem_idx8 j).2 ⟨hin.2.2.1, hin.2.2.2⟩)
  rw [boardCount_eq_sum, boardCount_eq_sum, sum_diff b b1 i j side h1 h2 cells, hcount]
  simp [flippedCount]

/-- C7 (as stated, refuted): on the opening board black's move at (2,3) flips
one tile and changes the sum of the cells by -3, while
`2 * (number of flipped tiles) + side` is 1. -/
theorem boardCount_delta_counterexample :
    (isLegal openingBoard 2 3 (-1) true).map
        (fun r => (r.1, boardCount r.2 - boardCount openingBoard,
          2 * (flippedCount openingBoard r.2 2 3 : Int) + (-1)))
      = some (true, -3, 1) := by
  decide

theorem dirColsAI_eq (io jo side x : Int) :
    ∀ (ns : List Int) (b : Board) (leg : Bool),
      dirCols io jo side true x ns b leg
        = (dirColsAI io jo side x ns b leg).map (fun p => Dir.go p.1 p.2) := by
  intro ns
  induction ns with
  | nil => intro b leg; rfl
  | cons n ns ih =>
    intro b leg
    simp only [dirCols, dirColsAI]
    split_ifs
    · exact ih b leg
    · exact ih b leg
    · cases hsc : scanLoop b side x (incr n) 8 io jo with
      | none => rfl
      | some r =>
        cases r with
        | stop => exact ih b leg
        | anchor i j =>
          simp only []
          cases hfl : flipLoop x (incr n) io jo 8 b i j with
          | none => rfl
          | some b1 => exact ih b1 true

theorem dirRowsAI_eq (io jo side : Int) :
    ∀ (ms : List Int) (b : Board) (leg : Bool),
      dirRows io jo side true ms b leg
        = (dirRowsAI io jo side ms b leg).map (fun p => Dir.go p.1 p.2) := by
  intro ms
  induction ms with
  | nil => intro b leg; rfl
  | cons m ms ih =>
    intro b leg
    simp only [dirRows, dirRowsAI]
    split_ifs
    · exact ih b leg
    · rw [dirColsAI_eq]
      cases hc : dirColsAI io jo side (incr m) idx3 b leg with
      | none => rfl
      | some p => exact ih p.1 p.2

/-- The function `isLegalAI` does to `boardAI` what `isLegal` with
`flip = true` does to `board`. -/
theorem isLegalAI_eq (b : Board) (i j side : Int) :
    isLegalAI b i j side = isLegal b i j side true := by
  simp only [isLegalAI, isLegal]
  cases hr : rd b i j with
  | none => rfl
  | some v =>
    simp only []
    split_ifs with hv
    · rfl
    · rw [dirRowsAI_eq]
      cases hd : dirRowsAI i j side idx3 b false with
      | none => rfl
      | some p =>
        obtain ⟨b1, leg⟩ := p
        cases leg <;> simp

theorem childCols_z (child : Board → Int → Int → Int → Int → Bool → Option Ret)
    (hchild : ∀ bd zd m n ps fc r, child bd zd m n ps fc = some r → r.z = zd)
    (bl : Board) (fc : Bool) (al ps m : Int) :
    ∀ (ns : List Int) (s s1 : Loop), childCols child bl fc al ps m ns s = some s1 → s1.z = s.z := by
  intro ns
  induction ns with
  | nil => intro s s1 h; simp only [childCols, Option.some.injEq] at h; rw [← h]
  | cons n ns ih =>
    intro s s1 h
    simp only [childCols] at h
    cases hc : child s.boardAI s.z m n s.score s.firstChildAssigned with
    | none => rw [hc] at h; exact Option.noConfusion h
    | some r =>
      rw [hc] at h
      have hz := hchild _ _ _ _ _ _ _ hc
      simp only [] at h
      split_ifs at h
      · simp only [Option.some.injEq] at h; rw [← h]; exact hz
      · have := ih _ _ h; simpa [hz] using this
      · have := ih _ _ h; simpa [hz] using this

theorem childRows_z (child : Board → Int → Int → Int → Int → Bool → Option Ret)
    (hchild : ∀ bd zd m n ps fc r, child bd zd m n ps fc = some r → r.z = zd)
    (bl : Board) (fc : Bool) (al ps : Int) :
    ∀ (ms : List Int) (s s1 : Loop), childRows child bl fc al ps ms s = some s1 → s1.z = s.z := by
  intro ms
  induction ms with
  | nil => intro s s1 h; simp only [childRows, Option.some.injEq] at h; rw [← h]
  | cons m ms ih =>
    intro s s1 h
    simp only [childRows] at h
    cases hc : childCols child bl fc al ps m idx8 s with
    | none => rw [hc] at h; exact Option.noConfusion h
    | some s2 =>
      rw [hc] at h
      rw [ih _ _ h, childCols_z child hchild bl fc al ps m idx8 s s2 hc]

/-- How the part of `minimax` before the child loop can end. -/
theorem enterNode_cases {bAI : Board} {z i j : Int} {pf : Bool} {e : Entry}
    (h : enterNode bAI z i j pf = some e) :
    (∃ b1, isLegalAI bAI i j (if z % 2 = 0 then 1 else -1) = some (false, b1) ∧
      e = Entry.illegal ⟨65, b1, z, pf⟩) ∨
    (∃ b1, isLegalAI bAI i j (if z % 2 = 0 then 1 else -1) = some (true, b1) ∧
      ((∃ b2, e = Entry.leaf ⟨boardCountAI b2, b2, z + 1 - 1, true⟩) ∨
       (∃ b2 al, ¬ z + 1 ≥ DEPTH_MAX ∧
          e = Entry.inner b1 (pf == false) al ⟨b2, z + 1, 65, false⟩))) := by
  simp only [enterNode] at h
  generalize (if z % 2 = 0 then (1 : Int) else -1) = al0 at h ⊢
  cases hl : isLegalAI bAI i j al0 with
  | none => rw [hl] at h; exact Option.noConfusion h
  | some p =>
    obtain ⟨r, b1⟩ := p
    rw [hl] at h
    cases r with
    | false =>
      left
      simp only [Option.some.injEq] at h
      exact ⟨b1, rfl, h.symm⟩
    | true =>
      right
      refine ⟨b1, rfl, ?_⟩
      simp only [] at h
      by_cases hz : z + 1 ≥ DEPTH_MAX
      · left
        rw [if_pos hz] at h
        simp only [Option.some.injEq] at h
        exact ⟨b1, h.symm⟩
      · rw [if_neg hz] at h
        cases ha : isAnyMoveAvailableAI b1 (al0 * -1) with
        | none => rw [ha] at h; exact Option.noConfusion h
        | some q =>
          obtain ⟨r2, b2⟩ := q
          rw [ha] at h
          cases r2 with
          | false =>
            left
            simp only [Option.some.injEq] at h
            exact ⟨b2, h.symm⟩
          | true =>
            right
            simp only [Option.some.injEq] at h
            exact ⟨b2, _, hz, h.symm⟩

/-- The depth counter `z` is the same after a call of `minimax` as before it. -/
theorem minimax_z :
    ∀ (fuel : Nat) (bAI : Board) (z i j ps : Int) (pf : Bool) (r : Ret),
      minimax fuel bAI z i j ps pf = some r → r.z = z := by
  intro fuel
  induction fuel with
  | zero => intro bAI z i j ps pf r h; exact Option.noConfusion h
  | succ fuel ih =>
    intro bAI z i j ps pf r h
    simp only [minimax] at h
    cases he : enterNode bAI z i j pf with
    | none => rw [he] at h; exact Option.noConfusion h
    | some e =>
      rw [he] at h
      rcases enterNode_cases he with ⟨b1, _, rfl⟩ | ⟨b1, _, ⟨b2, rfl⟩ | ⟨b2, al, _, rfl⟩⟩
      · simp only [Option.some.injEq] at h; rw [← h]
      · simp only [Option.some.injEq] at h; rw [← h]; simp
      · simp only [] at h
        cases hc : childRows (fun bd zd m n ps fc => minimax fuel bd zd m n ps fc) b1
            (pf == false) al ps idx8 ⟨b2, z + 1, 65, false⟩ with
        | none => rw [hc] at h; exact Option.noConfusion h
        | some s =>
          rw [hc] at h
          simp only [Option.some.injEq] at h
          have := childRows_z _ (fun bd zd m n ps fc r hr => ih bd zd m n ps fc r hr)
            b1 (pf == false) al ps idx8 _ s hc
          rw [← h]; simp [this]

/-- A call of `minimax` that returns a score other than 65 found its candidate legal. -/
theorem minimax_score_legal {fuel : Nat} {bAI : Board} {z i j ps : Int} {pf : Bool} {r : Ret}
    (h : minimax fuel bAI z i j ps pf = some r) (hs : r.score ≠ 65) :
    ∃ b1, isLegalAI bAI i j (if z % 2 = 0 then 1 else -1) = some (true, b1) := by
  cases fuel with
  | zero => exact Option.noConfusion h
  | succ fuel =>
    simp only [minimax] at h
    cases he : enterNode bAI z i j pf with
    | none => rw [he] at h; exact Option.noConfusion h
    | some e =>
      rw [he] at h
      rcases enterNode_cases he with ⟨b1, _, rfl⟩ | ⟨b1, hl, _⟩
      · simp only [Option.some.injEq] at h
        rw [← h] at hs
        exact absurd rfl hs
      · exact ⟨b1, hl⟩

/-- The inner root loop keeps `boardAI` equal to the board searched, `z` at 0,
and a selected coordinate legal for the computer. -/
theorem rootCols_inv (board : Board) (m : Int) :
    ∀ (ns : List Int) (s s1 : Root), rootCols board m ns s = some s1 →
      s.boardAI = board → s.z = 0 →
      (∀ i j, s.move = some (i, j) → ∃ b1, isLegalAI board i j 1 = some (true, b1)) →
      s1.boardAI = board ∧ s1.z = 0 ∧
      (∀ i j, s1.move = some (i, j) → ∃ b1, isLegalAI board i j 1 = some (true, b1)) := by
  intro ns
  induction ns with
  | nil =>
    intro s s1 h hb hz hm
    simp only [rootCols, Option.some.injEq] at h
    subst h; exact ⟨hb, hz, hm⟩
  | cons n ns ih =>
    intro s s1 h hb hz hm
    simp only [rootCols] at h
    cases hc : minimax DEPTH_MAX.toNat s.boardAI s.z m n s.score s.firstChildAssigned with
    | none => rw [hc] at h; exact Option.noConfusion h
    | some r =>
      rw [hc] at h
      have hrz : r.z = 0 := by rw [minimax_z _ _ _ _ _ _ _ _ hc, hz]
      have hnew : r.score ≠ 65 → ∀ i j, some (m, n) = some (i, j) →
          ∃ b1, isLegalAI board i j 1 = some (true, b1) := by
        intro hsc i j hij
        simp only [Option.some.injEq, Prod.mk.injEq] at hij
        obtain ⟨rfl, rfl⟩ := hij
        have := minimax_score_legal hc hsc
        rw [hb, hz] at this
        simpa using this
      simp only [] at h
      split_ifs at h with h65 hs65 hgt
      · exact ih _ _ h rfl hrz (hnew h65)
      · exact ih _ _ h rfl hrz (hnew h65)
      · exact ih _ _ h rfl hrz hm
      · exact ih _ _ h rfl hrz hm

theorem rootRows_inv (board : Board) :
    ∀ (ms : List Int) (s s1 : Root), rootRows board ms s = some s1 →
      s.boardAI = board → s.z = 0 →
      (∀ i j, s.move = some (i, j) → ∃ b1, isLegalAI board i j 1 = some (true, b1)) →
      s1.boardAI = board ∧ s1.z = 0 ∧
      (∀ i j, s1.move = some (i, j) → ∃ b1, isLegalAI board i j 1 = some (true, b1)) := by
  intro ms
  induction ms with
  | nil =>
    intro s s1 h hb hz hm
    simp only [rootRows, Option.some.injEq] at h
    subst h; exact ⟨hb, hz, hm⟩
  | cons m ms ih =>
    intro s s1 h hb hz hm
    simp only [rootRows] at h
    cases hc : rootCols board m idx8 s with
    | none => rw [hc] at h; exact Option.noConfusion h
    | some s2 =>
      rw [hc] at h
      obtain ⟨hb2, hz2, hm2⟩ := rootCols_inv board m idx8 s s2 hc hb hz hm
      exact ih _ _ h hb2 hz2 hm2

/-- The inner loop of `isAnyMoveAvailableAI` ends on a row of the board. -/
theorem anyMoveColsAI_total (side i : Int) (hi : 0 ≤ i ∧ i < 8) :
    ∀ js : List Int, (∀ j ∈ js, 0 ≤ j ∧ j < 8) → ∀ b : Board,
      ∃ r b1, anyMoveColsAI side i js b = some (r, b1) := by
  intro js
  induction js with
  | nil => intro _ b; exact ⟨false, b, rfl⟩
  | cons j js ih =>
    intro hjs b
    have hj := hjs j (List.mem_cons_self _ _)
    have hin : inBounds i j = true := (inBounds_iff i j).2 ⟨hi.1, hi.2, hj.1, hj.2⟩
    obtain ⟨r, b1, hr, _⟩ := isLegal_true_total b i j side hin
    rw [← isLegalAI_eq] at hr
    cases r with
    | true => exact ⟨true, b1, by simp [anyMoveColsAI, hr]⟩
    | false =>
      obtain ⟨r2, b2, h2⟩ := ih (fun k hk => hjs k (List.mem_cons_of_mem _ hk)) b1
      exact ⟨r2, b2, by simp [anyMoveColsAI, hr, h2]⟩

/-- The outer loop of `isAnyMoveAvailableAI` ends on rows of the board. -/
theorem anyMoveRowsAI_total (side : Int) :
    ∀ is : List Int, (∀ i ∈ is, 0 ≤ i ∧ i < 8) → ∀ b : Board,
      ∃ r b1, anyMoveRowsAI side is b = some (r, b1) := by
  intro is
  induction is with
  | nil => intro _ b; exact ⟨false, b, rfl⟩
  | cons i is ih =>
    intro his b
    obtain ⟨r, b1, hr⟩ := anyMoveColsAI_total side i (his i (List.mem_cons_self _ _)) idx8
      (fun j hj => (mem_idx8 j).1 hj) b
    cases r with
    | true => exact ⟨true, b1, by simp [anyMoveRowsAI, hr]⟩
    | false =>
      obtain ⟨r2, b2, h2⟩ := ih (fun k hk => his k (List.mem_cons_of_mem _ hk)) b1
      exact ⟨r2, b2, by simp [anyMoveRowsAI, hr, h2]⟩

/-- The part of `minimax` before the child loop ends for a candidate on the board. -/
theorem enterNode_total (bAI : Board) (z i j : Int) (pf : Bool) (hij : inBounds i j = true) :
    ∃ e, enterNode bAI z i j pf = some e := by
  simp only [enterNode]
  generalize (if z % 2 = 0 then (1 : Int) else -1) = al0
  obtain ⟨r, b1, hr, _⟩ := isLegal_true_total bAI i j al0 hij
  rw [← isLegalAI_eq] at hr
  rw [hr]
  cases r with
  | false => exact ⟨_, rfl⟩
  | true =>
    simp only []
    by_cases hz : z + 1 ≥ DEPTH_MAX
    · rw [if_pos hz]; exact ⟨_, rfl⟩
    · rw [if_neg hz]
      obtain ⟨r2, b2, h2⟩ := anyMoveRowsAI_total (al0 * -1) idx8 (fun k hk => (mem_idx8 k).1 hk) b1
      simp only [isAnyMoveAvailableAI, h2]
      cases r2 <;> exact ⟨_, rfl⟩

/-- The inner child loop ends when every child call at its depth does. -/
theorem childCols_total (child : Board → Int → Int → Int → Int → Bool → Option Ret) (zc : Int)
    (hchild : ∀ bd m n ps fc, 0 ≤ m ∧ m < 8 → 0 ≤ n ∧ n < 8 →
      ∃ r, child bd zc m n ps fc = some r ∧ r.z = zc)
    (bl : Board) (fc : Bool) (al ps m : Int) (hm : 0 ≤ m ∧ m < 8) :
    ∀ ns : List Int, (∀ n ∈ ns, 0 ≤ n ∧ n < 8) → ∀ s : Loop, s.z = zc →
      ∃ s1, childCols child bl fc al ps m ns s = some s1 ∧ s1.z = zc := by
  intro ns
  induction ns with
  | nil => intro _ s hs; exact ⟨s, rfl, hs⟩
  | cons n ns ih =>
    intro hns s hs
    obtain ⟨r, hr, hrz⟩ := hchild s.boardAI m n s.score s.firstChildAssigned hm
      (hns n (List.mem_cons_self _ _))
    have ih1 := ih (fun k hk => hns k (List.mem_cons_of_mem _ hk))
    simp only [childCols, hs, hr]
    split_ifs
    · exact ⟨_, rfl, hrz⟩
    · exact ih1 _ hrz
    · exact ih1 _ hrz

/-- The outer child loop ends when every child call at its depth does. -/
theorem childRows_total (child : Board → Int → Int → Int → Int → Bool → Option Ret) (zc : Int)
    (hchild : ∀ bd m n ps fc, 0 ≤ m ∧ m < 8 → 0 ≤ n ∧ n < 8 →
      ∃ r, child bd zc m n ps fc = some r ∧ r.z = zc)
    (bl : Board) (fc : Bool) (al ps : Int) :
    ∀ ms : List Int, (∀ m ∈ ms, 0 ≤ m ∧ m < 8) → ∀ s : Loop, s.z = zc →
      ∃ s1, childRows child bl fc al ps ms s = some s1 ∧ s1.z = zc := by
  intro ms
  induction ms with
  | nil => intro _ s hs; exact ⟨s, rfl, hs⟩
  | cons m ms ih =>
    intro hms s hs
    obtain ⟨s1, h1, hz1⟩ := childCols_total child zc hchild bl fc al ps m
      (hms m (List.mem_cons_self _ _)) idx8 (fun k hk => (mem_idx8 k).1 hk) s hs
    obtain ⟨s2, h2, hz2⟩ := ih (fun k hk => hms k (List.mem_cons_of_mem _ hk)) s1 hz1
    exact ⟨s2, by simp only [childRows, h1, h2], hz2⟩

/-- A call of `minimax` for a candidate on the board returns when the fuel
covers the levels left down to `DEPTH_MAX`. -/
theorem minimax_total :
    ∀ (fuel : Nat) (z : Int), 1 ≤ fuel → DEPTH_MAX ≤ z + fuel →
      ∀ (bAI : Board) (i j ps : Int) (pf : Bool), inBounds i j = true →
        ∃ r, minimax fuel bAI z i j ps pf = some r ∧ r.z = z := by
  intro fuel
  induction fuel with
  | zero => intro z h1; omega
  | succ fuel ih =>
    intro z _ hfz bAI i j ps pf hij
    suffices h : ∃ r, minimax (fuel + 1) bAI z i j ps pf = some r by
      obtain ⟨r, hr⟩ := h
      exact ⟨r, hr, minimax_z _ _ _ _ _ _ _ _ hr⟩
    obtain ⟨e, he⟩ := enterNode_total bAI z i j pf hij
    simp only [minimax, he]
    rcases enterNode_cases he with ⟨b1, _, rfl⟩ | ⟨b1, _, ⟨b2, rfl⟩ | ⟨b2, al, hdepth, rfl⟩⟩
    · exact ⟨_, rfl⟩
    · exact ⟨_, rfl⟩
    · have hfuel : 1 ≤ fuel ∧ DEPTH_MAX ≤ z + 1 + (fuel : Int) := by
        push_cast at hfz
        constructor <;> omega
      obtain ⟨s, hs, _⟩ := childRows_total
        (fun bd zd m n ps fc => minimax fuel bd zd m n ps fc) (z + 1)
        (fun bd m n ps1 fc hm hn => ih (z + 1) hfuel.1 hfuel.2 bd m n ps1 fc
          ((inBounds_iff m n).2 ⟨hm.1, hm.2, hn.1, hn.2⟩))
        b1 (pf == false) al ps idx8 (fun k hk => (mem_idx8 k).1 hk)
        ⟨b2, z + 1, 65, false⟩ rfl
      simp only [hs]
      exact ⟨_, rfl⟩

/-- The inner root loop ends. -/
theorem rootCols_total (board : Board) (m : Int) (hm : 0 ≤ m ∧ m < 8) :
    ∀ ns : List Int, (∀ n ∈ ns, 0 ≤ n ∧ n < 8) → ∀ s : Root, s.z = 0 →
      ∃ s1, rootCols board m ns s = some s1 ∧ s1.z = 0 := by
  intro ns
  induction ns with
  | nil => intro _ s hs; exact ⟨s, rfl, hs⟩
  | cons n ns ih =>
    intro hns s hs
    have hn := hns n (List.mem_cons_self _ _)
    obtain ⟨r, hr, hrz⟩ := minimax_total DEPTH_MAX.toNat 0 (by decide) (by decide) s.boardAI m n
      s.score s.firstChildAssigned ((inBounds_iff m n).2 ⟨hm.1, hm.2, hn.1, hn.2⟩)
    have ih1 := ih (fun k hk => hns k (List.mem_cons_of_mem _ hk))
    simp only [rootCols, hs, hr]
    split_ifs
    · exact ih1 _ hrz
    · exact ih1 _ hrz
    · exact ih1 _ hrz
    · exact ih1 _ hrz

/-- The outer root loop ends. -/
theorem rootRows_total (board : Board) :
    ∀ ms : List Int, (∀ m ∈ ms, 0 ≤ m ∧ m < 8) → ∀ s : Root, s.z = 0 →
      ∃ s1, rootRows board ms s = some s1 ∧ s1.z = 0 := by
  intro ms
  induction ms with
  | nil => intro _ s hs; exact ⟨s, rfl, hs⟩
  | cons m ms ih =>
    intro hms s hs
    obtain ⟨s1, h1, hz1⟩ := rootCols_total board m (hms m (List.mem_cons_self _ _)) idx8
      (fun k hk => (mem_idx8 k).1 hk) s hs
    obtain ⟨s2, h2, hz2⟩ := ih (fun k hk => hms k (List.mem_cons_of_mem _ hk)) s1 hz1
    exact ⟨s2, by simp only [rootRows, h1, h2], hz2⟩

/-- The root search returns on every board: no index leaves the grid and the
fuel given to the loops and to the recursion is enough. -/
theorem rootSearch_total (board : Board) : ∃ r, rootSearch board = some r := by
  obtain ⟨r, hr, _⟩ := rootRows_total board idx8 (fun k hk => (mem_idx8 k).1 hk)
    ⟨board, 0, 65, false, none⟩ rfl
  exact ⟨r, hr⟩

/-- C5: for every board, a coordinate `(i, j)` selected by the root search is
a legal move for the computer (+1) on the board searched: `isLegal(i, j, 1, false)`
is true there, and `isLegal(i, j, 1, true)` returns true and applies the move. -/
theorem rootSearch_move_legal (board : Board) (r : Root) (i j : Int)
    (hsearch : rootSearch board = some r) (hmove : r.move = some (i, j)) :
    (∃ b0, isLegal board i j 1 false = some (true, b0)) ∧
    (∃ b1, isLegal board i j 1 true = some (true, b1) ∧ b1 i j = 1) := by
  obtain ⟨_, _, hm⟩ := rootRows_inv board idx8 _ r hsearch rfl rfl
    (fun i j h => Option.noConfusion h)
  obtain ⟨b1, hb1⟩ := hm i j hmove
  rw [isLegalAI_eq] at hb1
  have hin := isLegal_some_inBounds hb1
  rcases isLegal_true_core board i j 1 hin (by decide) with ⟨hq, b2, hb2, ho, _⟩ | ⟨_, hf⟩
  · refine ⟨?_, b2, hb2, ho⟩
    rcases isLegal_false_core board i j 1 hin with ⟨_, h⟩ | ⟨hn, _⟩
    · exact ⟨board, h⟩
    · exact absurd hq (hn (by decide))
  · rw [hf] at hb1; simp at hb1

set_option maxRecDepth 100000

/-- The root search on `cutoffBoard` selects (2,2). -/
theorem cutoffBoard_move :
    (rootSearch cutoffBoard).map (fun r => r.move) = some (some (2, 2)) := by
  decide

/-- C3 (evaluated at a failing input): on `cutoffBoard` the root search
selects (2,2), while the exhaustive search of the same depth selects (0,1). -/
theorem rootSearch_cutoffBoard :
    (rootSearch cutoffBoard).map (fun r => r.move) = some (some (2, 2)) ∧
    fullChoice cutoffBoard = some (0, 1) :=
  ⟨cutoffBoard_move, by decide⟩

/-- C4 (evaluated at a failing input): on `cornerBoard` the computer's move
(7,7) is legal, and the root search ends without selecting a coordinate. -/
theorem rootSearch_cornerBoard :
    (isLegal cornerBoard 7 7 1 false).map Prod.fst = some true ∧
    (rootSearch cornerBoard).map (fun r => (r.score, r.move)) = some (65, none) := by
  decide

/-- C10 (evaluated at a failing input): on `cornerBoard`, the node of the
root candidate (7,7) is internal; its snapshot has cell (0,0) empty, while the
`boardAI` handed to its first child, (0,0), holds -1 there, so that child
returns 65 for black's legal reply and the node's score stays 65. -/
theorem enterNode_cornerBoard :
    (enterNode cornerBoard 0 7 7 false).map (Entry.view 0 0) = some (some (0, -1)) ∧
    (isLegal (applyMove cornerBoard 7 7 1) 0 0 (-1) false).map Prod.fst = some true ∧
    (minimax DEPTH_MAX.toNat cornerBoard 0 7 7 65 false).map (fun r => r.score) = some 65 := by
  decide

/-! ## Instances at concrete positions -/

/-- Black's opening move (2,3) is legal without flipping. -/
theorem opening_23_legal : ∃ b0, isLegal openingBoard 2 3 (-1) false = some (true, b0) :=
  (isLegal_true_iff_map _ _ _ _ _).2 (by decide)

/-- The theorem of C1 at black's opening move (2,3). -/
theorem isLegal_false_iff_witness :
    inBounds 2 3 = true ∧ ((-1 : Int) = 1 ∨ (-1 : Int) = -1) ∧
    ∃ r b1, isLegal openingBoard 2 3 (-1) false = some (r, b1) ∧
      (r = true ↔ openingBoard 2 3 = 0 ∧ Qualifies openingBoard (-1) 2 3) :=
  ⟨by decide, by decide, isLegal_false_iff openingBoard 2 3 (-1) (by decide) (by decide)⟩

/-- The theorem of C2 at black's opening move (2,3). -/
theorem isLegal_true_board_witness :
    inBounds 2 3 = true ∧ ((-1 : Int) = 1 ∨ (-1 : Int) = -1) ∧
    (∃ b0, isLegal openingBoard 2 3 (-1) false = some (true, b0)) ∧
    ∃ b1, isLegal openingBoard 2 3 (-1) true = some (true, b1) ∧ b1 2 3 = -1 ∧
      (∀ a c, OnRun openingBoard (-1) 2 3 a c → b1 a c = -1) ∧
      (∀ a c, ¬ (a = 2 ∧ c = 3) → ¬ OnRun openingBoard (-1) 2 3 a c →
        b1 a c = openingBoard a c) :=
  ⟨by decide, by decide, opening_23_legal,
    isLegal_true_board openingBoard 2 3 (-1) (by decide) (by decide) opening_23_legal⟩

/-- The theorem of C5 at `cutoffBoard`, where the root search selects (2,2). -/
theorem rootSearch_move_legal_witness :
    ∃ r, rootSearch cutoffBoard = some r ∧ r.move = some (2, 2) ∧
      (∃ b0, isLegal cutoffBoard 2 2 1 false = some (true, b0)) ∧
      (∃ b1, isLegal cutoffBoard 2 2 1 true = some (true, b1) ∧ b1 2 2 = 1) := by
  have hmove := cutoffBoard_move
  cases h : rootSearch cutoffBoard with
  | none => rw [h] at hmove; exact Option.noConfusion hmove
  | some r =>
    rw [h] at hmove
    have hm : r.move = some (2, 2) := by simpa using hmove
    exact ⟨r, rfl, hm, rootSearch_move_legal cutoffBoard r 2 2 h hm⟩

/-- The theorem of C6 at the corner (0,0) of the opening board. -/
theorem isLegal_frame_witness :
    inBounds 0 0 = true ∧
    ((∃ r, isLegal openingBoard 0 0 1 false = some (r, openingBoard)) ∧
     (∃ r b1, isLegal openingBoard 0 0 1 true = some (r, b1) ∧ (r = false → b1 = openingBoard))) :=
  ⟨by decide, isLegal_frame openingBoard 0 0 1 (by decide)⟩

/-- The theorem of C7 (amended) at black's opening move (2,3). -/
theorem boardCount_after_move_witness :
    inBounds 2 3 = true ∧ ((-1 : Int) = 1 ∨ (-1 : Int) = -1) ∧
    (∃ b0, isLegal openingBoard 2 3 (-1) false = some (true, b0)) ∧
    ∃ b1, isLegal openingBoard 2 3 (-1) true = some (true, b1) ∧
      boardCount b1 - boardCount openingBoard
        = -1 * (2 * (flippedCount openingBoard b1 2 3 : Int) + 1) :=
  ⟨by decide, by decide, opening_23_legal,
    boardCount_after_move openingBoard 2 3 (-1) (by decide) (by decide) opening_23_legal⟩

/-! ## Bounds, the tri-state invariant and the score -/

/-- C14: for every board content, every side value and every cell `(i, j)`
of the board, `isLegal` (with either `flip`) and `isLegalAI` return: every
array index they read or write lies on the 8x8 grid, and their loops end. -/
theorem isLegal_in_bounds (b : Board) (side i j : Int) (hij : inBounds i j = true) :
    (∀ flip : Bool, ∃ r b1, isLegal b i j side flip = some (r, b1)) ∧
    (∃ r b1, isLegalAI b i j side = some (r, b1)) := by
  have ht := isLegal_true_total b i j side hij
  refine ⟨?_, ?_⟩
  · intro flip
    cases flip with
    | false =>
      rcases isLegal_false_core b i j side hij with ⟨_, h⟩ | ⟨_, h⟩
      · exact ⟨true, b, h⟩
      · exact ⟨false, b, h⟩
    | true =>
      obtain ⟨r, b1, h, _⟩ := ht
      exact ⟨r, b1, h⟩
  · obtain ⟨r, b1, h, _⟩ := ht
    exact ⟨r, b1, by rw [isLegalAI_eq]; exact h⟩

/-- The board `isLegal` leaves behind is tri-state when the board it was
called on is and the side is -1 or +1. -/
theorem isLegal_triState (b : Board) (i j side : Int) (flip : Bool) (hb : TriState b)
    (hs : side = 1 ∨ side = -1) (hij : inBounds i j = true) :
    ∃ r b1, isLegal b i j side flip = some (r, b1) ∧ TriState b1 := by
  have hs0 : side ≠ 0 := by rcases hs with rfl | rfl <;> decide
  cases flip with
  | false =>
    rcases isLegal_false_core b i j side hij with ⟨_, h⟩ | ⟨_, h⟩
    · exact ⟨true, b, h, hb⟩
    · exact ⟨false, b, h, hb⟩
  | true =>
    rcases isLegal_true_core b i j side hij hs0 with ⟨_, b1, h, ho, hrun, hrest⟩ | ⟨_, h⟩
    · refine ⟨true, b1, h, ?_⟩
      intro a c hac
      by_cases hne : a = i ∧ c = j
      · obtain ⟨rfl, rfl⟩ := hne
        rw [ho]; rcases hs with rfl | rfl <;> simp
      · by_cases hon : OnRun b side i j a c
        · rw [hrun a c hon]; rcases hs with rfl | rfl <;> simp
        · rw [hrest a c hne hon]; exact hb a c hac
    · exact ⟨false, b, h, hb⟩

theorem openingBoard_triState : TriState openingBoard := by
  intro a c _
  simp only [openingBoard, setCell]
  split_ifs <;> simp

/-- C13: the opening board is tri-state, and when every cell of a board is in
{-1, 0, +1} and the side is -1 or +1, every cell is still in {-1, 0, +1}
after `isLegal(i, j, side, flip)` for a cell `(i, j)` of the board and either
`flip`, and after `isLegalAI(i, j, side)`. -/
theorem triState_preserved (b : Board) (i j side : Int) (flip : Bool) (hb : TriState b)
    (hs : side = 1 ∨ side = -1) (hij : inBounds i j = true) :
    TriState openingBoard ∧
    (∃ r b1, isLegal b i j side flip = some (r, b1) ∧ TriState b1) ∧
    (∃ r b1, isLegalAI b i j side = some (r, b1) ∧ TriState b1) := by
  refine ⟨openingBoard_triState, isLegal_triState b i j side flip hb hs hij, ?_⟩
  rw [isLegalAI_eq]
  exact isLegal_triState b i j side true hb hs hij

/-- The sum of tri-state values: the number of +1 minus the number of -1,
with at most one counted per entry. -/
theorem sum_triState (v : Int × Int → Int) :
    ∀ L : List (Int × Int), (∀ p ∈ L, v p = -1 ∨ v p = 0 ∨ v p = 1) →
      (L.map v).sum = (((L.filter fun p => decide (v p = 1)).length : Nat) : Int)
          - (((L.filter fun p => decide (v p = -1)).length : Nat) : Int) ∧
      (L.filter fun p => decide (v p = 1)).length
          + (L.filter fun p => decide (v p = -1)).length ≤ L.length := by
  intro L
  induction L with
  | nil => intro _; simp
  | cons p L ih =>
    intro h
    obtain ⟨ih1, ih2⟩ := ih (fun q hq => h q (List.mem_cons_of_mem _ hq))
    rcases h p (List.mem_cons_self _ _) with hp | hp | hp
    · have e1 : decide (v p = 1) = false := by simp [hp]
      have e2 : decide (v p = -1) = true := by simp [hp]
      simp only [List.map_cons, List.sum_cons, List.filter_cons, e1, e2, if_true,
        Bool.false_eq_true, if_false, List.length_cons]
      push_cast
      constructor <;> omega
    · have e1 : decide (v p = 1) = false := by simp [hp]
      have e2 : decide (v p = -1) = false := by simp [hp]
      simp only [List.map_cons, List.sum_cons, List.filter_cons, e1, e2,
        Bool.false_eq_true, if_false, List.length_cons]
      constructor <;> omega
    · have e1 : decide (v p = 1) = true := by simp [hp]
      have e2 : decide (v p = -1) = false := by simp [hp]
      simp only [List.map_cons, List.sum_cons, List.filter_cons, e1, e2, if_true,
        Bool.false_eq_true, if_false, List.length_cons]
      push_cast
      constructor <;> omega

theorem cells_inBounds : ∀ p ∈ cells, inBounds p.1 p.2 = true := by
  decide

theorem cells_length : cells.length = 64 := by
  decide

/-- C18: for every board with cells in {-1, 0, +1}, `boardCount` returns the
sum of the 64 cells, which is the number of +1 cells minus the number of -1
cells, lies in [-64, 64] and so is never the sentinel 65; `boardCountAI`
returns the same on the scratch board. -/
theorem boardCount_range (b : Board) (hb : TriState b) :
    boardCount b = (cells.map fun p => b p.1 p.2).sum ∧
    boardCount b = (countCells b 1 : Int) - (countCells b (-1) : Int) ∧
    -64 ≤ boardCount b ∧ boardCount b ≤ 64 ∧ boardCount b ≠ 65 ∧
    boardCountAI b = boardCount b := by
  obtain ⟨h1, h2⟩ := sum_triState (fun p => b p.1 p.2) cells
    (fun p hp => hb p.1 p.2 (cells_inBounds p hp))
  rw [cells_length] at h2
  have hsum := boardCount_eq_sum b
  have hval : boardCount b = (countCells b 1 : Int) - (countCells b (-1) : Int) := by
    rw [hsum, h1]; rfl
  have hc1 : countCells b 1 = (cells.filter fun p => decide (b p.1 p.2 = 1)).length := rfl
  have hc2 : countCells b (-1) = (cells.filter fun p => decide (b p.1 p.2 = -1)).length := rfl
  rw [← hc1, ← hc2] at h2
  refine ⟨hsum, hval, ?_, ?_, ?_, rfl⟩ <;> omega

/-- C19: for every final score `count` in [-64, 64] the end of `main` reports
a result without dividing by zero: a tie exactly when `count = 0`, white
(alignment +1) exactly when `count > 0`, black (alignment -1) exactly when
`count < 0`, the alignment being `count / abs(count)`. -/
theorem determineWinner_spec (count : Int) (hc : -64 ≤ count ∧ count ≤ 64) :
    ∃ v, determineWinner count = some v ∧
      (v = Verdict.tie ↔ count = 0) ∧
      (v = Verdict.winner 1 Colour.white ↔ 0 < count) ∧
      (v = Verdict.winner (-1) Colour.black ↔ count < 0) ∧
      (count ≠ 0 → (count.natAbs : Int) ≠ 0 ∧
        ∃ p, v = Verdict.winner (count.tdiv (count.natAbs : Int)) p) := by
  rcases lt_trichotomy count 0 with h | h | h
  · have hab : (count.natAbs : Int) = -count := by omega
    have hdiv : count.tdiv (-count) = -1 := by
      rw [Int.tdiv_neg, Int.tdiv_self (by omega)]
    refine ⟨Verdict.winner (-1) Colour.black, ?_, ?_, ?_, ?_, ?_⟩
    · have h0 : count ≠ 0 := by omega
      have h1 : ¬ (-count = 0) := by omega
      simp [determineWinner, h0, hab, h1, hdiv, getAlignment]
    · constructor
      · intro hv; exact Verdict.noConfusion hv
      · intro h0; omega
    · constructor
      · intro hv; simp at hv
      · intro h0; omega
    · exact ⟨fun _ => h, fun _ => rfl⟩
    · intro _
      refine ⟨by omega, Colour.black, ?_⟩
      rw [hab, hdiv]
  · subst h
    refine ⟨Verdict.tie, by simp [determineWinner], ?_, ?_, ?_, ?_⟩
    · simp
    · constructor
      · intro hv; exact Verdict.noConfusion hv
      · intro h0; omega
    · constructor
      · intro hv; exact Verdict.noConfusion hv
      · intro h0; omega
    · intro h0; exact absurd rfl h0
  · have hab : (count.natAbs : Int) = count := by omega
    have hdiv : count.tdiv count = 1 := Int.tdiv_self (by omega)
    refine ⟨Verdict.winner 1 Colour.white, ?_, ?_, ?_, ?_, ?_⟩
    · have h0 : count ≠ 0 := by omega
      simp [determineWinner, h0, hab, hdiv, getAlignment]
    · constructor
      · intro hv; exact Verdict.noConfusion hv
      · intro h0; omega
    · exact ⟨fun _ => h, fun _ => rfl⟩
    · constructor
      · intro hv; simp at hv
      · intro h0; omega
    · intro _
      refine ⟨by omega, Colour.white, ?_⟩
      rw [hab, hdiv]

/-- The value and the effect of `isAnyMoveAvailable`. -/
theorem isAnyMoveAvailable_hasMove (b : Board) (side : Int) :
    ∃ r, isAnyMoveAvailable b side = some (r, b) ∧ (r = true ↔ HasMove b side) := by
  obtain ⟨r, hr, hiff⟩ := anyMoveRows_spec b side idx8 (fun i hi => (mem_idx8 i).1 hi)
  refine ⟨r, hr, ?_⟩
  rw [hiff]
  constructor
  · rintro ⟨i, hi, j, hj, hE⟩
    have hi1 := (mem_idx8 i).1 hi
    have hj1 := (mem_idx8 j).1 hj
    exact ⟨i, j, (inBounds_iff i j).2 ⟨hi1.1, hi1.2, hj1.1, hj1.2⟩, hE⟩
  · rintro ⟨i, j, hin, hE⟩
    rw [inBounds_iff] at hin
    exact ⟨i, (mem_idx8 i).2 ⟨hin.1, hin.2.1⟩, j, (mem_idx8 j).2 ⟨hin.2.2.1, hin.2.2.2⟩, hE⟩

/-- C15: the turn check at the top of the game loop, for every board and side
to move: it ends the game exactly when neither side has a legal move; the
side to move stays to move when it has a legal move; the turn passes to the
opponent when the side to move has none and the opponent has one.  The board
is left as it was. -/
theorem turnStep_spec (b : Board) (side : Int) :
    ∃ t, turnStep b side = some t ∧
      ((∃ a, t = Turn.over b a) ↔ ¬ HasMove b side ∧ ¬ HasMove b (-side)) ∧
      (HasMove b side → t = Turn.play b side) ∧
      (¬ HasMove b side → HasMove b (-side) → t = Turn.play b (-side)) := by
  obtain ⟨r, hr, hiff⟩ := isAnyMoveAvailable_hasMove b side
  obtain ⟨r1, hr1, hiff1⟩ := isAnyMoveAvailable_hasMove b (side * -1)
  have hneg : side * -1 = -side := by ring
  rw [hneg] at hiff1 hr1
  cases r with
  | true =>
    have hm : HasMove b side := hiff.1 rfl
    refine ⟨Turn.play b side, by simp [turnStep, hr], ?_, fun _ => rfl, fun h => absurd hm h⟩
    constructor
    · rintro ⟨a, ha⟩; exact Turn.noConfusion ha
    · rintro ⟨h, _⟩; exact absurd hm h
  | false =>
    have hm : ¬ HasMove b side := fun h => Bool.noConfusion (hiff.2 h)
    cases r1 with
    | true =>
      have hm1 : HasMove b (-side) := hiff1.1 rfl
      refine ⟨Turn.play b (-side), by simp [turnStep, hr, hr1], ?_, fun h => absurd h hm,
        fun _ _ => rfl⟩
      constructor
      · rintro ⟨a, ha⟩; exact Turn.noConfusion ha
      · rintro ⟨_, h⟩; exact absurd hm1 h
    | false =>
      have hm1 : ¬ HasMove b (-side) := fun h => Bool.noConfusion (hiff1.2 h)
      refine ⟨Turn.over b (-side), by simp [turnStep, hr, hr1], ?_, fun h => absurd h hm,
        fun _ h => absurd h hm1⟩
      exact ⟨fun _ => ⟨hm, hm1⟩, fun _ => ⟨-side, rfl⟩⟩

/-! ## Leaves of the search, the search as a whole and the input decoder -/

/-- A cell that is no legal move: `isLegalAI` returns false there and leaves
the board as it was. -/
theorem isLegalAI_of_not_legal (b : Board) (i j side : Int) (hij : inBounds i j = true)
    (hs : side ≠ 0) (hno : ¬ ∃ b1, isLegal b i j side false = some (true, b1)) :
    isLegalAI b i j side = some (false, b) := by
  rw [isLegalAI_eq]
  rcases isLegal_true_core b i j side hij hs with ⟨hq, _⟩ | ⟨_, h⟩
  · rcases isLegal_false_core b i j side hij with ⟨_, hf⟩ | ⟨hn, _⟩
    · exact absurd ⟨b, hf⟩ hno
    · exact absurd hq (hn hs)
  · exact h

theorem anyMoveColsAI_none (b : Board) (side i : Int) :
    ∀ js : List Int, (∀ j ∈ js, isLegalAI b i j side = some (false, b)) →
      anyMoveColsAI side i js b = some (false, b) := by
  intro js
  induction js with
  | nil => intro _; rfl
  | cons j js ih =>
    intro h
    simp only [anyMoveColsAI, h j (List.mem_cons_self _ _)]
    exact ih (fun k hk => h k (List.mem_cons_of_mem _ hk))

theorem anyMoveRowsAI_none (b : Board) (side : Int) :
    ∀ is : List Int, (∀ i ∈ is, ∀ j ∈ idx8, isLegalAI b i j side = some (false, b)) →
      anyMoveRowsAI side is b = some (false, b) := by
  intro is
  induction is with
  | nil => intro _; rfl
  | cons i is ih =>
    intro h
    simp only [anyMoveRowsAI, anyMoveColsAI_none b side i idx8 (h i (List.mem_cons_self _ _))]
    exact ih (fun k hk => h k (List.mem_cons_of_mem _ hk))

/-- When the side has no legal move, `isAnyMoveAvailableAI` returns false and
leaves `boardAI` as it was. -/
theorem isAnyMoveAvailableAI_none (b : Board) (side : Int) (hs : side ≠ 0)
    (hno : ¬ HasMove b side) : isAnyMoveAvailableAI b side = some (false, b) := by
  apply anyMoveRowsAI_none
  intro i hi j hj
  have hi1 := (mem_idx8 i).1 hi
  have hj1 := (mem_idx8 j).1 hj
  have hin : inBounds i j = true := (inBounds_iff i j).2 ⟨hi1.1, hi1.2, hj1.1, hj1.2⟩
  exact isLegalAI_of_not_legal b i j side hin hs (fun h => hno ⟨i, j, hin, h⟩)

theorem boardCountAI_eq (b : Board) : boardCountAI b = boardCount b := rfl

/-- C11: for every scratch board, depth `z` and candidate `(i, j)` that is
legal for the side moving at depth `z` and leads to the board `b1`: when
`z + 1 >= DEPTH_MAX`, or the other side has no legal move on `b1`, `minimax`
returns the sum of all cells of `b1`, with `boardAI` equal to `b1` and `z`
as at entry. -/
theorem minimax_leaf (fuel : Nat) (bAI : Board) (z i j ps : Int) (pf : Bool) (b1 : Board)
    (hlegal : isLegal bAI i j (if z % 2 = 0 then 1 else -1) true = some (true, b1))
    (hleaf : z + 1 ≥ DEPTH_MAX ∨ ¬ HasMove b1 (-(if z % 2 = 0 then 1 else -1))) :
    ∃ r, minimax (fuel + 1) bAI z i j ps pf = some r ∧
      r.score = boardCount b1 ∧ r.score = (cells.map fun p => b1 p.1 p.2).sum ∧
      r.boardAI = b1 ∧ r.z = z := by
  have hal : (if z % 2 = 0 then (1 : Int) else -1) * -1 ≠ 0 := by split_ifs <;> decide
  have hneg : -(if z % 2 = 0 then (1 : Int) else -1) = (if z % 2 = 0 then (1 : Int) else -1) * -1 := by
    ring
  rw [hneg] at hleaf
  have hsum := boardCount_eq_sum b1
  simp only [minimax, enterNode, isLegalAI_eq, hlegal]
  by_cases hd : z + 1 ≥ DEPTH_MAX
  · simp only [if_pos hd]
    exact ⟨_, rfl, rfl, hsum, rfl, by simp⟩
  · have hno : ¬ HasMove b1 ((if z % 2 = 0 then (1 : Int) else -1) * -1) := by
      rcases hleaf with h | h
      · exact absurd h hd
      · exact h
    simp only [if_neg hd, isAnyMoveAvailableAI_none b1 _ hal hno]
    exact ⟨_, rfl, rfl, hsum, rfl, by simp⟩

/-- C16: the computer's search returns on every board, leaves every cell of
`board` as it was, and leaves `boardAI` equal to `board` cell for cell. -/
theorem computerSearch_frame (g : Game) :
    ∃ g1, computerSearch g = some g1 ∧
      (∀ a c, g1.board a c = g.board a c) ∧
      (∀ a c, g1.boardAI a c = g.board a c) := by
  obtain ⟨r, hr⟩ := rootSearch_total g.board
  obtain ⟨hb, _, _⟩ := rootRows_inv g.board idx8 _ r hr rfl rfl
    (fun i j h => Option.noConfusion h)
  simp only [computerSearch, hr]
  cases hm : r.move with
  | none => exact ⟨_, rfl, fun _ _ => rfl, fun a c => by simp [hb]⟩
  | some p =>
    obtain ⟨m, n⟩ := p
    exact ⟨_, rfl, fun _ _ => rfl, fun a c => by simp [hb]⟩

theorem strlen_eq_length : ∀ coord : List Int, (∀ c ∈ coord, c ≠ 0) →
    strlen coord = (coord.length : Int) := by
  intro coord
  induction coord with
  | nil => intro _; rfl
  | cons c cs ih =>
    intro h
    have hc := h c (List.mem_cons_self _ _)
    simp only [strlen, if_pos hc, ih (fun d hd => h d (List.mem_cons_of_mem _ hd)),
      List.length_cons]
    push_cast; ring

/-- The decoder on a string of two characters. -/
theorem humanInput_two (c0 c1 i j : Int) (h0 : c0 ≠ 0) (h1 : c1 ≠ 0) :
    humanInput [c0, c1] i j =
      if toupper c0 - 65 < 0 ∨ toupper c0 - 65 ≥ 8 then (false, c1 - 49, toupper c0 - 65)
      else if c1 - 49 < 0 ∨ c1 - 49 ≥ 8 then (false, c1 - 49, toupper c0 - 65)
      else (true, c1 - 49, toupper c0 - 65) := by
  simp [humanInput, strlen, h0, h1, BOARD_MAX]

/-- The decoder on a string that does not have two characters. -/
theorem humanInput_other (coord : List Int) (i j : Int) (hc : ∀ c ∈ coord, c ≠ 0)
    (hl : coord.length ≠ 2) : humanInput coord i j = (false, i, j) := by
  have hk : strlen coord ≠ 2 := by
    rw [strlen_eq_length coord hc]
    intro h
    exact hl (by exact_mod_cast h)
  simp only [humanInput, if_pos hk]

theorem toupper_column (c : Int) :
    ¬ (toupper c - 65 < 0 ∨ toupper c - 65 ≥ 8) ↔ (65 ≤ c ∧ c ≤ 72) ∨ (97 ≤ c ∧ c ≤ 104) := by
  simp only [toupper]
  split_ifs <;> omega

theorem toupper_value (c : Int) :
    (65 ≤ c ∧ c ≤ 72 → toupper c - 65 = c - 65) ∧ (97 ≤ c ∧ c ≤ 104 → toupper c - 65 = c - 97) := by
  simp only [toupper]
  split_ifs <;> constructor <;> intro h <;> omega

/-- C17: for a string without an inner NUL, the decoder of the human's input
accepts it exactly when it has two characters, the first a letter A-H or a-h
and the second a digit 1-8; it then leaves row = digit - 1 in `i` and
column = letter - A in `j`, both in [0, 7]; every other string ends the
iteration with `board` and `alignment` as they were. -/
theorem humanInput_spec (g : Game) (coord : List Int) (hc : ∀ c ∈ coord, c ≠ 0) :
    ((humanInput coord g.i g.j).1 = true ↔
      ∃ c0 c1, coord = [c0, c1] ∧ ((65 ≤ c0 ∧ c0 ≤ 72) ∨ (97 ≤ c0 ∧ c0 ≤ 104)) ∧
        49 ≤ c1 ∧ c1 ≤ 56) ∧
    (∀ c0 c1, coord = [c0, c1] → (humanInput coord g.i g.j).1 = true →
      (humanInput coord g.i g.j).2.1 = c1 - 49 ∧
      (65 ≤ c0 ∧ c0 ≤ 72 → (humanInput coord g.i g.j).2.2 = c0 - 65) ∧
      (97 ≤ c0 ∧ c0 ≤ 104 → (humanInput coord g.i g.j).2.2 = c0 - 97) ∧
      inBounds (humanInput coord g.i g.j).2.1 (humanInput coord g.i g.j).2.2 = true) ∧
    ((humanInput coord g.i g.j).1 = false →
      ∃ g1, humanTurn g coord = some g1 ∧ g1.board = g.board ∧
        g1.alignment = g.alignment) := by
  have htwo : ∀ c0 c1, coord = [c0, c1] →
      ((humanInput coord g.i g.j).1 = true ↔
        ((65 ≤ c0 ∧ c0 ≤ 72) ∨ (97 ≤ c0 ∧ c0 ≤ 104)) ∧ 49 ≤ c1 ∧ c1 ≤ 56) ∧
      ((humanInput coord g.i g.j).1 = true →
        (humanInput coord g.i g.j).2.1 = c1 - 49 ∧
        (humanInput coord g.i g.j).2.2 = toupper c0 - 65 ∧
        inBounds (c1 - 49) (toupper c0 - 65) = true) := by
    rintro c0 c1 rfl
    have h0 : c0 ≠ 0 := hc c0 (by simp)
    have h1 : c1 ≠ 0 := hc c1 (by simp)
    rw [humanInput_two c0 c1 g.i g.j h0 h1]
    have hcol := toupper_column c0
    by_cases hj : toupper c0 - 65 < 0 ∨ toupper c0 - 65 ≥ 8
    · rw [if_pos hj]
      refine ⟨⟨fun h => Bool.noConfusion h, fun h => absurd (hcol.2 h.1) (not_not.2 hj)⟩,
        fun h => Bool.noConfusion h⟩
    · rw [if_neg hj]
      by_cases hi : c1 - 49 < 0 ∨ c1 - 49 ≥ 8
      · rw [if_pos hi]
        refine ⟨⟨fun h => Bool.noConfusion h, fun h => ?_⟩, fun h => Bool.noConfusion h⟩
        omega
      · rw [if_neg hi]
        refine ⟨⟨fun _ => ⟨hcol.1 hj, by omega, by omega⟩, fun _ => rfl⟩, fun _ => ⟨rfl, rfl, ?_⟩⟩
        rw [inBounds_iff]; omega
  refine ⟨?_, ?_, ?_⟩
  · constructor
    · intro h
      by_cases hl : coord.length = 2
      · match coord, hl with
        | [c0, c1], _ =>
          exact ⟨c0, c1, rfl, ((htwo c0 c1 rfl).1).1 h⟩
      · rw [humanInput_other coord g.i g.j hc hl] at h
        exact Bool.noConfusion h
    · rintro ⟨c0, c1, hco, hrest⟩
      exact ((htwo c0 c1 hco).1).2 hrest
  · intro c0 c1 hco h
    obtain ⟨e1, e2, e3⟩ := (htwo c0 c1 hco).2 h
    have hv := toupper_value c0
    refine ⟨e1, fun hr => by rw [e2]; exact hv.1 hr, fun hr => by rw [e2]; exact hv.2 hr, ?_⟩
    rw [e1, e2]; exact e3
  · intro h
    simp only [humanTurn]
    rcases hres : humanInput coord g.i g.j with ⟨acc, i1, j1⟩
    rw [hres] at h
    simp only at h
    subst h
    exact ⟨_, rfl, rfl, rfl⟩

/-! ## The choice of the root and the cutoff -/

theorem RootInv_take {s : Root} {log : List ((Int × Int) × Int)} (hI : RootInv s log)
    (m n rs : Int) (hrs : rs ≠ 65) (hgt : s.score = 65 ∨ rs > s.score)
    (bl : Board) (z : Int) (fc : Bool) :
    RootInv ⟨bl, z, rs, fc, some (m, n)⟩ (log ++ [((m, n), rs)]) := by
  right
  refine ⟨hrs, m, n, log, [], rfl, rfl, ?_, fun e he => by simp at he⟩
  intro e he hne
  rcases hI with ⟨_, _, hall⟩ | ⟨hs, m1, n1, pre, post, _, hlog, hpre, hpost⟩
  · exact absurd (hall e he) hne
  · have hlt : s.score < rs := by
      rcases hgt with h | h
      · exact absurd h hs
      · exact h
    rw [hlog] at he
    rcases List.mem_append.1 he with h | h
    · exact lt_trans (hpre e h hne) hlt
    · rcases List.mem_cons.1 h with rfl | h1
      · exact hlt
      · exact lt_of_le_of_lt (hpost e h1 hne) hlt

theorem RootInv_keep {s : Root} {log : List ((Int × Int) × Int)} (hI : RootInv s log)
    (m n rs : Int) (hle : rs = 65 ∨ (s.score ≠ 65 ∧ ¬ rs > s.score))
    (bl : Board) (z : Int) (fc : Bool) :
    RootInv ⟨bl, z, s.score, fc, s.move⟩ (log ++ [((m, n), rs)]) := by
  rcases hI with ⟨h65, hmv, hall⟩ | ⟨hs, m1, n1, pre, post, hmv, hlog, hpre, hpost⟩
  · left
    refine ⟨h65, hmv, ?_⟩
    intro e he
    rcases List.mem_append.1 he with h | h
    · exact hall e h
    · simp only [List.mem_singleton] at h
      subst h
      rcases hle with h1 | h1
      · exact h1
      · exact absurd h65 h1.1
  · right
    refine ⟨hs, m1, n1, pre, post ++ [((m, n), rs)], hmv, ?_, hpre, ?_⟩
    · simp only [hlog, List.append_assoc, List.cons_append]
    · intro e he hne
      rcases List.mem_append.1 he with h | h
      · exact hpost e h hne
      · simp only [List.mem_singleton] at h
        subst h
        rcases hle with h1 | h1
        · exact absurd h1 hne
        · exact not_lt.1 h1.2

/-- The inner root loop with its record: the loop itself, the candidates
recorded, and the invariant. -/
theorem rootColsLog_spec (bl : Board) (m : Int) :
    ∀ (ns : List Int) (s : Root) (log : List ((Int × Int) × Int)) (s1 : Root)
      (log1 : List ((Int × Int) × Int)),
      rootColsLog bl m ns s log = some (s1, log1) →
      rootCols bl m ns s = some s1 ∧
      log1.map Prod.fst = log.map Prod.fst ++ ns.map (fun n => (m, n)) ∧
      (RootInv s log → RootInv s1 log1) := by
  intro ns
  induction ns with
  | nil =>
    intro s log s1 log1 h
    simp only [rootColsLog, Option.some.injEq, Prod.mk.injEq] at h
    obtain ⟨rfl, rfl⟩ := h
    exact ⟨rfl, by simp, fun hI => hI⟩
  | cons n ns ih =>
    intro s log s1 log1 h
    simp only [rootColsLog] at h
    simp only [rootCols]
    cases hc : minimax DEPTH_MAX.toNat s.boardAI s.z m n s.score s.firstChildAssigned with
    | none => rw [hc] at h; exact Option.noConfusion h
    | some r =>
      rw [hc] at h
      simp only [] at h ⊢
      split_ifs at h ⊢ with h65 hs65 hgt
      · obtain ⟨e1, e2, e3⟩ := ih _ _ _ _ h
        exact ⟨e1, by simp [e2], fun hI => e3 (RootInv_take hI m n r.score h65 (Or.inl hs65) _ _ _)⟩
      · obtain ⟨e1, e2, e3⟩ := ih _ _ _ _ h
        exact ⟨e1, by simp [e2], fun hI => e3 (RootInv_take hI m n r.score h65 (Or.inr hgt) _ _ _)⟩
      · obtain ⟨e1, e2, e3⟩ := ih _ _ _ _ h
        exact ⟨e1, by simp [e2],
          fun hI => e3 (RootInv_keep hI m n r.score (Or.inr ⟨hs65, hgt⟩) _ _ _)⟩
      · obtain ⟨e1, e2, e3⟩ := ih _ _ _ _ h
        exact ⟨e1, by simp [e2],
          fun hI => e3 (RootInv_keep hI m n r.score (Or.inl (not_not.1 h65)) _ _ _)⟩

/-- The inner root loop with its record returns whenever the loop itself does. -/
theorem rootColsLog_total (bl : Board) (m : Int) :
    ∀ (ns : List Int) (s : Root) (log : List ((Int × Int) × Int)) (s1 : Root),
      rootCols bl m ns s = some s1 → ∃ log1, rootColsLog bl m ns s log = some (s1, log1) := by
  intro ns
  induction ns with
  | nil =>
    intro s log s1 h
    simp only [rootCols, Option.some.injEq] at h
    subst h
    exact ⟨log, rfl⟩
  | cons n ns ih =>
    intro s log s1 h
    simp only [rootCols] at h
    simp only [rootColsLog]
    cases hc : minimax DEPTH_MAX.toNat s.boardAI s.z m n s.score s.firstChildAssigned with
    | none => rw [hc] at h; exact Option.noConfusion h
    | some r =>
      rw [hc] at h
      simp only [] at h ⊢
      split_ifs at h ⊢
      · exact ih _ _ _ h
      · exact ih _ _ _ h
      · exact ih _ _ _ h
      · exact ih _ _ _ h

theorem rootRowsLog_spec (bl : Board) :
    ∀ (ms : List Int) (s : Root) (log : List ((Int × Int) × Int)) (s1 : Root)
      (log1 : List ((Int × Int) × Int)),
      rootRowsLog bl ms s log = some (s1, log1) →
      rootRows bl ms s = some s1 ∧
      log1.map Prod.fst
        = log.map Prod.fst ++ ms.foldr (fun r acc => idx8.map (fun c => (r, c)) ++ acc) [] ∧
      (RootInv s log → RootInv s1 log1) := by
  intro ms
  induction ms with
  | nil =>
    intro s log s1 log1 h
    simp only [rootRowsLog, Option.some.injEq, Prod.mk.injEq] at h
    obtain ⟨rfl, rfl⟩ := h
    exact ⟨rfl, by simp, fun hI => hI⟩
  | cons m ms ih =>
    intro s log s1 log1 h
    simp only [rootRowsLog] at h
    cases hc : rootColsLog bl m idx8 s log with
    | none => rw [hc] at h; exact Option.noConfusion h
    | some p =>
      obtain ⟨s2, log2⟩ := p
      rw [hc] at h
      obtain ⟨c1, c2, c3⟩ := rootColsLog_spec bl m idx8 s log s2 log2 hc
      obtain ⟨e1, e2, e3⟩ := ih _ _ _ _ h
      refine ⟨by simp only [rootRows, c1, e1], ?_, fun hI => e3 (c3 hI)⟩
      rw [e2, c2]
      simp only [List.foldr_cons, List.append_assoc]

theorem rootRowsLog_total (bl : Board) :
    ∀ (ms : List Int) (s : Root) (log : List ((Int × Int) × Int)) (s1 : Root),
      rootRows bl ms s = some s1 → ∃ log1, rootRowsLog bl ms s log = some (s1, log1) := by
  intro ms
  induction ms with
  | nil =>
    intro s log s1 h
    simp only [rootRows, Option.some.injEq] at h
    subst h
    exact ⟨log, rfl⟩
  | cons m ms ih =>
    intro s log s1 h
    simp only [rootRows] at h
    cases hc : rootCols bl m idx8 s with
    | none => rw [hc] at h; exact Option.noConfusion h
    | some s2 =>
      rw [hc] at h
      obtain ⟨log2, h2⟩ := rootColsLog_total bl m idx8 s log s2 hc
      obtain ⟨log3, h3⟩ := ih s2 log2 s1 h
      exact ⟨log3, by simp only [rootRowsLog, h2, h3]⟩

/-- C12: the root search returns on every board; the record of its 64 calls
of `minimax` lists the candidates in row-major order; no coordinate is
selected exactly when every call returned 65, and a selected coordinate is
the first one in that order whose call returned the maximum of the returned
scores other than 65. -/
theorem rootSearch_first_max (board : Board) :
    ∃ r log, rootSearchLog board = some (r, log) ∧ rootSearch board = some r ∧
      log.map Prod.fst = cells ∧
      (r.move = none ↔ ∀ e ∈ log, e.2 = 65) ∧
      (∀ m n, r.move = some (m, n) → FirstMax log m n) := by
  obtain ⟨r, hr⟩ := rootSearch_total board
  obtain ⟨log, hlog⟩ := rootRowsLog_total board idx8 _ [] r hr
  obtain ⟨_, hcells, hinv⟩ := rootRowsLog_spec board idx8 _ [] r log hlog
  have hI : RootInv r log :=
    hinv (Or.inl ⟨rfl, rfl, fun e he => by simp at he⟩)
  refine ⟨r, log, hlog, hr, ?_, ?_, ?_⟩
  · rw [hcells]; rfl
  · constructor
    · intro hnone
      rcases hI with ⟨_, _, hall⟩ | ⟨_, m, n, _, _, hmv, _⟩
      · exact hall
      · rw [hmv] at hnone; exact Option.noConfusion hnone
    · intro hall
      rcases hI with ⟨_, hmv, _⟩ | ⟨hs, m, n, pre, post, _, hl, _, _⟩
      · exact hmv
      · have := hall ((m, n), r.score) (by rw [hl]; simp)
        exact absurd this hs
  · intro m n hmv
    rcases hI with ⟨_, hnone, _⟩ | ⟨hs, m1, n1, pre, post, hmv1, hl, hpre, hpost⟩
    · rw [hnone] at hmv; exact Option.noConfusion hmv
    · rw [hmv1] at hmv
      simp only [Option.some.injEq, Prod.mk.injEq] at hmv
      obtain ⟨rfl, rfl⟩ := hmv
      exact ⟨pre, post, r.score, hl, hs, hpre, hpost⟩

/-- C20 (evaluated at a failing input): on `cutoffBoard`, inside the node of
the root candidate (2,2), a non-first child called with `parentScore` 3, the
call for black's reply (0,4) returns 0, which triggers the cutoff test of a
node where -1 moves; yet `minimax` returns 7 for the node, not 65. -/
theorem minimax_cutoffBoard :
    (minimax 5 (applyMove cutoffBoard 2 2 1) 1 0 4 65 false).map (fun r => r.score) = some 0 ∧
    cutoff false (-1) 0 3 = true ∧
    (minimax 6 cutoffBoard 0 2 2 3 true).map (fun r => r.score) = some 7 := by
  decide

/-! ## Further instances at concrete positions -/

/-- Black's opening move (2,3), applied. -/
theorem opening_23_applied :
    isLegal openingBoard 2 3 (if (5 : Int) % 2 = 0 then 1 else -1) true
      = some (true, applyMove openingBoard 2 3 (-1)) := by
  rfl

/-- The theorem of C11 at depth 5 on the opening board, candidate (2,3). -/
theorem minimax_leaf_witness :
    isLegal openingBoard 2 3 (if (5 : Int) % 2 = 0 then 1 else -1) true
      = some (true, applyMove openingBoard 2 3 (-1)) ∧
    ((5 : Int) + 1 ≥ DEPTH_MAX ∨
      ¬ HasMove (applyMove openingBoard 2 3 (-1)) (-(if (5 : Int) % 2 = 0 then 1 else -1))) ∧
    ∃ r, minimax (0 + 1) openingBoard 5 2 3 65 false = some r ∧
      r.score = boardCount (applyMove openingBoard 2 3 (-1)) ∧
      r.score = (cells.map fun p => applyMove openingBoard 2 3 (-1) p.1 p.2).sum ∧
      r.boardAI = applyMove openingBoard 2 3 (-1) ∧ r.z = 5 :=
  ⟨opening_23_applied, Or.inl (by decide),
    minimax_leaf 0 openingBoard 5 2 3 65 false (applyMove openingBoard 2 3 (-1))
      opening_23_applied (Or.inl (by decide))⟩

/-- The theorem of C13 at black's opening move (2,3), applied. -/
theorem triState_preserved_witness :
    TriState openingBoard ∧ ((-1 : Int) = 1 ∨ (-1 : Int) = -1) ∧ inBounds 2 3 = true ∧
    (TriState openingBoard ∧
     (∃ r b1, isLegal openingBoard 2 3 (-1) true = some (r, b1) ∧ TriState b1) ∧
     (∃ r b1, isLegalAI openingBoard 2 3 (-1) = some (r, b1) ∧ TriState b1)) :=
  ⟨openingBoard_triState, by decide, by decide,
    triState_preserved openingBoard 2 3 (-1) true openingBoard_triState (by decide) (by decide)⟩

/-- The theorem of C14 at the corner (7,7) of the opening board. -/
theorem isLegal_in_bounds_witness :
    inBounds 7 7 = true ∧
    ((∀ flip : Bool, ∃ r b1, isLegal openingBoard 7 7 1 flip = some (r, b1)) ∧
     (∃ r b1, isLegalAI openingBoard 7 7 1 = some (r, b1))) :=
  ⟨by decide, isLegal_in_bounds openingBoard 1 7 7 (by decide)⟩

/-- The input D3 (codes 68, 51) holds no NUL. -/
theorem firstInput_noNul : ∀ c ∈ [(68 : Int), 51], c ≠ 0 := by
  decide

/-- The theorem of C17 at the input D3 (codes 68, 51) before black's first move. -/
theorem humanInput_spec_witness :
    (∀ c ∈ [(68 : Int), 51], c ≠ 0) ∧
    (((humanInput [68, 51] 0 0).1 = true ↔
      ∃ c0 c1, [(68 : Int), 51] = [c0, c1] ∧ ((65 ≤ c0 ∧ c0 ≤ 72) ∨ (97 ≤ c0 ∧ c0 ≤ 104)) ∧
        49 ≤ c1 ∧ c1 ≤ 56) ∧
    (∀ c0 c1, [(68 : Int), 51] = [c0, c1] → (humanInput [68, 51] 0 0).1 = true →
      (humanInput [68, 51] 0 0).2.1 = c1 - 49 ∧
      (65 ≤ c0 ∧ c0 ≤ 72 → (humanInput [68, 51] 0 0).2.2 = c0 - 65) ∧
      (97 ≤ c0 ∧ c0 ≤ 104 → (humanInput [68, 51] 0 0).2.2 = c0 - 97) ∧
      inBounds (humanInput [68, 51] 0 0).2.1 (humanInput [68, 51] 0 0).2.2 = true) ∧
    ((humanInput [68, 51] 0 0).1 = false →
      ∃ g1, humanTurn ⟨openingBoard, openingBoard, 0, -1, 0, 0⟩ [68, 51] = some g1 ∧
        g1.board = openingBoard ∧ g1.alignment = -1)) :=
  ⟨firstInput_noNul,
    humanInput_spec ⟨openingBoard, openingBoard, 0, -1, 0, 0⟩ [68, 51] firstInput_noNul⟩

/-- The theorem of C18 at the opening board. -/
theorem boardCount_range_witness :
    TriState openingBoard ∧
    (boardCount openingBoard = (cells.map fun p => openingBoard p.1 p.2).sum ∧
     boardCount openingBoard
       = (countCells openingBoard 1 : Int) - (countCells openingBoard (-1) : Int) ∧
     -64 ≤ boardCount openingBoard ∧ boardCount openingBoard ≤ 64 ∧
     boardCount openingBoard ≠ 65 ∧ boardCountAI openingBoard = boardCount openingBoard) :=
  ⟨openingBoard_triState, boardCount_range openingBoard openingBoard_triState⟩

/-- The theorem of C19 at the final score -3. -/
theorem determineWinner_spec_witness :
    ((-64 : Int) ≤ -3 ∧ (-3 : Int) ≤ 64) ∧
    ∃ v, determineWinner (-3) = some v ∧
      (v = Verdict.tie ↔ (-3 : Int) = 0) ∧
      (v = Verdict.winner 1 Colour.white ↔ (0 : Int) < -3) ∧
      (v = Verdict.winner (-1) Colour.black ↔ (-3 : Int) < 0) ∧
      ((-3 : Int) ≠ 0 → (((-3 : Int).natAbs : Nat) : Int) ≠ 0 ∧
        ∃ p, v = Verdict.winner ((-3 : Int).tdiv (((-3 : Int).natAbs : Nat) : Int)) p) :=
  ⟨by decide, determineWinner_spec (-3) (by decide)⟩

/-! ## The leaf test of the search -/

/-- With alignment 0 the outward scan never ends at an anchor. -/
theorem scanLoop_zero (b : Board) (x y : Int) :
    ∀ (fuel : Nat) (i j : Int) (r : Scan), scanLoop b 0 x y fuel i j = some r → r = Scan.stop := by
  intro fuel
  induction fuel with
  | zero => intro i j r h; exact Option.noConfusion h
  | succ fuel ih =>
    intro i j r h
    simp only [scanLoop] at h
    cases hr : rd b (i + x) (j + y) with
    | none => rw [hr] at h; exact Option.noConfusion h
    | some v =>
      rw [hr] at h
      simp only [] at h
      split_ifs at h with h1 h2
      · simp only [Option.some.injEq] at h; exact h.symm
      · cases hw : rd b (i + x + x) (j + y + y) with
        | none => rw [hw] at h; exact Option.noConfusion h
        | some w =>
          rw [hw] at h
          simp only [] at h
          split_ifs at h with h3
          · simp only [Option.some.injEq] at h; exact h.symm
          · exact ih _ _ _ h
      · simp only [Option.some.injEq] at h; exact h.symm

/-- With alignment 0 a direction changes nothing. -/
theorem dirStep_zero (b : Board) (io jo : Int) (flip leg : Bool) (d : Int × Int)
    (hv : d = (0, 0) ∨ isDir d.1 d.2) (h0 : inBounds io jo = true) :
    dirStep io jo 0 flip d (Dir.go b leg) = some (Dir.go b leg) := by
  by_cases hskip : (d.1 = 0 ∧ d.2 = 0) ∨ inBounds (io + d.1) (jo + d.2) = false
  · simp only [dirStep, if_pos hskip]
  · cases hsc : scanLoop b 0 d.1 d.2 8 io jo with
    | none =>
      have hnone : dirStep io jo 0 flip d (Dir.go b leg) = none := by
        simp only [dirStep, if_neg hskip, hsc]
      rcases dirStep_go b 0 io jo flip leg d hv h0 with ⟨n, _, _, h | ⟨_, b1, h, _⟩⟩ | ⟨_, h⟩
      · rw [hnone] at h; exact Option.noConfusion h.2
      · rw [hnone] at h; exact Option.noConfusion h
      · rw [hnone] at h; exact Option.noConfusion h
    | some r =>
      have := scanLoop_zero b d.1 d.2 8 io jo r hsc
      subst this
      simp only [dirStep, if_neg hskip, hsc]

theorem dirFold_zero (io jo : Int) (flip : Bool) (h0 : inBounds io jo = true) :
    ∀ ds : List (Int × Int), (∀ d ∈ ds, d = (0, 0) ∨ isDir d.1 d.2) →
      ∀ (b : Board) (leg : Bool),
        dirFold io jo 0 flip ds (Dir.go b leg) = some (Dir.go b leg) := by
  intro ds
  induction ds with
  | nil => intro _ b leg; rfl
  | cons d ds ih =>
    intro hv b leg
    simp only [dirFold, dirStep_zero b io jo flip leg d (hv d (List.mem_cons_self _ _)) h0]
    exact ih (fun e he => hv e (List.mem_cons_of_mem _ he)) b leg

/-- With alignment 0 no cell is a legal move and `isLegal` writes nothing. -/
theorem isLegal_zero (b : Board) (i j : Int) (flip : Bool) (h0 : inBounds i j = true) :
    isLegal b i j 0 flip = some (false, b) := by
  by_cases hz : b i j = 0
  · simp [isLegal, rd_some h0, hz, dirRows_eq, dirFold_zero i j flip h0 (dirList idx3) dirList_valid]
  · simp [isLegal, rd_some h0, hz]

/-- The two modes of `isLegal` agree, for every side value: either the move
is legal, the cell is empty, and applying it places the tile; or the move is
illegal and the board is left alone in both modes. -/
theorem isLegal_agree (b : Board) (i j side : Int) (h0 : inBounds i j = true) :
    (isLegal b i j side false = some (true, b) ∧ side ≠ 0 ∧ b i j = 0 ∧
      ∃ b1, isLegal b i j side true = some (true, b1) ∧ b1 i j = side) ∨
    (isLegal b i j side false = some (false, b) ∧ isLegal b i j side true = some (false, b)) := by
  by_cases hs : side = 0
  · subst hs
    right
    exact ⟨isLegal_zero b i j false h0, isLegal_zero b i j true h0⟩
  · rcases isLegal_true_core b i j side h0 hs with ⟨hq, b1, h1, ho, _⟩ | ⟨hn, h1⟩
    · left
      rcases isLegal_false_core b i j side h0 with ⟨_, hf⟩ | ⟨hnf, _⟩
      · exact ⟨hf, hs, hq.1, b1, h1, ho⟩
      · exact absurd hq (hnf hs)
    · right
      rcases isLegal_false_core b i j side h0 with ⟨hq, _⟩ | ⟨_, hf⟩
      · exact absurd hq hn
      · exact ⟨hf, h1⟩

/-- The inner loops of `isAnyMoveAvailableAI` and `isAnyMoveAvailable` on a
row of the board: both stop at the first legal cell of the row, the former
with the move applied, or both find none and leave the board alone. -/
theorem anyMoveColsAI_spec (b : Board) (side i : Int) (hi : 0 ≤ i ∧ i < 8) :
    ∀ js : List Int, (∀ j ∈ js, 0 ≤ j ∧ j < 8) →
      (∃ pre j post b1, js = pre ++ j :: post ∧
        (∀ k ∈ pre, isLegal b i k side false = some (false, b)) ∧
        isLegal b i j side false = some (true, b) ∧
        isLegal b i j side true = some (true, b1) ∧ b1 i j = side ∧ b i j = 0 ∧ side ≠ 0 ∧
        anyMoveColsAI side i js b = some (true, b1) ∧
        anyMoveCols side i js b = some (true, b)) ∨
      ((∀ k ∈ js, isLegal b i k side false = some (false, b)) ∧
        anyMoveColsAI side i js b = some (false, b) ∧
        anyMoveCols side i js b = some (false, b)) := by
  intro js
  induction js with
  | nil => intro _; right; exact ⟨fun k hk => by simp at hk, rfl, rfl⟩
  | cons j js ih =>
    intro hjs
    have hj := hjs j (List.mem_cons_self _ _)
    have hin : inBounds i j = true := (inBounds_iff i j).2 ⟨hi.1, hi.2, hj.1, hj.2⟩
    rcases isLegal_agree b i j side hin with ⟨hf, hs, hz, b1, ht, ho⟩ | ⟨hf, ht⟩
    · left
      refine ⟨[], j, js, b1, rfl, fun k hk => by simp at hk, hf, ht, ho, hz, hs, ?_, ?_⟩
      · simp only [anyMoveColsAI, isLegalAI_eq, ht]
      · simp only [anyMoveCols, hf]
    · rcases ih (fun k hk => hjs k (List.mem_cons_of_mem _ hk)) with
        ⟨pre, j1, post, b1, hsplit, hpre, hf1, ht1, ho, hz, hs, hAI, hPl⟩ | ⟨hall, hAI, hPl⟩
      · left
        refine ⟨j :: pre, j1, post, b1, by simp [hsplit], ?_, hf1, ht1, ho, hz, hs, ?_, ?_⟩
        · intro k hk
          rcases List.mem_cons.1 hk with rfl | hk1
          · exact hf
          · exact hpre k hk1
        · simp only [anyMoveColsAI, isLegalAI_eq, ht, hAI]
        · simp only [anyMoveCols, hf, hPl]
      · right
        refine ⟨?_, ?_, ?_⟩
        · intro k hk
          rcases List.mem_cons.1 hk with rfl | hk1
          · exact hf
          · exact hall k hk1
        · simp only [anyMoveColsAI, isLegalAI_eq, ht, hAI]
        · simp only [anyMoveCols, hf, hPl]

/-- The outer loops of `isAnyMoveAvailableAI` and `isAnyMoveAvailable`. -/
theorem anyMoveRowsAI_spec (b : Board) (side : Int) :
    ∀ is : List Int, (∀ i ∈ is, 0 ≤ i ∧ i < 8) →
      (∃ pre i post jpre j jpost b1, is = pre ++ i :: post ∧ idx8 = jpre ++ j :: jpost ∧
        (∀ r ∈ pre, ∀ c ∈ idx8, isLegal b r c side false = some (false, b)) ∧
        (∀ c ∈ jpre, isLegal b i c side false = some (false, b)) ∧
        isLegal b i j side false = some (true, b) ∧
        isLegal b i j side true = some (true, b1) ∧ b1 i j = side ∧ b i j = 0 ∧ side ≠ 0 ∧
        anyMoveRowsAI side is b = some (true, b1) ∧
        anyMoveRows side is b = some (true, b)) ∨
      ((∀ r ∈ is, ∀ c ∈ idx8, isLegal b r c side false = some (false, b)) ∧
        anyMoveRowsAI side is b = some (false, b) ∧
        anyMoveRows side is b = some (false, b)) := by
  intro is
  induction is with
  | nil => intro _; right; exact ⟨fun k hk => by simp at hk, rfl, rfl⟩
  | cons i is ih =>
    intro his
    have hi := his i (List.mem_cons_self _ _)
    rcases anyMoveColsAI_spec b side i hi idx8 (fun j hj => (mem_idx8 j).1 hj) with
      ⟨jpre, j, jpost, b1, hsplit, hpre, hf, ht, ho, hz, hs, hAI, hPl⟩ | ⟨hall, hAI, hPl⟩
    · left
      refine ⟨[], i, is, jpre, j, jpost, b1, rfl, hsplit, fun r hr => by simp at hr, hpre, hf, ht,
        ho, hz, hs, ?_, ?_⟩
      · simp only [anyMoveRowsAI, hAI]
      · simp only [anyMoveRows, hPl]
    · rcases ih (fun k hk => his k (List.mem_cons_of_mem _ hk)) with
        ⟨pre, i1, post, jpre, j, jpost, b1, hsplit, hjsplit, hrows, hpre, hf, ht, ho, hz, hs,
          hAI1, hPl1⟩ | ⟨hall1, hAI1, hPl1⟩
      · left
        refine ⟨i :: pre, i1, post, jpre, j, jpost, b1, by simp [hsplit], hjsplit, ?_, hpre, hf,
          ht, ho, hz, hs, ?_, ?_⟩
        · intro r hr
          rcases List.mem_cons.1 hr with rfl | hr1
          · exact hall
          · exact hrows r hr1
        · simp only [anyMoveRowsAI, hAI, hAI1]
        · simp only [anyMoveRows, hPl, hPl1]
      · right
        refine ⟨?_, ?_, ?_⟩
        · intro r hr
          rcases List.mem_cons.1 hr with rfl | hr1
          · exact hall
          · exact hall1 r hr1
        · simp only [anyMoveRowsAI, hAI, hAI1]
        · simp only [anyMoveRows, hPl, hPl1]

/-- The loop indices come in increasing order: what precedes an index in
`idx8` is every smaller index. -/
theorem idx8_before {pre post : List Int} {i : Int} (h : idx8 = pre ++ i :: post) :
    ∀ k, 0 ≤ k → k < i → k ∈ pre := by
  intro k hk0 hki
  have hsorted : idx8.Pairwise (· < ·) := by decide
  rw [h] at hsorted
  obtain ⟨_, hp2, _⟩ := List.pairwise_append.1 hsorted
  have hi8 : i ∈ idx8 := by rw [h]; simp
  have hi := (mem_idx8 i).1 hi8
  have hk8 : k ∈ idx8 := (mem_idx8 k).2 ⟨hk0, by omega⟩
  rw [h] at hk8
  rcases List.mem_append.1 hk8 with hm | hm
  · exact hm
  · rcases List.mem_cons.1 hm with rfl | hm1
    · omega
    · have := (List.pairwise_cons.1 hp2).1 k hm1
      omega

/-- C23: for every scratch board and side value, `isAnyMoveAvailableAI(side)`
returns the boolean that `isAnyMoveAvailable(side)` returns on the same board
(which that one leaves unchanged); when it returns false `boardAI` is
unchanged; when it returns true `boardAI` is the board with the first legal
move of that side in row-major order applied, which differs from the board it
was called on at the placed tile. -/
theorem isAnyMoveAvailableAI_effect (b : Board) (side : Int) :
    ∃ r b1, isAnyMoveAvailableAI b side = some (r, b1) ∧
      isAnyMoveAvailable b side = some (r, b) ∧
      (r = false → b1 = b) ∧
      (r = true → ∃ i j, FirstLegal b side i j ∧
        isLegal b i j side true = some (true, b1) ∧ b1 i j = side ∧ b1 i j ≠ b i j) := by
  rcases anyMoveRowsAI_spec b side idx8 (fun i hi => (mem_idx8 i).1 hi) with
    ⟨pre, i, post, jpre, j, jpost, b1, hsplit, hjsplit, hrows, hpre, hf, ht, ho, hz, hs,
      hAI, hPl⟩ | ⟨_, hAI, hPl⟩
  · refine ⟨true, b1, hAI, hPl, fun h => Bool.noConfusion h, fun _ => ⟨i, j, ?_, ht, ho, ?_⟩⟩
    · refine ⟨isLegal_some_inBounds hf, hf, ?_⟩
      intro r c hrc hlt
      rw [inBounds_iff] at hrc
      rcases hlt with h | ⟨rfl, h⟩
      · exact hrows r (idx8_before hsplit r hrc.1 h) c ((mem_idx8 c).2 ⟨hrc.2.2.1, hrc.2.2.2⟩)
      · exact hpre c (idx8_before hjsplit c hrc.2.2.1 h)
    · rw [ho, hz]; exact hs
  · exact ⟨false, b, hAI, hPl, fun _ => rfl, fun h => Bool.noConfusion h⟩

/-! ## The depth counter and the calls a node makes -/

/-- The inner child loop with its record is the inner child loop. -/
theorem childColsLog_fst (child : Board → Int → Int → Int → Int → Bool → Option Ret)
    (bl : Board) (fc : Bool) (al ps m : Int) :
    ∀ (ns : List Int) (s : Loop) (log : List Call),
      (childColsLog child bl fc al ps m ns s log).map Prod.fst
        = childCols child bl fc al ps m ns s := by
  intro ns
  induction ns with
  | nil => intro s log; rfl
  | cons n ns ih =>
    intro s log
    simp only [childColsLog, childCols]
    cases hc : child s.boardAI s.z m n s.score s.firstChildAssigned with
    | none => rfl
    | some r =>
      simp only []
      split_ifs
      · rfl
      · exact ih _ _
      · exact ih _ _

/-- The outer child loop with its record is the outer child loop. -/
theorem childRowsLog_fst (child : Board → Int → Int → Int → Int → Bool → Option Ret)
    (bl : Board) (fc : Bool) (al ps : Int) :
    ∀ (ms : List Int) (s : Loop) (log : List Call),
      (childRowsLog child bl fc al ps ms s log).map Prod.fst
        = childRows child bl fc al ps ms s := by
  intro ms
  induction ms with
  | nil => intro s log; rfl
  | cons m ms ih =>
    intro s log
    simp only [childRowsLog, childRows]
    have h := childColsLog_fst child bl fc al ps m idx8 s log
    cases hc : childColsLog child bl fc al ps m idx8 s log with
    | none => rw [hc] at h; rw [← h]; rfl
    | some p =>
      obtain ⟨s1, log1⟩ := p
      rw [hc] at h
      rw [← h]
      exact ih s1 log1

/-- A call of `minimax` with its record is the call of `minimax`. -/
theorem minimaxLog_fst (fuel : Nat) (bAI : Board) (z i j ps : Int) (pf : Bool) :
    (minimaxLog fuel bAI z i j ps pf).map Prod.fst = minimax fuel bAI z i j ps pf := by
  cases fuel with
  | zero => rfl
  | succ fuel =>
    simp only [minimaxLog, minimax]
    cases he : enterNode bAI z i j pf with
    | none => rfl
    | some e =>
      cases e with
      | illegal r => rfl
      | leaf r => rfl
      | inner bl fc al start =>
        simp only []
        have h := childRowsLog_fst (fun bd zd m n ps fc => minimax fuel bd zd m n ps fc)
          bl fc al ps idx8 start []
        cases hc : childRowsLog (fun bd zd m n ps fc => minimax fuel bd zd m n ps fc)
            bl fc al ps idx8 start [] with
        | none => rw [hc] at h; rw [← h]; rfl
        | some p => rw [hc] at h; rw [← h]; rfl

/-- Every call recorded by the inner child loop was made at the depth the
loop was entered with, when the calls return with `z` unchanged. -/
theorem childColsLog_z (child : Board → Int → Int → Int → Int → Bool → Option Ret)
    (hchild : ∀ bd zd m n ps fc r, child bd zd m n ps fc = some r → r.z = zd)
    (bl : Board) (fc : Bool) (al ps m zc : Int) :
    ∀ (ns : List Int) (s : Loop) (log : List Call) (s1 : Loop) (log1 : List Call),
      childColsLog child bl fc al ps m ns s log = some (s1, log1) →
      s.z = zc → (∀ e ∈ log, e.2.1 = zc) → s1.z = zc ∧ ∀ e ∈ log1, e.2.1 = zc := by
  intro ns
  induction ns with
  | nil =>
    intro s log s1 log1 h hz hl
    simp only [childColsLog, Option.some.injEq, Prod.mk.injEq] at h
    obtain ⟨rfl, rfl⟩ := h
    exact ⟨hz, hl⟩
  | cons n ns ih =>
    intro s log s1 log1 h hz hl
    simp only [childColsLog] at h
    cases hc : child s.boardAI s.z m n s.score s.firstChildAssigned with
    | none => rw [hc] at h; exact Option.noConfusion h
    | some r =>
      rw [hc] at h
      have hrz : r.z = zc := by rw [hchild _ _ _ _ _ _ _ hc, hz]
      have hl1 : ∀ e ∈ log ++ [((m, n), s.z, r.score)], e.2.1 = zc := by
        intro e he
        rcases List.mem_append.1 he with h1 | h1
        · exact hl e h1
        · simp only [List.mem_singleton] at h1
          subst h1; exact hz
      simp only [] at h
      split_ifs at h
      · simp only [Option.some.injEq, Prod.mk.injEq] at h
        obtain ⟨rfl, rfl⟩ := h
        exact ⟨hrz, hl1⟩
      · exact ih _ _ _ _ h hrz hl1
      · exact ih _ _ _ _ h hrz hl1

theorem childRowsLog_z (child : Board → Int → Int → Int → Int → Bool → Option Ret)
    (hchild : ∀ bd zd m n ps fc r, child bd zd m n ps fc = some r → r.z = zd)
    (bl : Board) (fc : Bool) (al ps zc : Int) :
    ∀ (ms : List Int) (s : Loop) (log : List Call) (s1 : Loop) (log1 : List Call),
      childRowsLog child bl fc al ps ms s log = some (s1, log1) →
      s.z = zc → (∀ e ∈ log, e.2.1 = zc) → s1.z = zc ∧ ∀ e ∈ log1, e.2.1 = zc := by
  intro ms
  induction ms with
  | nil =>
    intro s log s1 log1 h hz hl
    simp only [childRowsLog, Option.some.injEq, Prod.mk.injEq] at h
    obtain ⟨rfl, rfl⟩ := h
    exact ⟨hz, hl⟩
  | cons m ms ih =>
    intro s log s1 log1 h hz hl
    simp only [childRowsLog] at h
    cases hc : childColsLog child bl fc al ps m idx8 s log with
    | none => rw [hc] at h; exact Option.noConfusion h
    | some p =>
      obtain ⟨s2, log2⟩ := p
      rw [hc] at h
      obtain ⟨hz2, hl2⟩ := childColsLog_z child hchild bl fc al ps m zc idx8 s log s2 log2 hc hz hl
      exact ih _ _ _ _ h hz2 hl2

/-- A call of `minimax` with its record returns whenever the call itself does. -/
theorem minimaxLog_total {fuel : Nat} {bAI : Board} {z i j ps : Int} {pf : Bool} {r : Ret}
    (h : minimax fuel bAI z i j ps pf = some r) :
    ∃ log, minimaxLog fuel bAI z i j ps pf = some (r, log) := by
  have hfst := minimaxLog_fst fuel bAI z i j ps pf
  rw [h] at hfst
  cases hl : minimaxLog fuel bAI z i j ps pf with
  | none => rw [hl] at hfst; exact Option.noConfusion hfst
  | some p =>
    rw [hl] at hfst
    simp only [Option.map_some', Option.some.injEq] at hfst
    obtain ⟨r1, log⟩ := p
    simp only at hfst
    subst hfst
    exact ⟨log, rfl⟩

/-- The calls recorded for a node were all made one level below the node's call. -/
theorem minimaxLog_z {fuel : Nat} {bAI : Board} {z i j ps : Int} {pf : Bool} {r : Ret}
    {log : List Call} (h : minimaxLog fuel bAI z i j ps pf = some (r, log)) :
    ∀ e ∈ log, e.2.1 = z + 1 := by
  cases fuel with
  | zero => exact Option.noConfusion h
  | succ fuel =>
    simp only [minimaxLog] at h
    cases he : enterNode bAI z i j pf with
    | none => rw [he] at h; exact Option.noConfusion h
    | some e =>
      rw [he] at h
      rcases enterNode_cases he with ⟨b1, _, rfl⟩ | ⟨b1, _, ⟨b2, rfl⟩ | ⟨b2, al, _, rfl⟩⟩
      · simp only [Option.some.injEq, Prod.mk.injEq] at h
        obtain ⟨_, rfl⟩ := h
        intro e he; simp at he
      · simp only [Option.some.injEq, Prod.mk.injEq] at h
        obtain ⟨_, rfl⟩ := h
        intro e he; simp at he
      · simp only [] at h
        cases hc : childRowsLog (fun bd zd m n ps fc => minimax fuel bd zd m n ps fc) b1
            (pf == false) al ps idx8 ⟨b2, z + 1, 65, false⟩ [] with
        | none => rw [hc] at h; exact Option.noConfusion h
        | some p =>
          obtain ⟨s, log1⟩ := p
          rw [hc] at h
          simp only [Option.some.injEq, Prod.mk.injEq] at h
          obtain ⟨_, rfl⟩ := h
          exact (childRowsLog_z _ (fun bd zd m n ps fc r hr => minimax_z fuel bd zd m n ps fc r hr)
            b1 (pf == false) al ps (z + 1) idx8 _ [] s log1 hc rfl
            (fun e he => by simp at he)).2

/-- C24: for every scratch board, candidate `(i, j)` of the board and entry
depth `z >= 0`, a call of `minimax` returns whenever the levels it may nest
are covered (`DEPTH_MAX <= z + fuel`), which `DEPTH_MAX` levels always do;
it returns with `z` as at entry, and every call it makes for a child is made
at depth `z + 1`. -/
theorem minimax_balanced (bAI : Board) (z i j ps : Int) (pf : Bool) (hz : 0 ≤ z)
    (hij : inBounds i j = true) :
    (∀ fuel : Nat, 1 ≤ fuel → DEPTH_MAX ≤ z + (fuel : Int) →
      ∃ r log, minimaxLog fuel bAI z i j ps pf = some (r, log) ∧
        minimax fuel bAI z i j ps pf = some r ∧ r.z = z ∧ ∀ e ∈ log, e.2.1 = z + 1) ∧
    (∃ r, minimax DEPTH_MAX.toNat bAI z i j ps pf = some r ∧ r.z = z) := by
  constructor
  · intro fuel h1 hf
    obtain ⟨r, hr, hrz⟩ := minimax_total fuel z h1 hf bAI i j ps pf hij
    obtain ⟨log, hlog⟩ := minimaxLog_total hr
    exact ⟨r, log, hlog, hr, hrz, minimaxLog_z hlog⟩
  · have hf : DEPTH_MAX ≤ z + ((DEPTH_MAX.toNat : Nat) : Int) := by
      have : ((DEPTH_MAX.toNat : Nat) : Int) = 6 := by decide
      rw [this]; simp only [DEPTH_MAX]; omega
    exact minimax_total DEPTH_MAX.toNat z (by decide) hf bAI i j ps pf hij

/-! ## The score of a first child, and what a cutoff skips -/

theorem cutoff_first (al rs ps : Int) : cutoff true al rs ps = false := by
  simp [cutoff]

/-- One recorded call keeps the invariant of a node without cutoff. -/
theorem AggInv_step (al score rs : Int) (log : List Call) (c : Int × Int) (zc : Int)
    (hI : AggInv al score log) :
    AggInv al (if rs ≠ 65 then aggregate al score rs else score) (log ++ [(c, zc, rs)]) := by
  by_cases hrs : rs = 65
  · rw [if_neg (not_not.2 hrs)]
    rcases hI with ⟨h65, hall⟩ | ⟨hne, ⟨e0, he0, hv⟩, hb⟩
    · left
      refine ⟨h65, ?_⟩
      intro e he
      rcases List.mem_append.1 he with h | h
      · exact hall e h
      · simp only [List.mem_singleton] at h; subst h; exact hrs
    · right
      refine ⟨hne, ⟨e0, List.mem_append_left _ he0, hv⟩, ?_⟩
      intro e he hnes
      rcases List.mem_append.1 he with h | h
      · exact hb e h hnes
      · simp only [List.mem_singleton] at h; subst h; exact absurd hrs hnes
  · rw [if_pos hrs]
    have hmem : (c, zc, rs) ∈ log ++ [(c, zc, rs)] := by simp
    rcases hI with ⟨h65, hall⟩ | ⟨hne, ⟨e0, he0, hv⟩, hb⟩
    · have hag : aggregate al score rs = rs := by
        simp only [aggregate, h65, true_or, if_true, ite_self]
      rw [hag]
      right
      refine ⟨hrs, ⟨_, hmem, rfl⟩, ?_⟩
      intro e he hnes
      rcases List.mem_append.1 he with h | h
      · exact absurd (hall e h) hnes
      · simp only [List.mem_singleton] at h; subst h
        exact ⟨fun _ => le_refl _, fun _ => le_refl _⟩
    · right
      by_cases hal : al = 1
      · by_cases hgt : rs > score
        · have hag : aggregate al score rs = rs := by
            simp only [aggregate, hal, ne_eq, not_true_eq_false, if_false, hgt, or_true, if_true]
          rw [hag]
          refine ⟨hrs, ⟨_, hmem, rfl⟩, ?_⟩
          intro e he hnes
          refine ⟨fun _ => ?_, fun h => absurd hal h⟩
          rcases List.mem_append.1 he with h | h
          · have := (hb e h hnes).1 hal
            omega
          · simp only [List.mem_singleton] at h; subst h; exact le_refl _
        · have hag : aggregate al score rs = score := by
            simp only [aggregate, hal, ne_eq, not_true_eq_false, if_false, hne, hgt, or_self]
          rw [hag]
          refine ⟨hne, ⟨e0, List.mem_append_left _ he0, hv⟩, ?_⟩
          intro e he hnes
          refine ⟨fun _ => ?_, fun h => absurd hal h⟩
          rcases List.mem_append.1 he with h | h
          · exact (hb e h hnes).1 hal
          · simp only [List.mem_singleton] at h; subst h; exact not_lt.1 hgt
      · by_cases hlt : rs < score
        · have hag : aggregate al score rs = rs := by
            simp only [aggregate, ne_eq, hal, not_false_eq_true, if_true, hlt, hne, and_self,
              or_true]
          rw [hag]
          refine ⟨hrs, ⟨_, hmem, rfl⟩, ?_⟩
          intro e he hnes
          refine ⟨fun h => absurd h hal, fun _ => ?_⟩
          rcases List.mem_append.1 he with h | h
          · have := (hb e h hnes).2 hal
            omega
          · simp only [List.mem_singleton] at h; subst h; exact le_refl _
        · have hag : aggregate al score rs = score := by
            simp only [aggregate, ne_eq, hal, not_false_eq_true, if_true, hlt, hne, false_and,
              or_self, if_false]
          rw [hag]
          refine ⟨hne, ⟨e0, List.mem_append_left _ he0, hv⟩, ?_⟩
          intro e he hnes
          refine ⟨fun h => absurd h hal, fun _ => ?_⟩
          rcases List.mem_append.1 he with h | h
          · exact (hb e h hnes).2 hal
          · simp only [List.mem_singleton] at h; subst h; exact not_lt.1 hlt

/-- The inner child loop of a first child: every column is called, and the
invariant of the score is kept. -/
theorem childColsLog_first (child : Board → Int → Int → Int → Int → Bool → Option Ret)
    (bl : Board) (al ps m : Int) :
    ∀ (ns : List Int) (s : Loop) (log : List Call) (s1 : Loop) (log1 : List Call),
      childColsLog child bl true al ps m ns s log = some (s1, log1) →
      log1.map Prod.fst = log.map Prod.fst ++ ns.map (fun n => (m, n)) ∧
      (AggInv al s.score log → AggInv al s1.score log1) := by
  intro ns
  induction ns with
  | nil =>
    intro s log s1 log1 h
    simp only [childColsLog, Option.some.injEq, Prod.mk.injEq] at h
    obtain ⟨rfl, rfl⟩ := h
    exact ⟨by simp, fun hI => hI⟩
  | cons n ns ih =>
    intro s log s1 log1 h
    simp only [childColsLog, cutoff_first, Bool.false_eq_true, if_false] at h
    cases hc : child s.boardAI s.z m n s.score s.firstChildAssigned with
    | none => rw [hc] at h; exact Option.noConfusion h
    | some r =>
      rw [hc] at h
      simp only [] at h
      have hstep := fun hI => AggInv_step al s.score r.score log (m, n) s.z hI
      split_ifs at h with h65
      · obtain ⟨e1, e2⟩ := ih _ _ _ _ h
        refine ⟨by simp [e1], fun hI => e2 ?_⟩
        have := hstep hI
        rw [if_pos h65] at this
        exact this
      · obtain ⟨e1, e2⟩ := ih _ _ _ _ h
        refine ⟨by simp [e1], fun hI => e2 ?_⟩
        have := hstep hI
        rw [if_neg h65] at this
        exact this

theorem childRowsLog_first (child : Board → Int → Int → Int → Int → Bool → Option Ret)
    (bl : Board) (al ps : Int) :
    ∀ (ms : List Int) (s : Loop) (log : List Call) (s1 : Loop) (log1 : List Call),
      childRowsLog child bl true al ps ms s log = some (s1, log1) →
      log1.map Prod.fst
        = log.map Prod.fst ++ ms.foldr (fun r acc => idx8.map (fun c => (r, c)) ++ acc) [] ∧
      (AggInv al s.score log → AggInv al s1.score log1) := by
  intro ms
  induction ms with
  | nil =>
    intro s log s1 log1 h
    simp only [childRowsLog, Option.some.injEq, Prod.mk.injEq] at h
    obtain ⟨rfl, rfl⟩ := h
    exact ⟨by simp, fun hI => hI⟩
  | cons m ms ih =>
    intro s log s1 log1 h
    simp only [childRowsLog] at h
    cases hc : childColsLog child bl true al ps m idx8 s log with
    | none => rw [hc] at h; exact Option.noConfusion h
    | some p =>
      obtain ⟨s2, log2⟩ := p
      rw [hc] at h
      obtain ⟨c1, c2⟩ := childColsLog_first child bl al ps m idx8 s log s2 log2 hc
      obtain ⟨e1, e2⟩ := ih _ _ _ _ h
      refine ⟨?_, fun hI => e2 (c2 hI)⟩
      rw [e1, c1]
      simp only [List.foldr_cons, List.append_assoc]

/-- What the part of `minimax` before the child loop hands to the loop of an
internal node. -/
theorem enterNode_inner {bAI : Board} {z i j : Int} {pf : Bool} {bl : Board} {fc : Bool}
    {al : Int} {start : Loop} (h : enterNode bAI z i j pf = some (Entry.inner bl fc al start)) :
    fc = (pf == false) ∧ al = (if z % 2 = 0 then 1 else -1) * -1 ∧
    start.z = z + 1 ∧ start.score = 65 ∧ start.firstChildAssigned = false ∧
    ¬ z + 1 ≥ DEPTH_MAX ∧
    isLegalAI bAI i j (if z % 2 = 0 then 1 else -1) = some (true, bl) ∧
    isAnyMoveAvailableAI bl ((if z % 2 = 0 then 1 else -1) * -1) = some (true, start.boardAI) := by
  simp only [enterNode] at h
  generalize (if z % 2 = 0 then (1 : Int) else -1) = al0 at h ⊢
  cases hl : isLegalAI bAI i j al0 with
  | none => rw [hl] at h; exact Option.noConfusion h
  | some p =>
    obtain ⟨r, b1⟩ := p
    rw [hl] at h
    cases r with
    | false => simp at h
    | true =>
      simp only [] at h
      by_cases hz : z + 1 ≥ DEPTH_MAX
      · rw [if_pos hz] at h; simp at h
      · rw [if_neg hz] at h
        cases ha : isAnyMoveAvailableAI b1 (al0 * -1) with
        | none => rw [ha] at h; exact Option.noConfusion h
        | some q =>
          obtain ⟨r2, b2⟩ := q
          rw [ha] at h
          cases r2 with
          | false => simp at h
          | true =>
            simp only [Option.some.injEq, Entry.inner.injEq] at h
            obtain ⟨rfl, rfl, rfl, rfl⟩ := h
            exact ⟨rfl, rfl, rfl, rfl, rfl, hz, rfl, ha⟩

/-- C22: for every internal node that is the first legal child of its parent
(the call is made while the parent's flag is still false), `minimax` returns,
calls `minimax` for all 64 coordinates in row-major order, and its score is
65 when every child call returned 65 and otherwise the maximum (when `z` is
odd, so that +1 moves at the node) or the minimum (when `z` is even, so that
-1 moves at the node) of the returned scores other than 65. -/
theorem minimax_first_child (fuel : Nat) (bAI : Board) (z i j ps : Int)
    (hfuel : DEPTH_MAX ≤ z + ((fuel + 1 : Nat) : Int))
    (hnode : (enterNode bAI z i j false).map Entry.internal = some true) :
    ∃ r log, minimaxLog (fuel + 1) bAI z i j ps false = some (r, log) ∧
      minimax (fuel + 1) bAI z i j ps false = some r ∧
      log.map Prod.fst = cells ∧
      ((∀ e ∈ log, e.2.2 = 65) → r.score = 65) ∧
      ((∃ e ∈ log, e.2.2 ≠ 65) → r.score ≠ 65 ∧ (∃ e ∈ log, e.2.2 = r.score) ∧
        ∀ e ∈ log, e.2.2 ≠ 65 →
          (z % 2 ≠ 0 → e.2.2 ≤ r.score) ∧ (z % 2 = 0 → r.score ≤ e.2.2)) := by
  cases he : enterNode bAI z i j false with
  | none => rw [he] at hnode; exact Option.noConfusion hnode
  | some e =>
    rw [he] at hnode
    cases e with
    | illegal r => simp [Entry.internal] at hnode
    | leaf r => simp [Entry.internal] at hnode
    | inner bl fc al start =>
      obtain ⟨hfc, hal, hsz, hsc, _, hdepth, hleg, _⟩ := enterNode_inner he
      have hfc1 : fc = true := by rw [hfc]; rfl
      subst hfc1
      have hin : inBounds i j = true := by
        rw [isLegalAI_eq] at hleg
        exact isLegal_some_inBounds hleg
      have hfz : DEPTH_MAX ≤ z + (((fuel + 1 : Nat)) : Int) := hfuel
      obtain ⟨r, hr, _⟩ := minimax_total (fuel + 1) z (by omega) hfz bAI i j ps false hin
      obtain ⟨log, hlog⟩ := minimaxLog_total hr
      refine ⟨r, log, hlog, hr, ?_⟩
      simp only [minimaxLog, he] at hlog
      cases hc : childRowsLog (fun bd zd m n ps fc => minimax fuel bd zd m n ps fc)
          bl true al ps idx8 start [] with
      | none => rw [hc] at hlog; exact Option.noConfusion hlog
      | some p =>
        obtain ⟨s, log1⟩ := p
        rw [hc] at hlog
        simp only [Option.some.injEq, Prod.mk.injEq] at hlog
        obtain ⟨rfl, rfl⟩ := hlog
        obtain ⟨hcells, hinv⟩ := childRowsLog_first _ bl al ps idx8 start [] s log1 hc
        have hI : AggInv al s.score log1 :=
          hinv (Or.inl ⟨hsc, fun e he => by simp at he⟩)
        refine ⟨by rw [hcells]; rfl, ?_, ?_⟩
        · intro hall
          rcases hI with ⟨h65, _⟩ | ⟨hne, ⟨e0, he0, hv⟩, _⟩
          · exact h65
          · exact absurd (hall e0 he0) (by rw [hv]; exact hne)
        · rintro ⟨e1, he1, hne1⟩
          rcases hI with ⟨_, hall⟩ | ⟨hne, hex, hb⟩
          · exact absurd (hall e1 he1) hne1
          · refine ⟨hne, hex, ?_⟩
            intro e hel hnes
            obtain ⟨b1, b2⟩ := hb e hel hnes
            constructor
            · intro hodd
              apply b1
              rw [hal, if_neg hodd]; rfl
            · intro heven
              apply b2
              rw [hal, if_pos heven]; decide

/-- C21 (evaluated at a failing input): on `cutoffBoard`, the node of the
root candidate (2,2) is not a first child and is called with `parentScore` 3;
its call for (0,4) returns 0 and triggers the cutoff test; the rest of row 0,
(0,5) among it, is not called, but the 56 candidates of rows 1 to 7 are, and
the call for (2,0) returns 7. -/
theorem minimaxLog_cutoffBoard :
    (minimaxLog 6 cutoffBoard 0 2 2 3 true).map
        (fun p => (p.2.filter (fun e => decide (e.2.2 ≠ 65)),
          decide (((0 : Int), (5 : Int)) ∈ p.2.map Prod.fst),
          decide (((2 : Int), (0 : Int)) ∈ p.2.map Prod.fst),
          (p.2.map Prod.fst).length))
      = some ([((0, 4), 1, 0), ((2, 0), 1, 7)], false, true, 61) ∧
    cutoff false (-1) 0 3 = true := by
  decide

/-! ## Instances for the search -/

/-- On `firstChildBoard` the node of (2,2) returns -1, and its calls for
(0,4), (2,0) and (2,1) are the ones that return a score other than 65: 8, -1
and -1. -/
theorem firstChildBoard_node :
    (minimaxLog (5 + 1) firstChildBoard 0 2 2 65 false).map
        (fun p => (p.1.score, p.2.filter (fun e => decide (e.2.2 ≠ 65))))
      = some (-1, [((0, 4), 1, 8), ((2, 0), 1, -1), ((2, 1), 1, -1)]) := by
  decide

/-- On `firstChildBoard` the root's only call that returns a score other than
65 is the one for (2,2), its first legal candidate. -/
theorem firstChildBoard_root :
    (rootSearchLog firstChildBoard).map (fun p => p.2.filter (fun e => decide (e.2 ≠ 65)))
      = some [((2, 2), -1)] := by
  decide

/-- The theorem of C22 at the node of the root's first legal candidate (2,2)
on `firstChildBoard`: -1 moves at the node, three of its 64 child calls return
a score other than 65 (8, -1 and -1), and the node returns their minimum, -1. -/
theorem minimax_first_child_witness :
    DEPTH_MAX ≤ (0 : Int) + ((5 + 1 : Nat) : Int) ∧
    (enterNode firstChildBoard 0 2 2 false).map Entry.internal = some true ∧
    ∃ r log, minimaxLog (5 + 1) firstChildBoard 0 2 2 65 false = some (r, log) ∧
      minimax (5 + 1) firstChildBoard 0 2 2 65 false = some r ∧
      log.map Prod.fst = cells ∧
      log.filter (fun e => decide (e.2.2 ≠ 65))
        = [((0, 4), 1, 8), ((2, 0), 1, -1), ((2, 1), 1, -1)] ∧
      (∃ e ∈ log, e.2.2 ≠ 65) ∧
      r.score = -1 ∧ r.score ≠ 65 ∧ (∃ e ∈ log, e.2.2 = r.score) ∧
      ∀ e ∈ log, e.2.2 ≠ 65 →
        ((0 : Int) % 2 ≠ 0 → e.2.2 ≤ r.score) ∧ ((0 : Int) % 2 = 0 → r.score ≤ e.2.2) := by
  have hnode : (enterNode firstChildBoard 0 2 2 false).map Entry.internal = some true := by
    decide
  obtain ⟨r, log, h1, h2, h3, _, h5⟩ :=
    minimax_first_child 5 firstChildBoard 0 2 2 65 (by decide) hnode
  have heval := firstChildBoard_node
  rw [h1] at heval
  simp only [Option.map_some', Option.some.injEq, Prod.mk.injEq] at heval
  obtain ⟨hscore, hfilter⟩ := heval
  have hex : ∃ e ∈ log, e.2.2 ≠ 65 := by
    have hmem : (((0 : Int), (4 : Int)), (1 : Int), (8 : Int))
        ∈ log.filter (fun e => decide (e.2.2 ≠ 65)) := by
      rw [hfilter]; simp
    exact ⟨_, (List.mem_filter.1 hmem).1, by decide⟩
  obtain ⟨c1, c2, c3⟩ := h5 hex
  exact ⟨by decide, hnode, r, log, h1, h2, h3, hfilter, hex, hscore, c1, c2, c3⟩

/-- The theorem of C24 at the root candidate (7,7) on `cornerBoard`. -/
theorem minimax_balanced_witness :
    (0 : Int) ≤ 0 ∧ inBounds 7 7 = true ∧
    ((∀ fuel : Nat, 1 ≤ fuel → DEPTH_MAX ≤ (0 : Int) + (fuel : Int) →
      ∃ r log, minimaxLog fuel cornerBoard 0 7 7 65 false = some (r, log) ∧
        minimax fuel cornerBoard 0 7 7 65 false = some r ∧ r.z = 0 ∧
        ∀ e ∈ log, e.2.1 = 0 + 1) ∧
     (∃ r, minimax DEPTH_MAX.toNat cornerBoard 0 7 7 65 false = some r ∧ r.z = 0)) :=
  ⟨by decide, by decide, minimax_balanced cornerBoard 0 7 7 65 false (by decide) (by decide)⟩

end Othello
